import Mathlib

/-!
# pgbarrel: the `test_decoding` lexer and decoder

A shallow embedding of `postgresql_decoding.go` (the identifier and constant
scanners) and `postgresql_test_decoding.go` (the `test_decoding` message
decoder), with the Go standard-library primitives they call
(`utf8.DecodeRune`, `bytes.IndexRune`, `bytes.IndexFunc`, `unicode.IsLetter`,
the compiled regular expression) modelled next to them.

Conventions:
* a byte is a natural number (a real byte is below 256; every definition
  treats a larger number as an invalid byte), a rune is a natural number;
* a Go slice is `Option (List α)`: `none` is the nil slice, `some xs` a non-nil
  slice with elements `xs`.  Capacity is not modelled: a slice expression is
  checked against the length;
* a panic, an out-of-range slice expression and an exhausted iteration budget
  are the three `Fault`s; a function that can abort returns `Except Fault _`.
-/

namespace PgBarrel

/-! ## Go values -/

/-- A Go `string`: its bytes. -/
abbrev GoString := List Nat

/-- A Go slice by value: `none` is nil, `some xs` is a non-nil slice holding
`xs`.  Where the elements lie is not part of it; for the four lists of the
record, which `Parse` writes, that is `StringSlice`. -/
abbrev Slice (α : Type) := Option (List α)

/-- Ways in which a call does not return. -/
inductive Fault where
  | panic
  | outOfRange
  | fuel
  deriving DecidableEq, Repr

/-- The elements of a slice; `string(s)` for a byte slice. -/
def Slice.elems {α : Type} : Slice α → List α
  | none => []
  | some xs => xs

/-- The Go builtin `len(s)`. -/
def Slice.len {α : Type} (s : Slice α) : Nat := s.elems.length

/-- The slice expression `s[i:]`. -/
def Slice.sliceFrom {α : Type} (s : Slice α) (i : Nat) : Except Fault (Slice α) :=
  if i ≤ s.len then .ok (s.map (List.drop i)) else .error .outOfRange

/-- The slice expression `s[:j]`. -/
def Slice.sliceTo {α : Type} (s : Slice α) (j : Nat) : Except Fault (Slice α) :=
  if j ≤ s.len then .ok (s.map (List.take j)) else .error .outOfRange

/-- The slice expression `s[i:j]`. -/
def Slice.sliceBetween {α : Type} (s : Slice α) (i j : Nat) : Except Fault (Slice α) :=
  if i ≤ j ∧ j ≤ s.len then .ok (s.map (fun xs => (xs.take j).drop i)) else .error .outOfRange

/-- The index expression `xs[i]` of a slice or a string with elements `xs`. -/
def indexAt {α : Type} (xs : List α) (i : Nat) : Except Fault α :=
  match xs[i]? with
  | some x => .ok x
  | none => .error .outOfRange

/-- The Go builtin `append(s, x)`, by value: the elements of the result.  The
cell it stores `x` in is given by `StringSlice.append`. -/
def Slice.append {α : Type} (s : Slice α) (x : α) : Slice α :=
  some (s.elems ++ [x])

/-- The bytes of an ASCII string literal of the source. -/
def ascii (s : String) : List Nat := s.toList.map Char.toNat

/-- The Go function `bytes.HasPrefix`. -/
def HasPrefix (s pre : List Nat) : Bool := s.take pre.length == pre

/-! ## `unicode/utf8` and `bytes` -/

/-- The constant `utf8.RuneError`. -/
def RuneError : Nat := 0xFFFD

/-- The lowest second byte `utf8.acceptRanges` allows after the first byte `p0`. -/
def acceptLo (p0 : Nat) : Nat :=
  if p0 = 0xE0 then 0xA0 else if p0 = 0xF0 then 0x90 else 0x80

/-- The highest second byte `utf8.acceptRanges` allows after the first byte `p0`. -/
def acceptHi (p0 : Nat) : Nat :=
  if p0 = 0xED then 0x9F else if p0 = 0xF4 then 0x8F else 0xBF

/-- `utf8.DecodeRune` after a first byte `p0` in `0xC2..0xDF` (two bytes). -/
def decode2 (p0 : Nat) : List Nat → Nat × Nat
  | b1 :: _ =>
    if b1 < acceptLo p0 ∨ acceptHi p0 < b1 then (RuneError, 1)
    else (p0 % 32 * 64 + b1 % 64, 2)
  | [] => (RuneError, 1)

/-- `utf8.DecodeRune` after a first byte `p0` in `0xE0..0xEF` (three bytes). -/
def decode3 (p0 : Nat) : List Nat → Nat × Nat
  | b1 :: b2 :: _ =>
    if b1 < acceptLo p0 ∨ acceptHi p0 < b1 then (RuneError, 1)
    else if b2 < 0x80 ∨ 0xBF < b2 then (RuneError, 1)
    else (p0 % 16 * 4096 + b1 % 64 * 64 + b2 % 64, 3)
  | _ => (RuneError, 1)

/-- `utf8.DecodeRune` after a first byte `p0` in `0xF0..0xF4` (four bytes). -/
def decode4 (p0 : Nat) : List Nat → Nat × Nat
  | b1 :: b2 :: b3 :: _ =>
    if b1 < acceptLo p0 ∨ acceptHi p0 < b1 then (RuneError, 1)
    else if b2 < 0x80 ∨ 0xBF < b2 then (RuneError, 1)
    else if b3 < 0x80 ∨ 0xBF < b3 then (RuneError, 1)
    else (p0 % 8 * 262144 + b1 % 64 * 4096 + b2 % 64 * 64 + b3 % 64, 4)
  | _ => (RuneError, 1)

/-- The Go function `utf8.DecodeRune`: the first rune of `p` and its width in
bytes; `(RuneError, 0)` on empty input and `(RuneError, 1)` on an invalid or
truncated encoding.  The first byte selects the width and the range of the
second byte (the tables `first` and `acceptRanges`).  The masks and shifts of
the original are written with `%` and `*`: `p0 & 0x1F` is `p0 % 32`, and the
shifted fields occupy disjoint bits, so `|` is `+`. -/
def DecodeRune : List Nat → Nat × Nat
  | [] => (RuneError, 0)
  | p0 :: rest =>
    if p0 < 0x80 then (p0, 1)
    else if p0 < 0xC2 then (RuneError, 1)
    else if p0 < 0xE0 then decode2 p0 rest
    else if p0 < 0xF0 then decode3 p0 rest
    else if p0 < 0xF5 then decode4 p0 rest
    else (RuneError, 1)

/-- The Go function `bytes.IndexRune(s, r)` for an ASCII rune `r`, which is
`bytes.IndexByte`: the offset of the first byte equal to `c`; `none` is -1. -/
def IndexByte : List Nat → Nat → Option Nat
  | [], _ => none
  | b :: bs, c => if b = c then some 0 else (IndexByte bs c).map (· + 1)

/-- The loop of `bytes.IndexFunc` from the current offset on: `s` is what is
left of the input, the result is relative to it. -/
def indexFuncLoop (f : Nat → Bool) : Nat → List Nat → Option Nat
  | 0, _ => none
  | fuel + 1, s =>
    match s with
    | [] => none
    | _ :: _ =>
      let rw := DecodeRune s
      if f rw.1 then some 0
      else (indexFuncLoop f fuel (s.drop rw.2)).map (· + rw.2)

/-- The Go function `bytes.IndexFunc(s, f)`: the byte offset of the first rune
satisfying `f`; `none` is -1.  Every step consumes at least one byte, so
`s.length` steps reach the end of `s`. -/
def IndexFunc (s : List Nat) (f : Nat → Bool) : Option Nat :=
  indexFuncLoop f s.length s

/-- The Latin-1 part of `unicode.IsLetter` (the `properties` table). -/
def latin1Letter (c : Nat) : Bool :=
  (0x41 ≤ c && c ≤ 0x5A) || (0x61 ≤ c && c ≤ 0x7A) ||
  c == 0xAA || c == 0xB5 || c == 0xBA ||
  (0xC0 ≤ c && c ≤ 0xD6) || (0xD8 ≤ c && c ≤ 0xF6) || (0xF8 ≤ c && c ≤ 0xFF)

/-- The Go function `unicode.IsLetter`.  Up to `unicode.MaxLatin1` it reads the
`properties` table; beyond, it searches the range table `unicode.Letter`,
which is standard-library data and is taken as the parameter `letter`. -/
def IsLetter (letter : Nat → Bool) (c : Nat) : Bool :=
  if c ≤ 0xFF then latin1Letter c else letter c

/-! ## `postgresql_decoding.go` -/

def pgIsIdentifier (letter : Nat → Bool) (c : Nat) : Bool :=
  (0x30 ≤ c && c ≤ 0x39) || (c == 0x24) || (c == 0x5F) || IsLetter letter c

def pgIsNumeric (c : Nat) : Bool :=
  (0x30 ≤ c && c ≤ 0x39) || (c == 0x2E) || (c == 0x65) || (c == 0x2B) || (c == 0x2D)

def pgIsNotIdentifier (letter : Nat → Bool) (c : Nat) : Bool := !pgIsIdentifier letter c

def pgIsNotNumeric (c : Nat) : Bool := !pgIsNumeric c

/-- The result pair `(remaining, token)` of a scanner. -/
abbrev Scan := Slice Nat × Slice Nat

/-- The statement `return src[i:], src[:i]`. -/
def cutAt (src : Slice Nat) (i : Nat) : Except Fault Scan := do
  let remaining ← src.sliceFrom i
  let token ← src.sliceTo i
  return (remaining, token)

/-- Lines 54-67 of `pgParseConstant`: the null keyword, then the numeric run. -/
def pgParseConstant.tail (src : Slice Nat) : Except Fault Scan :=
  match src.elems with
  | b0 :: b1 :: b2 :: b3 :: _ =>
    if (b0 = 0x6E ∨ b0 = 0x4E) ∧ (b1 = 0x75 ∨ b1 = 0x55) ∧
        (b2 = 0x6C ∨ b2 = 0x4C) ∧ (b3 = 0x6C ∨ b3 = 0x4C) then
      cutAt src 4
    else
      match IndexFunc src.elems pgIsNotNumeric with
      | none => do return (← src.sliceTo 0, src)
      | some i => cutAt src i
  | _ =>
    match IndexFunc src.elems pgIsNotNumeric with
    | none => do return (← src.sliceTo 0, src)
    | some i => cutAt src i

/-- The `for i < len(src)` loop of `pgParseConstant`, entered with offset `i`
and the width `w` of the quote at `i`. -/
def pgParseConstant.loop (src : Slice Nat) : Nat → Nat → Nat → Except Fault Scan
  | 0, _, _ => .error .fuel
  | fuel + 1, i, w =>
    if i < src.len then do
      -- advance past quote
      let i := i + w
      -- find quote
      let s ← src.sliceFrom i
      match IndexByte s.elems 0x27 with
      | some n =>
        -- advance past quote
        let i := i + (n + 1)
        if i = src.len then
          -- quote was end
          cutAt src i
        else do
          let s ← src.sliceFrom i
          let cw := DecodeRune s.elems
          if cw.1 ≠ 0x27 then
            -- quote was closing
            cutAt src i
          else
            pgParseConstant.loop src fuel i cw.2
      | none =>
        -- lacks closing quote
        return (src, none)
    else
      pgParseConstant.tail src

def pgParseConstant (src : Slice Nat) : Except Fault Scan :=
  let cw := DecodeRune src.elems
  if cw.1 = 0x27 then pgParseConstant.loop src (src.len + 1) 0 cw.2
  else pgParseConstant.tail src

/-- How a segment of `pgParseIdentifier` ends: with a `return`, or by going on
in the loop body with the variables `i`, `c`, `w`. -/
inductive SegmentExit where
  | ret (r : Scan)
  | next (i : Nat) (c : Nat) (w : Nat)

/-- The block at the label `Quoted` of `pgParseIdentifier`, entered with the
offset `i` of a quote and its width `w`. -/
def pgParseIdentifier.quoted (src : Slice Nat) : Nat → Nat → Nat → Except Fault SegmentExit
  | 0, _, _ => .error .fuel
  | fuel + 1, i, w => do
    -- advance past quote
    let i := i + w
    -- find quote
    let s ← src.sliceFrom i
    match IndexByte s.elems 0x22 with
    | some n =>
      -- advance past quote
      let i := i + (n + 1)
      if i = src.len then
        -- quote was end
        return .ret (← cutAt src i)
      else do
        let s ← src.sliceFrom i
        let cw := DecodeRune s.elems
        if cw.1 = 0x22 then
          -- quote was escaping
          pgParseIdentifier.quoted src fuel i cw.2
        else if cw.1 ≠ 0x2E then
          -- quote was closing
          return .ret (← cutAt src i)
        else
          -- fallthrough to next segment
          return .next i cw.1 cw.2
    | none =>
      -- lacks closing quote
      return .ret (src, none)

/-- The block `if pgIsIdentifier(c) { ... }` of `pgParseIdentifier`. -/
def pgParseIdentifier.bare (letter : Nat → Bool) (src : Slice Nat) (i : Nat) (c : Nat)
    (w : Nat) : Except Fault SegmentExit :=
  if pgIsIdentifier letter c then do
    let i := i + w
    let s ← src.sliceFrom i
    match IndexFunc s.elems (pgIsNotIdentifier letter) with
    | none =>
      -- all identifier
      return .ret (← src.sliceTo 0, src)
    | some n =>
      let i := i + n
      let s ← src.sliceFrom i
      let cw := DecodeRune s.elems
      if cw.1 ≠ 0x2E then
        -- end
        return .ret (← cutAt src i)
      else
        -- continue to next segment
        return .next i cw.1 cw.2
  else
    return .next i c w

/-- The body of the `for` loop of `pgParseIdentifier` at offset `i`: the block
for a quoted segment when the rune at `i` is a quote, then the block for a
bare segment. -/
def pgParseIdentifier.body (letter : Nat → Bool) (src : Slice Nat) (i : Nat) :
    Except Fault SegmentExit := do
  let s ← src.sliceFrom i
  let cw := DecodeRune s.elems
  if cw.1 = 0x22 then
    match ← pgParseIdentifier.quoted src (src.len + 1) i cw.2 with
    | .ret r => return .ret r
    | .next i c w => pgParseIdentifier.bare letter src i c w
  else
    pgParseIdentifier.bare letter src i cw.1 cw.2

/-- The `for` loop of `pgParseIdentifier`, at its condition with offset `i`;
the post statement is `i += w`. -/
def pgParseIdentifier.loop (letter : Nat → Bool) (src : Slice Nat) :
    Nat → Nat → Except Fault Scan
  | 0, _ => .error .fuel
  | fuel + 1, i =>
    if i < src.len then do
      match ← pgParseIdentifier.body letter src i with
      | .ret r => return r
      | .next i _ w => pgParseIdentifier.loop letter src fuel (i + w)
    else
      return (src, none)

def pgParseIdentifier (letter : Nat → Bool) (src : Slice Nat) : Except Fault Scan :=
  pgParseIdentifier.loop letter src (src.len + 1) 0

/-! ## `postgresql_test_decoding.go` -/

/-- Modelled from the spec: the declaration of `ReplicationOperation` is not
among the sources; the fields are those of the data model (section 3), as
`Parse`, the receiver and the tests use them. -/
structure ReplicationOperation where
  Position : GoString
  Operation : GoString
  Target : GoString
  OldColumns : Slice GoString
  OldValues : Slice GoString
  NewColumns : Slice GoString
  NewValues : Slice GoString
  deriving DecidableEq, Repr

/-- A Go `error` value: `none` is nil. -/
abbrev GoError := Option String

/-- The slice expression `s[:0]`, which is always in range, by value: no
element.  The array and the capacity it keeps are given by
`StringSlice.reset`. -/
def Slice.reset {α : Type} (s : Slice α) : Slice α := s.map (fun _ => [])

/-- The lazy repetition of `.` in `pgTestDecodingTypeRegexp`, after the
opening bracket: one rune other than a newline, then `]:` if it is there,
otherwise one more rune.  The result is the number of bytes matched, the
closing `]:` included. -/
def typeRegexpLazy : Nat → List Nat → Option Nat
  | 0, _ => none
  | fuel + 1, s =>
    match s with
    | [] => none
    | _ :: _ =>
      let rw := DecodeRune s
      if rw.1 = 0x0A then none
      else if HasPrefix (s.drop rw.2) [0x5D, 0x3A] then some (rw.2 + 2)
      else (typeRegexpLazy fuel (s.drop rw.2)).map (· + rw.2)

/-- The call `pgTestDecodingTypeRegexp.Find(src)` for the expression
`^\[.+?\]:`: the leftmost-first match, which starts at offset 0 and takes as
few runes as possible before the first `]:` it can end on; `none` is nil. -/
def pgTestDecodingTypeRegexpFind (src : List Nat) : Option (List Nat) :=
  match src with
  | 0x5B :: s => (typeRegexpLazy s.length s).map (fun n => src.take (n + 1))
  | _ => none

/-- The result of `parseColumn`. -/
structure Column where
  remaining : Slice Nat
  name : Slice Nat
  value : Slice Nat
  err : GoError

def parseColumn (letter : Nat → Bool) (src : Slice Nat) : Except Fault Column := do
  let (src, name) ← pgParseIdentifier letter src
  match pgTestDecodingTypeRegexpFind src.elems with
  | none => .error .panic
  | some m =>
    let (src, value) ← pgParseConstant (← src.sliceFrom m.length)
    let src ← (match src.elems with
      | 0x20 :: _ => src.sliceFrom 1
      | _ => pure src)
    return { remaining := src, name := name, value := value, err := none }

/-- The loop of `parseDelete`, at its condition with what is left of the input
and the record so far. -/
def parseDelete.loop (letter : Nat → Bool) :
    Nat → Slice Nat → ReplicationOperation → Except Fault (GoError × ReplicationOperation)
  | 0, _, _ => .error .fuel
  | fuel + 1, input, output =>
    if input.len > 0 then do
      let col ← parseColumn letter input
      if col.err ≠ none then return (col.err, output)
      else
        parseDelete.loop letter fuel col.remaining
          { output with
            OldColumns := output.OldColumns.append col.name.elems
            OldValues := output.OldValues.append col.value.elems }
    else
      return (none, output)

def parseDelete (letter : Nat → Bool) (input : Slice Nat) (output : ReplicationOperation) :
    Except Fault (GoError × ReplicationOperation) :=
  parseDelete.loop letter (input.len + 1) input output

/-- The loop of `parseInsert`, at its condition; the second loop of
`parseUpdate` is the same loop. -/
def parseInsert.loop (letter : Nat → Bool) :
    Nat → Slice Nat → ReplicationOperation → Except Fault (GoError × ReplicationOperation)
  | 0, _, _ => .error .fuel
  | fuel + 1, input, output =>
    if input.len > 0 then do
      let col ← parseColumn letter input
      if col.err ≠ none then return (col.err, output)
      else
        parseInsert.loop letter fuel col.remaining
          { output with
            NewColumns := output.NewColumns.append col.name.elems
            NewValues := output.NewValues.append col.value.elems }
    else
      return (none, output)

def parseInsert (letter : Nat → Bool) (input : Slice Nat) (output : ReplicationOperation) :
    Except Fault (GoError × ReplicationOperation) :=
  parseInsert.loop letter (input.len + 1) input output

/-- How the first loop of `parseUpdate` ends: with `return err`, or with the
input left for the second loop. -/
inductive OldKeyExit where
  | ret (err : GoError) (output : ReplicationOperation)
  | done (input : Slice Nat) (output : ReplicationOperation)

/-- The first loop of `parseUpdate`, over the old key. -/
def parseUpdate.oldKey (letter : Nat → Bool) :
    Nat → Slice Nat → ReplicationOperation → Except Fault OldKeyExit
  | 0, _, _ => .error .fuel
  | fuel + 1, input, output =>
    if input.len > 0 then do
      let col ← parseColumn letter input
      if col.err ≠ none then return .ret col.err output
      else
        let output := { output with
          OldColumns := output.OldColumns.append col.name.elems
          OldValues := output.OldValues.append col.value.elems }
        if HasPrefix col.remaining.elems (ascii "new-tuple: ") then
          return .done (← col.remaining.sliceFrom 11) output
        else
          parseUpdate.oldKey letter fuel col.remaining output
    else
      return .done input output

def parseUpdate (letter : Nat → Bool) (input : Slice Nat) (output : ReplicationOperation) :
    Except Fault (GoError × ReplicationOperation) := do
  let first ← if HasPrefix input.elems (ascii "old-key: ") then do
      let input ← input.sliceFrom 9
      parseUpdate.oldKey letter (input.len + 1) input output
    else pure (.done input output)
  match first with
  | .ret err output => return (err, output)
  | .done input output => parseInsert.loop letter (input.len + 1) input output

/-- The method `pgTestDecoding.Parse`: the error it returns and the record it
leaves in `output`. -/
def Parse (letter : Nat → Bool) (input : Slice Nat) (output : ReplicationOperation) :
    Except Fault (GoError × ReplicationOperation) := do
  let output := { output with
    OldColumns := output.OldColumns.reset
    NewColumns := output.NewColumns.reset
    OldValues := output.OldValues.reset
    NewValues := output.NewValues.reset }
  if input.len < 1 then .error .panic
  else do
    let first ← indexAt input.elems 0
    if first = 0x42 then do
      -- BEGIN
      let operation ← input.sliceTo 5
      let target ← input.sliceFrom 6
      return (none, { output with Operation := operation.elems, Target := target.elems })
    else if first = 0x43 then do
      -- COMMIT
      let operation ← input.sliceTo 6
      let target ← input.sliceFrom 7
      return (none, { output with Operation := operation.elems, Target := target.elems })
    else if !HasPrefix input.elems (ascii "table ") then .error .panic
    else do
      let (current, target) ← pgParseIdentifier letter (← input.sliceFrom 6)
      if !HasPrefix current.elems (ascii ": ") then .error .panic
      else do
        let rest ← current.sliceFrom (2 + 6)
        let operation ← current.sliceBetween 2 (2 + 6)
        let current := rest
        if operation.elems ≠ ascii "DELETE" ∧ operation.elems ≠ ascii "INSERT" ∧
            operation.elems ≠ ascii "UPDATE" then .error .panic
        else if !HasPrefix current.elems (ascii ": ") then .error .panic
        else do
          let current ← current.sliceFrom 2
          let output := { output with Target := target.elems, Operation := operation.elems }
          let op0 ← indexAt output.Operation 0
          if op0 = 0x44 then
            -- DELETE
            parseDelete letter current output
          else if op0 = 0x49 then
            -- INSERT
            parseInsert letter current output
          else if op0 = 0x55 then
            -- UPDATE
            parseUpdate letter current output
          else
            return (none, output)

/-! ## The grammar of well-formed input

The texts the properties quantify over: identifiers made of bare and quoted
segments, constants, and column entries as `test_decoding` prints them. -/

/-- A Unicode scalar value: a code point outside the surrogate range. -/
def isScalar (c : Nat) : Bool := c < 0xD800 || (0xDFFF < c && c < 0x110000)

/-- The UTF-8 encoding of a scalar value. -/
def utf8Encode (c : Nat) : List Nat :=
  if c < 0x80 then [c]
  else if c < 0x800 then [0xC0 + c / 64, 0x80 + c % 64]
  else if c < 0x10000 then [0xE0 + c / 4096, 0x80 + c / 64 % 64, 0x80 + c % 64]
  else [0xF0 + c / 262144, 0x80 + c / 4096 % 64, 0x80 + c / 64 % 64, 0x80 + c % 64]

/-- The UTF-8 text of a run of characters. -/
def encodeRunes : List Nat → List Nat
  | [] => []
  | c :: cs => utf8Encode c ++ encodeRunes cs

/-- The bytes `s` with every byte `q` doubled. -/
def doubled (q : Nat) : List Nat → List Nat
  | [] => []
  | b :: bs => if b = q then q :: q :: doubled q bs else b :: doubled q bs

/-- The shapes of a decoded rune: an ASCII byte, an error of width at most one,
or a multi-byte rune above the ASCII range whose bytes are all above it. -/
inductive DecodeShape : List Nat → Nat × Nat → Prop
  | empty : DecodeShape [] (RuneError, 0)
  | ascii (b r) : b < 0x80 → DecodeShape (b :: r) (b, 1)
  | invalid (b r) : 0x80 ≤ b → DecodeShape (b :: r) (RuneError, 1)
  | two (p0 b1 r c) : 0x80 ≤ p0 → 0x80 ≤ b1 → 0x80 ≤ c → DecodeShape (p0 :: b1 :: r) (c, 2)
  | three (p0 b1 b2 r c) : 0x80 ≤ p0 → 0x80 ≤ b1 → 0x80 ≤ b2 → 0x80 ≤ c →
      DecodeShape (p0 :: b1 :: b2 :: r) (c, 3)
  | four (p0 b1 b2 b3 r c) : 0x80 ≤ p0 → 0x80 ≤ b1 → 0x80 ≤ b2 → 0x80 ≤ b3 → 0x80 ≤ c →
      DecodeShape (p0 :: b1 :: b2 :: b3 :: r) (c, 4)

/-- A segment of an identifier: a bare run of characters, or a quoted segment
given by its content before escaping. -/
inductive Segment where
  | bare (chars : List Nat)
  | quoted (content : List Nat)
  deriving DecidableEq, Repr

/-- The text of a segment: the encoded run, or the content between double
quotes with every double quote in it doubled. -/
def Segment.text : Segment → List Nat
  | .bare chars => encodeRunes chars
  | .quoted content => 0x22 :: doubled 0x22 content ++ [0x22]

/-- A bare segment is a non-empty run of identifier characters; the content of
a quoted segment is arbitrary. -/
def Segment.wellFormed (letter : Nat → Bool) : Segment → Bool
  | .bare chars => !chars.isEmpty && chars.all (fun c => isScalar c && pgIsIdentifier letter c)
  | .quoted _ => true

/-- The text of further segments, each after a `.`. -/
def dotted : List Segment → List Nat
  | [] => []
  | s :: ss => 0x2E :: s.text ++ dotted ss

/-- A non-empty sequence of segments. -/
structure Identifier where
  first : Segment
  more : List Segment
  deriving DecidableEq, Repr

/-- The segments joined by single dots. -/
def Identifier.text (t : Identifier) : List Nat := t.first.text ++ dotted t.more

def Identifier.wellFormed (letter : Nat → Bool) (t : Identifier) : Bool :=
  t.first.wellFormed letter && t.more.all (fun s => s.wellFormed letter)

/-- A remainder after an identifier: empty, or beginning with a character that
is not an identifier character, not `"` and not `.`. -/
def endsIdentifier (letter : Nat → Bool) (r : List Nat) : Bool :=
  r.isEmpty ||
    (!pgIsIdentifier letter (DecodeRune r).1 && (DecodeRune r).1 != 0x22 &&
      (DecodeRune r).1 != 0x2E)

/-- Whether the last of the segments `s :: ss` is bare. -/
def lastBare : Segment → List Segment → Bool
  | .bare _, [] => true
  | .quoted _, [] => false
  | _, s :: ss => lastBare s ss

/-- A remainder after the identifier `t`: empty, or beginning with a character
that is not `"`, not `.` and, when the last segment of `t` is bare, not an
identifier character. -/
def Identifier.endedBy (letter : Nat → Bool) (t : Identifier) (r : List Nat) : Bool :=
  r.isEmpty ||
    ((DecodeRune r).1 != 0x22 && (DecodeRune r).1 != 0x2E &&
      (!lastBare t.first t.more || !pgIsIdentifier letter (DecodeRune r).1))

/-- The string literal with content `s`: `s` between single quotes, every
single quote in it doubled. -/
def stringLiteral (s : List Nat) : List Nat := 0x27 :: doubled 0x27 s ++ [0x27]

/-- Four bytes that read `null` under ASCII case folding. -/
def isNullKeyword : List Nat → Bool
  | [b0, b1, b2, b3] =>
    (b0 == 0x6E || b0 == 0x4E) && (b1 == 0x75 || b1 == 0x55) &&
      (b2 == 0x6C || b2 == 0x4C) && (b3 == 0x6C || b3 == 0x4C)
  | _ => false

/-- A value as `test_decoding` prints it. -/
inductive Constant where
  | string (content : List Nat)
  | null (keyword : List Nat)
  | numeric (token : List Nat)
  deriving DecidableEq, Repr

def Constant.text : Constant → List Nat
  | .string content => stringLiteral content
  | .null keyword => keyword
  | .numeric token => token

/-- A string literal with any content, a null keyword, or a non-empty token of
bytes of the numeric class. -/
def Constant.wellFormed : Constant → Bool
  | .string _ => true
  | .null keyword => isNullKeyword keyword
  | .numeric token => !token.isEmpty && token.all pgIsNumeric

/-- Whether `]:` occurs in the bytes. -/
def hasCloser : List Nat → Bool
  | [] => false
  | b :: bs => (b == 0x5D && bs.head? == some 0x3A) || hasCloser bs

/-- A column entry `name[type]:value`. -/
structure ColumnEntry where
  name : Identifier
  type : List Nat
  value : Constant
  deriving DecidableEq, Repr

def ColumnEntry.text (e : ColumnEntry) : List Nat :=
  e.name.text ++ 0x5B :: e.type ++ 0x5D :: 0x3A :: e.value.text

/-- The name and the value are well formed; the type is a non-empty text
without `]:` and without a newline. -/
def ColumnEntry.wellFormed (letter : Nat → Bool) (e : ColumnEntry) : Bool :=
  e.name.wellFormed letter && !e.type.isEmpty && !hasCloser e.type && !e.type.contains 0x0A &&
    e.value.wellFormed

/-- Column entries joined by single spaces. -/
def columnsText : List ColumnEntry → List Nat
  | [] => []
  | [e] => e.text
  | e :: es => e.text ++ 0x20 :: columnsText es

/-- What both scanners keep: the token followed by the remainder is the input. -/
def Conserves (src : Slice Nat) (r : Scan) : Prop := r.2.elems ++ r.1.elems = src.elems

/-- What a segment block of `pgParseIdentifier` entered in range guarantees:
a conserving result, or a later position that is in range again. -/
def SegmentExit.Good (src : Slice Nat) (bound : Nat) : SegmentExit → Prop
  | .ret r => Conserves src r
  | .next i _ w => bound ≤ i + w ∧ i + w ≤ src.len

/-- How a well-formed segment ends, given the token read up to its end and
what follows: the scan returns, or there is a `.` and it goes on. -/
def segmentExit (tok tail : List Nat) : SegmentExit :=
  if tail = [] then .ret (some [], some tok)
  else if (DecodeRune tail).1 = 0x2E then .next tok.length 0x2E (DecodeRune tail).2
  else .ret (some tail, some tok)

/-- The record after the two `append`s to the old side. -/
def ReplicationOperation.addOld (o : ReplicationOperation) (name value : GoString) :
    ReplicationOperation :=
  { o with OldColumns := o.OldColumns.append name, OldValues := o.OldValues.append value }

/-- The record after the two `append`s to the new side. -/
def ReplicationOperation.addNew (o : ReplicationOperation) (name value : GoString) :
    ReplicationOperation :=
  { o with NewColumns := o.NewColumns.append name, NewValues := o.NewValues.append value }

/-- The record after the old side has taken the entries in order. -/
def ReplicationOperation.addOldEntries (o : ReplicationOperation) (es : List ColumnEntry) :
    ReplicationOperation :=
  es.foldl (fun o e => o.addOld e.name.text e.value.text) o

/-- The record after the new side has taken the entries in order. -/
def ReplicationOperation.addNewEntries (o : ReplicationOperation) (es : List ColumnEntry) :
    ReplicationOperation :=
  es.foldl (fun o e => o.addNew e.name.text e.value.text) o

/-- The record as `Parse` resets it on entry. -/
def ReplicationOperation.reset (o : ReplicationOperation) : ReplicationOperation :=
  { o with
    OldColumns := o.OldColumns.reset
    NewColumns := o.NewColumns.reset
    OldValues := o.OldValues.reset
    NewValues := o.NewValues.reset }

/-- The two sides of a record are balanced: as many values as columns. -/
def ReplicationOperation.Balanced (o : ReplicationOperation) : Prop :=
  o.OldColumns.len = o.OldValues.len ∧ o.NewColumns.len = o.NewValues.len

/-- Two records hold the same output: the same operation, target, columns and
values, a nil list and an empty list counting as equal.  The position is not
compared. -/
def ReplicationOperation.SameOutput (a b : ReplicationOperation) : Prop :=
  a.Operation = b.Operation ∧ a.Target = b.Target ∧
    a.OldColumns.elems = b.OldColumns.elems ∧ a.OldValues.elems = b.OldValues.elems ∧
    a.NewColumns.elems = b.NewColumns.elems ∧ a.NewValues.elems = b.NewValues.elems

/-- Two exits of the old-key loop that agree but for the records, which hold the same
output. -/
def OldKeyExit.Same : OldKeyExit → OldKeyExit → Prop
  | .ret e a, .ret e' b => e = e' ∧ a.SameOutput b
  | .done i a, .done i' b => i = i' ∧ a.SameOutput b
  | _, _ => False

/-- The text of segments each followed by a `.`. -/
def leading : List Segment → List Nat
  | [] => []
  | s :: ss => s.text ++ 0x2E :: leading ss

/-- The bytes hold no character that starts a segment: no identifier character
and no `"`. -/
def startsNoSegment (letter : Nat → Bool) (r : List Nat) : Bool :=
  (IndexFunc r (fun c => pgIsIdentifier letter c || c == 0x22)).isNone

/-! ## Concrete inputs

The messages and records of the tests, on which the properties are
exercised.  The table `unicode.Letter` plays no part in them (every
character is ASCII), so it is taken empty. -/

/-- No letter beyond Latin-1. -/
def noLetter : Nat → Bool := fun _ => false

/-- The zero value of `ReplicationOperation`. -/
def zeroRecord : ReplicationOperation :=
  { Position := [], Operation := [], Target := [], OldColumns := none, OldValues := none,
    NewColumns := none, NewValues := none }

/-- A record whose four lists are populated, and not to equal lengths. -/
def usedRecord : ReplicationOperation :=
  { Position := ascii "16/B374D848", Operation := ascii "DELETE", Target := ascii "public.t",
    OldColumns := some [ascii "a", ascii "b", ascii "c"], OldValues := some [ascii "1"],
    NewColumns := some [ascii "d"], NewValues := some [] }

/-- The table name `"from"." : DELETE: "`. -/
def escapedTable : Identifier :=
  { first := .quoted (ascii "from"), more := [.quoted (ascii " : DELETE: ")] }

/-- The columns `" key[] "[integer]:5` and `arr[integer[]]:'{1,2,3}'`. -/
def escapedColumns : List ColumnEntry :=
  [ { name := { first := .quoted (ascii " key[] "), more := [] }, type := ascii "integer",
      value := .numeric (ascii "5") },
    { name := { first := .bare (ascii "arr"), more := [] }, type := ascii "integer[]",
      value := .string (ascii "\x7b1,2,3\x7d") } ]

/-- The table name `public."sp ace"`. -/
def spaceTable : Identifier :=
  { first := .bare (ascii "public"), more := [.quoted (ascii "sp ace")] }

/-- A column `name[type]:value` with a bare name. -/
def column (name type : String) (value : Constant) : ColumnEntry :=
  { name := { first := .bare (ascii name), more := [] }, type := ascii type, value := value }

/-- What `Parse` leaves in `usedRecord` for
`table public.contents: INSERT: id[integer]:1 value[text]:'a'`. -/
def insertedRecord : ReplicationOperation :=
  { Position := usedRecord.Position, Operation := ascii "INSERT",
    Target := ascii "public.contents", OldColumns := some [], OldValues := some [],
    NewColumns := some [ascii "id", ascii "value"], NewValues := some [ascii "1", ascii "'a'"] }

/-- What `Parse` leaves in the zero record for
`table public.contents: DELETE: id[integer]:1`. -/
def deletedRecord : ReplicationOperation :=
  { Position := [], Operation := ascii "DELETE", Target := ascii "public.contents",
    OldColumns := some [ascii "id"], OldValues := some [ascii "1"],
    NewColumns := none, NewValues := none }

/-! ## The four lists in memory

A `[]string` is a header over a backing array.  `Parse` resets the four lists
of the record with `s[:0]`, which keeps the array and the capacity, and fills
them with `append`, which stores into the array while there is room.  Lists
that share an array share its cells; the definitions of this section keep the
arrays, so that such a record can be given to `Parse`. -/

/-- The header of a non-nil `[]string`: the backing array, the offset of the
first element in it, the length and the capacity. -/
structure Header where
  array : Nat
  offset : Nat
  len : Nat
  cap : Nat
  deriving DecidableEq, Repr

/-- A `[]string` value; `none` is nil. -/
abbrev StringSlice := Option Header

/-- The arrays of strings allocated so far, by their number.  An array keeps
its size. -/
abbrev Arrays := List (List GoString)

/-- The elements `s[0]`, ..., `s[len(s)-1]`, read from the array of `s`. -/
def StringSlice.elems (a : Arrays) : StringSlice → List GoString
  | none => []
  | some h => ((a.getD h.array []).drop h.offset).take h.len

/-- The list a `[]string` holds, as a value; nil stays nil. -/
def StringSlice.value (a : Arrays) (s : StringSlice) : Slice GoString :=
  s.map (fun h => StringSlice.elems a (some h))

/-- The slice expression `s[:0]`: the same array, offset and capacity, and no
element; nil stays nil. -/
def StringSlice.reset (s : StringSlice) : StringSlice :=
  s.map (fun h => { h with len := 0 })

/-- The call of `runtime.growslice` in `append`: a new array that holds the
elements `xs`, then `x`, in a capacity of at least their number.  How much
more the runtime allocates is `grow`, of the old capacity and the new length;
the cells beyond the new length hold the zero value. -/
def growslice (grow : Nat → Nat → Nat) (a : Arrays) (xs : List GoString) (cap : Nat)
    (x : GoString) : Arrays × StringSlice :=
  let n := xs.length + 1
  let c := max n (grow cap n)
  (a ++ [xs ++ x :: List.replicate (c - n) []],
    some { array := a.length, offset := 0, len := n, cap := c })

/-- The Go builtin `append(s, x)` for a `[]string`: with room left
(`len(s) < cap(s)`) it stores `x` in the cell after the last element, in the
array of `s`; without, and for nil, it moves to a new array. -/
def StringSlice.append (grow : Nat → Nat → Nat) (a : Arrays) (s : StringSlice)
    (x : GoString) : Arrays × StringSlice :=
  match s with
  | some h =>
    if h.len < h.cap then
      (a.set h.array ((a.getD h.array []).set (h.offset + h.len) x),
        some { h with len := h.len + 1 })
    else
      growslice grow a (StringSlice.elems a (some h)) h.cap x
  | none => growslice grow a [] 0 x

namespace Mem

/-- Modelled from the spec: `ReplicationOperation` as it lies in memory.  The
declaration is not among the sources; the fields are those of the data model
(section 3), the four lists as slice headers. -/
structure ReplicationOperation where
  Position : GoString
  Operation : GoString
  Target : GoString
  OldColumns : StringSlice
  OldValues : StringSlice
  NewColumns : StringSlice
  NewValues : StringSlice
  deriving DecidableEq, Repr

/-- What `parseDelete`, `parseInsert`, `parseUpdate` and `Parse` leave: the
error returned, the arrays and the record. -/
abbrev Outcome := Except Fault (GoError × Arrays × ReplicationOperation)

/-- The loop of `parseDelete` over the arrays `a` and the record in them. -/
def parseDelete.loop (grow : Nat → Nat → Nat) (letter : Nat → Bool) :
    Nat → Slice Nat → Arrays → ReplicationOperation → Outcome
  | 0, _, _, _ => .error .fuel
  | fuel + 1, input, a, output =>
    if input.len > 0 then do
      let col ← parseColumn letter input
      if col.err ≠ none then return (col.err, a, output)
      else
        let columns := StringSlice.append grow a output.OldColumns col.name.elems
        let values := StringSlice.append grow columns.1 output.OldValues col.value.elems
        parseDelete.loop grow letter fuel col.remaining values.1
          { output with OldColumns := columns.2, OldValues := values.2 }
    else
      return (none, a, output)

def parseDelete (grow : Nat → Nat → Nat) (letter : Nat → Bool) (input : Slice Nat)
    (a : Arrays) (output : ReplicationOperation) : Outcome :=
  parseDelete.loop grow letter (input.len + 1) input a output

/-- The loop of `parseInsert`, and the second loop of `parseUpdate`, over the
arrays `a` and the record in them. -/
def parseInsert.loop (grow : Nat → Nat → Nat) (letter : Nat → Bool) :
    Nat → Slice Nat → Arrays → ReplicationOperation → Outcome
  | 0, _, _, _ => .error .fuel
  | fuel + 1, input, a, output =>
    if input.len > 0 then do
      let col ← parseColumn letter input
      if col.err ≠ none then return (col.err, a, output)
      else
        let columns := StringSlice.append grow a output.NewColumns col.name.elems
        let values := StringSlice.append grow columns.1 output.NewValues col.value.elems
        parseInsert.loop grow letter fuel col.remaining values.1
          { output with NewColumns := columns.2, NewValues := values.2 }
    else
      return (none, a, output)

def parseInsert (grow : Nat → Nat → Nat) (letter : Nat → Bool) (input : Slice Nat)
    (a : Arrays) (output : ReplicationOperation) : Outcome :=
  parseInsert.loop grow letter (input.len + 1) input a output

/-- How the first loop of `parseUpdate` ends: with `return err`, or with the
input left for the second loop. -/
inductive OldKeyExit where
  | ret (err : GoError) (a : Arrays) (output : ReplicationOperation)
  | done (input : Slice Nat) (a : Arrays) (output : ReplicationOperation)

/-- The first loop of `parseUpdate`, over the old key. -/
def parseUpdate.oldKey (grow : Nat → Nat → Nat) (letter : Nat → Bool) :
    Nat → Slice Nat → Arrays → ReplicationOperation → Except Fault OldKeyExit
  | 0, _, _, _ => .error .fuel
  | fuel + 1, input, a, output =>
    if input.len > 0 then do
      let col ← parseColumn letter input
      if col.err ≠ none then return .ret col.err a output
      else
        let columns := StringSlice.append grow a output.OldColumns col.name.elems
        let values := StringSlice.append grow columns.1 output.OldValues col.value.elems
        let output := { output with OldColumns := columns.2, OldValues := values.2 }
        if HasPrefix col.remaining.elems (ascii "new-tuple: ") then
          return .done (← col.remaining.sliceFrom 11) values.1 output
        else
          parseUpdate.oldKey grow letter fuel col.remaining values.1 output
    else
      return .done input a output

def parseUpdate (grow : Nat → Nat → Nat) (letter : Nat → Bool) (input : Slice Nat)
    (a : Arrays) (output : ReplicationOperation) : Outcome := do
  let first ← if HasPrefix input.elems (ascii "old-key: ") then do
      let input ← input.sliceFrom 9
      parseUpdate.oldKey grow letter (input.len + 1) input a output
    else pure (.done input a output)
  match first with
  | .ret err a output => return (err, a, output)
  | .done input a output => parseInsert.loop grow letter (input.len + 1) input a output

/-- The method `pgTestDecoding.Parse` over the arrays `a` and the record
`output` in them: the error it returns, and the arrays and the record it
leaves. -/
def Parse (grow : Nat → Nat → Nat) (letter : Nat → Bool) (input : Slice Nat) (a : Arrays)
    (output : ReplicationOperation) : Outcome := do
  let output := { output with
    OldColumns := output.OldColumns.reset
    NewColumns := output.NewColumns.reset
    OldValues := output.OldValues.reset
    NewValues := output.NewValues.reset }
  if input.len < 1 then .error .panic
  else do
    let first ← indexAt input.elems 0
    if first = 0x42 then do
      -- BEGIN
      let operation ← input.sliceTo 5
      let target ← input.sliceFrom 6
      return (none, a, { output with Operation := operation.elems, Target := target.elems })
    else if first = 0x43 then do
      -- COMMIT
      let operation ← input.sliceTo 6
      let target ← input.sliceFrom 7
      return (none, a, { output with Operation := operation.elems, Target := target.elems })
    else if !HasPrefix input.elems (ascii "table ") then .error .panic
    else do
      let (current, target) ← pgParseIdentifier letter (← input.sliceFrom 6)
      if !HasPrefix current.elems (ascii ": ") then .error .panic
      else do
        let rest ← current.sliceFrom (2 + 6)
        let operation ← current.sliceBetween 2 (2 + 6)
        let current := rest
        if operation.elems ≠ ascii "DELETE" ∧ operation.elems ≠ ascii "INSERT" ∧
            operation.elems ≠ ascii "UPDATE" then .error .panic
        else if !HasPrefix current.elems (ascii ": ") then .error .panic
        else do
          let current ← current.sliceFrom 2
          let output := { output with Target := target.elems, Operation := operation.elems }
          let op0 ← indexAt output.Operation 0
          if op0 = 0x44 then
            -- DELETE
            parseDelete grow letter current a output
          else if op0 = 0x49 then
            -- INSERT
            parseInsert grow letter current a output
          else if op0 = 0x55 then
            -- UPDATE
            parseUpdate grow letter current a output
          else
            return (none, a, output)

/-- The record by value: each list read from its array. -/
def ReplicationOperation.value (a : Arrays) (r : ReplicationOperation) :
    PgBarrel.ReplicationOperation :=
  { Position := r.Position, Operation := r.Operation, Target := r.Target,
    OldColumns := r.OldColumns.value a, OldValues := r.OldValues.value a,
    NewColumns := r.NewColumns.value a, NewValues := r.NewValues.value a }

/-- The record as `Parse` resets it on entry. -/
def ReplicationOperation.reset (r : ReplicationOperation) : ReplicationOperation :=
  { r with
    OldColumns := r.OldColumns.reset
    NewColumns := r.NewColumns.reset
    OldValues := r.OldValues.reset
    NewValues := r.NewValues.reset }

end Mem

/-- The cells of a `[]string`, up to its capacity, lie in an array: the header
is one a Go program can hold. -/
def StringSlice.valid (a : Arrays) : StringSlice → Bool
  | none => true
  | some h =>
    decide (h.array < a.length) && decide (h.len ≤ h.cap) &&
      decide (h.offset + h.cap ≤ (a.getD h.array []).length)

/-- Two `[]string` share no cell, up to their capacities: one is nil, or they
lie in two arrays, or in one array one ends before the other begins. -/
def StringSlice.apart : StringSlice → StringSlice → Bool
  | some h, some k =>
    h.array != k.array || decide (h.offset + h.cap ≤ k.offset) ||
      decide (k.offset + k.cap ≤ h.offset)
  | _, _ => true

/-- The four lists of a record share no storage: each lies in an array, and no
two of them share a cell, up to their capacities. -/
def Mem.separate (a : Arrays) (r : Mem.ReplicationOperation) : Bool :=
  r.OldColumns.valid a && r.OldValues.valid a && r.NewColumns.valid a && r.NewValues.valid a &&
    r.OldColumns.apart r.OldValues && r.OldColumns.apart r.NewColumns &&
    r.OldColumns.apart r.NewValues && r.OldValues.apart r.NewColumns &&
    r.OldValues.apart r.NewValues && r.NewColumns.apart r.NewValues

/-- An outcome over arrays holds, by value, the outcome `y`: the same abort, or
the same error with the record of `y` read from the arrays, its lists sharing
no storage. -/
def Mem.Holds (x : Mem.Outcome) (y : Except Fault (GoError × PgBarrel.ReplicationOperation)) :
    Prop :=
  match x, y with
  | .error f, .error g => f = g
  | .ok (e, a, r), .ok (e', o) => e = e' ∧ r.value a = o ∧ Mem.separate a r = true
  | _, _ => False

/-- The same for the first loop of `parseUpdate`: the same abort, or the same
exit with the same error or input and the record read from the arrays. -/
def Mem.HoldsExit (x : Except Fault Mem.OldKeyExit) (y : Except Fault PgBarrel.OldKeyExit) :
    Prop :=
  match x, y with
  | .error f, .error g => f = g
  | .ok (.ret e a r), .ok (.ret e' o) => e = e' ∧ r.value a = o ∧ Mem.separate a r = true
  | .ok (.done i a r), .ok (.done i' o) => i = i' ∧ r.value a = o ∧ Mem.separate a r = true
  | _, _ => False

/-! ### Concrete records in memory -/

/-- A policy of growth for concrete runs: twice the old capacity. -/
def growDouble (cap _n : Nat) : Nat := 2 * cap

/-- The zero value of `ReplicationOperation`, in memory. -/
def Mem.zeroRecord : Mem.ReplicationOperation :=
  { Position := [], Operation := [], Target := [], OldColumns := none, OldValues := none,
    NewColumns := none, NewValues := none }

/-- One array of five strings, as `make([]string, 5)` with its cells set. -/
def fiveStrings : List GoString := [ascii "p", ascii "q", ascii "r", ascii "s", ascii "t"]

/-- A record whose four lists are one slice: they share the one array. -/
def Mem.sharedRecord : Mem.ReplicationOperation :=
  { Position := [], Operation := [], Target := [],
    OldColumns := some { array := 0, offset := 0, len := 5, cap := 5 },
    OldValues := some { array := 0, offset := 0, len := 5, cap := 5 },
    NewColumns := some { array := 0, offset := 0, len := 5, cap := 5 },
    NewValues := some { array := 0, offset := 0, len := 5, cap := 5 } }

/-- A record whose four lists each have an array of their own, as in the test. -/
def Mem.ownRecord : Mem.ReplicationOperation :=
  { Position := [], Operation := [], Target := [],
    OldColumns := some { array := 0, offset := 0, len := 5, cap := 5 },
    OldValues := some { array := 1, offset := 0, len := 5, cap := 5 },
    NewColumns := some { array := 2, offset := 0, len := 5, cap := 5 },
    NewValues := some { array := 3, offset := 0, len := 5, cap := 5 } }

/-- A record whose four lists are four parts of one array of twenty strings,
each of capacity five, as `buf[0:5:5]`, `buf[5:10:10]`, `buf[10:15:15]` and
`buf[15:20]`. -/
def Mem.slicedRecord : Mem.ReplicationOperation :=
  { Position := [], Operation := [], Target := [],
    OldColumns := some { array := 0, offset := 0, len := 5, cap := 5 },
    OldValues := some { array := 0, offset := 5, len := 5, cap := 5 },
    NewColumns := some { array := 0, offset := 10, len := 5, cap := 5 },
    NewValues := some { array := 0, offset := 15, len := 5, cap := 5 } }

/-- The arrays `Parse` allocates for the zero record on
`table public.contents: INSERT: id[integer]:1 value[text]:'a'`, under
`growDouble`. -/
def Mem.freshArrays : Arrays :=
  [[ascii "id"], [ascii "1"], [ascii "id", ascii "value"], [ascii "1", ascii "'a'"]]

/-- What `Parse` leaves in the zero record for that message. -/
def Mem.freshRecord : Mem.ReplicationOperation :=
  { Position := [], Operation := ascii "INSERT", Target := ascii "public.contents",
    OldColumns := none, OldValues := none,
    NewColumns := some { array := 2, offset := 0, len := 2, cap := 2 },
    NewValues := some { array := 3, offset := 0, len := 2, cap := 2 } }

/-- What `Parse` leaves in `Mem.sharedRecord` for that message: the four lists
are still over the one array. -/
def Mem.overwrittenRecord : Mem.ReplicationOperation :=
  { Position := [], Operation := ascii "INSERT", Target := ascii "public.contents",
    OldColumns := some { array := 0, offset := 0, len := 0, cap := 5 },
    OldValues := some { array := 0, offset := 0, len := 0, cap := 5 },
    NewColumns := some { array := 0, offset := 0, len := 2, cap := 5 },
    NewValues := some { array := 0, offset := 0, len := 2, cap := 5 } }

/-! ## Lemmas -/
theorem DecodeRune_ascii (b : Nat) (r : List Nat) (h : b < 0x80) :
    DecodeRune (b :: r) = (b, 1) := by
  simp [DecodeRune, h]

theorem decode2_spec (p0 b1 : Nat) (r : List Nat) (h0 : 0xC2 ≤ p0 ∧ p0 < 0xE0)
    (h1 : 0x80 ≤ b1 ∧ b1 ≤ 0xBF) :
    DecodeRune (p0 :: b1 :: r) = (p0 % 32 * 64 + b1 % 64, 2) := by
  have ha : acceptLo p0 = 0x80 := by unfold acceptLo; split_ifs <;> omega
  have hb : acceptHi p0 = 0xBF := by unfold acceptHi; split_ifs <;> omega
  rw [DecodeRune, if_neg (by omega), if_neg (by omega), if_pos (by omega), decode2, ha, hb,
    if_neg (by omega)]

theorem decode3_spec (p0 b1 b2 : Nat) (r : List Nat) (h0 : 0xE0 ≤ p0 ∧ p0 < 0xF0)
    (h1 : acceptLo p0 ≤ b1 ∧ b1 ≤ acceptHi p0) (h2 : 0x80 ≤ b2 ∧ b2 ≤ 0xBF) :
    DecodeRune (p0 :: b1 :: b2 :: r) = (p0 % 16 * 4096 + b1 % 64 * 64 + b2 % 64, 3) := by
  rw [DecodeRune, if_neg (by omega), if_neg (by omega), if_neg (by omega), if_pos (by omega),
    decode3, if_neg (by omega), if_neg (by omega)]

theorem decode4_spec (p0 b1 b2 b3 : Nat) (r : List Nat) (h0 : 0xF0 ≤ p0 ∧ p0 < 0xF5)
    (h1 : acceptLo p0 ≤ b1 ∧ b1 ≤ acceptHi p0) (h2 : 0x80 ≤ b2 ∧ b2 ≤ 0xBF)
    (h3 : 0x80 ≤ b3 ∧ b3 ≤ 0xBF) :
    DecodeRune (p0 :: b1 :: b2 :: b3 :: r)
      = (p0 % 8 * 262144 + b1 % 64 * 4096 + b2 % 64 * 64 + b3 % 64, 4) := by
  rw [DecodeRune, if_neg (by omega), if_neg (by omega), if_neg (by omega), if_neg (by omega),
    if_pos (by omega), decode4, if_neg (by omega), if_neg (by omega), if_neg (by omega)]

theorem DecodeRune_utf8Encode (c : Nat) (r : List Nat) (h : isScalar c = true) :
    DecodeRune (utf8Encode c ++ r) = (c, (utf8Encode c).length) := by
  simp only [isScalar, Bool.or_eq_true, Bool.and_eq_true, decide_eq_true_eq] at h
  unfold utf8Encode
  split_ifs with h1 h2 h3
  · simp [DecodeRune, h1]
  · simp only [List.cons_append, List.nil_append, List.length_cons, List.length_nil]
    rw [decode2_spec _ _ _ (by omega) (by omega)]
    simp only [Prod.mk.injEq, and_true]
    omega
  · simp only [List.cons_append, List.nil_append, List.length_cons, List.length_nil]
    rw [decode3_spec _ _ _ _ (by omega) (by unfold acceptLo acceptHi; split_ifs <;> omega)
      (by omega)]
    simp only [Prod.mk.injEq, and_true]
    omega
  · simp only [List.cons_append, List.nil_append, List.length_cons, List.length_nil]
    rw [decode4_spec _ _ _ _ _ (by omega) (by unfold acceptLo acceptHi; split_ifs <;> omega)
      (by omega) (by omega)]
    simp only [Prod.mk.injEq, and_true]
    omega

theorem accept_range (p0 : Nat) : 0x80 ≤ acceptLo p0 ∧ acceptHi p0 ≤ 0xBF := by
  unfold acceptLo acceptHi; split_ifs <;> omega

theorem decode2_cases (p0 : Nat) (l : List Nat) :
    decode2 p0 l = (RuneError, 1) ∨
      ∃ b1 r, l = b1 :: r ∧ 0x80 ≤ b1 ∧ b1 ≤ 0xBF ∧ decode2 p0 l = (p0 % 32 * 64 + b1 % 64, 2) := by
  have hr := accept_range p0
  match l with
  | [] => left; rfl
  | b1 :: r =>
    simp only [decode2]
    split_ifs with h
    · left; rfl
    · right; exact ⟨b1, r, rfl, by omega, by omega, rfl⟩

theorem decode3_cases (p0 : Nat) (l : List Nat) :
    decode3 p0 l = (RuneError, 1) ∨
      ∃ b1 b2 r, l = b1 :: b2 :: r ∧ acceptLo p0 ≤ b1 ∧ b1 ≤ acceptHi p0 ∧ 0x80 ≤ b2 ∧ b2 ≤ 0xBF ∧
        decode3 p0 l = (p0 % 16 * 4096 + b1 % 64 * 64 + b2 % 64, 3) := by
  match l with
  | [] => left; rfl
  | [_] => left; rfl
  | b1 :: b2 :: r =>
    simp only [decode3]
    split_ifs with h h'
    · left; rfl
    · left; rfl
    · right; exact ⟨b1, b2, r, rfl, by omega, by omega, by omega, by omega, rfl⟩

theorem decode4_cases (p0 : Nat) (l : List Nat) :
    decode4 p0 l = (RuneError, 1) ∨
      ∃ b1 b2 b3 r, l = b1 :: b2 :: b3 :: r ∧ acceptLo p0 ≤ b1 ∧ b1 ≤ acceptHi p0 ∧
        0x80 ≤ b2 ∧ b2 ≤ 0xBF ∧ 0x80 ≤ b3 ∧ b3 ≤ 0xBF ∧
        decode4 p0 l = (p0 % 8 * 262144 + b1 % 64 * 4096 + b2 % 64 * 64 + b3 % 64, 4) := by
  match l with
  | [] => left; rfl
  | [_] => left; rfl
  | [_, _] => left; rfl
  | b1 :: b2 :: b3 :: r =>
    simp only [decode4]
    split_ifs with h h' h''
    · left; rfl
    · left; rfl
    · left; rfl
    · right; exact ⟨b1, b2, b3, r, rfl, by omega, by omega, by omega, by omega, by omega, by omega, rfl⟩

theorem DecodeRune_shape (p : List Nat) : DecodeShape p (DecodeRune p) := by
  match p with
  | [] => exact .empty
  | p0 :: l =>
    simp only [DecodeRune]
    split_ifs with h1 h2 h3 h4 h5
    · exact .ascii _ _ h1
    · exact .invalid _ _ (by omega)
    · rcases decode2_cases p0 l with h | ⟨b1, r, rfl, hb1, _, h⟩
      · rw [h]; exact .invalid _ _ (by omega)
      · rw [h]; exact .two _ _ _ _ (by omega) hb1 (by omega)
    · have hr := accept_range p0
      rcases decode3_cases p0 l with h | ⟨b1, b2, r, rfl, hb1, _, hb2, _, h⟩
      · rw [h]; exact .invalid _ _ (by omega)
      · rw [h]; refine .three _ _ _ _ _ (by omega) (by omega) hb2 ?_
        have : acceptLo p0 = if p0 = 0xE0 then 0xA0 else 0x80 := by
          unfold acceptLo; split_ifs <;> first | rfl | omega
        split_ifs at this <;> omega
    · have hr := accept_range p0
      rcases decode4_cases p0 l with h | ⟨b1, b2, b3, r, rfl, hb1, _, hb2, _, hb3, _, h⟩
      · rw [h]; exact .invalid _ _ (by omega)
      · rw [h]; refine .four _ _ _ _ _ _ (by omega) (by omega) hb2 hb3 ?_
        have : acceptLo p0 = if p0 = 0xF0 then 0x90 else 0x80 := by
          unfold acceptLo; split_ifs <;> first | rfl | omega
        split_ifs at this <;> omega
    · exact .invalid _ _ (by omega)

theorem DecodeShape.width {p : List Nat} {d : Nat × Nat} (hs : DecodeShape p d) :
    d.2 ≤ p.length ∧ (p ≠ [] → 1 ≤ d.2) := by
  cases hs <;> simp

theorem DecodeShape.eq_ascii {p : List Nat} {d : Nat × Nat} (hs : DecodeShape p d) (a : Nat)
    (ha : a < 0x80) (h : d.1 = a) : ∃ r, p = a :: r ∧ d.2 = 1 := by
  cases hs <;> simp only [RuneError] at h <;> first | omega | exact ⟨_, by rw [h], rfl⟩

theorem DecodeShape.append_ascii {p : List Nat} {d : Nat × Nat} (hs : DecodeShape p d)
    (a : List Nat) (b : Nat) (r : List Nat) (hp : a ++ b :: r = p) (ha : a ≠ [])
    (hb : b < 0x80) : d.2 ≤ a.length := by
  cases hs with
  | empty => simp
  | ascii _ _ _ => cases a <;> simp at ha ⊢
  | invalid _ _ _ => cases a <;> simp at ha ⊢
  | two p0 b1 r' c _ h1 _ =>
    match a, ha with
    | [x], _ => simp at hp; omega
    | _ :: _ :: _, _ => simp
  | three p0 b1 b2 r' c _ h1 h2 _ =>
    match a, ha with
    | [x], _ => simp at hp; omega
    | [x, y], _ => simp at hp; omega
    | _ :: _ :: _ :: _, _ => simp
  | four p0 b1 b2 b3 r' c _ h1 h2 h3 _ =>
    match a, ha with
    | [x], _ => simp at hp; omega
    | [x, y], _ => simp at hp; omega
    | [x, y, z], _ => simp at hp; omega
    | _ :: _ :: _ :: _ :: _, _ => simp

theorem DecodeRune_width_le (p : List Nat) : (DecodeRune p).2 ≤ p.length :=
  (DecodeRune_shape p).width.1

theorem DecodeRune_width_pos (p : List Nat) (h : p ≠ []) : 1 ≤ (DecodeRune p).2 :=
  (DecodeRune_shape p).width.2 h

/-- An ASCII rune is decoded only from that byte, with width one. -/
theorem DecodeRune_eq_ascii (p : List Nat) (a : Nat) (ha : a < 0x80)
    (h : (DecodeRune p).1 = a) : ∃ r, p = a :: r ∧ (DecodeRune p).2 = 1 :=
  (DecodeRune_shape p).eq_ascii a ha h

/-- A rune does not extend over an ASCII byte. -/
theorem DecodeRune_append_ascii (a : List Nat) (b : Nat) (r : List Nat) (ha : a ≠ [])
    (hb : b < 0x80) : (DecodeRune (a ++ b :: r)).2 ≤ a.length :=
  (DecodeRune_shape _).append_ascii a b r rfl ha hb

/-! ### Slices and the fault monad -/

@[simp] theorem ok_bind {α β : Type} (a : α) (f : α → Except Fault β) :
    (Except.ok a >>= f) = f a := rfl

@[simp] theorem error_bind {α β : Type} (e : Fault) (f : α → Except Fault β) :
    ((Except.error e : Except Fault α) >>= f) = Except.error e := rfl

@[simp] theorem pure_eq_ok {α : Type} (a : α) : (pure a : Except Fault α) = Except.ok a := rfl

@[simp] theorem Slice.elems_some {α : Type} (l : List α) : Slice.elems (some l) = l := rfl

@[simp] theorem Slice.elems_none {α : Type} : Slice.elems (none : Slice α) = [] := rfl

@[simp] theorem Slice.len_some {α : Type} (l : List α) : Slice.len (some l) = l.length := rfl

theorem Slice.elems_map_drop {α : Type} (s : Slice α) (i : Nat) :
    Slice.elems (s.map (List.drop i)) = s.elems.drop i := by
  cases s <;> simp [Slice.elems]

theorem Slice.elems_map_take {α : Type} (s : Slice α) (i : Nat) :
    Slice.elems (s.map (List.take i)) = s.elems.take i := by
  cases s <;> simp [Slice.elems]

theorem Slice.sliceFrom_ok {α : Type} (s : Slice α) (i : Nat) (h : i ≤ s.len) :
    s.sliceFrom i = .ok (s.map (List.drop i)) := by
  simp [Slice.sliceFrom, h]

theorem Slice.sliceTo_ok {α : Type} (s : Slice α) (i : Nat) (h : i ≤ s.len) :
    s.sliceTo i = .ok (s.map (List.take i)) := by
  simp [Slice.sliceTo, h]

theorem cutAt_ok (src : Slice Nat) (i : Nat) (h : i ≤ src.len) :
    cutAt src i = .ok (src.map (List.drop i), src.map (List.take i)) := by
  simp [cutAt, Slice.sliceFrom_ok, Slice.sliceTo_ok, h]

theorem conserves_cut (src : Slice Nat) (i : Nat) :
    Conserves src (src.map (List.drop i), src.map (List.take i)) := by
  simp [Conserves, Slice.elems_map_drop, Slice.elems_map_take]

theorem conserves_fail (src : Slice Nat) : Conserves src (src, none) := by
  simp [Conserves]

theorem conserves_whole (src : Slice Nat) : Conserves src (src.map (List.take 0), src) := by
  simp [Conserves, Slice.elems_map_take]

/-! ### `bytes.IndexByte` and `bytes.IndexFunc` -/

theorem IndexByte_lt (s : List Nat) (c n : Nat) (h : IndexByte s c = some n) : n < s.length := by
  induction s generalizing n with
  | nil => simp [IndexByte] at h
  | cons b bs ih =>
    simp only [IndexByte] at h
    split_ifs at h with hb
    · simp at h; subst h; simp
    · cases hq : IndexByte bs c with
      | none => simp [hq] at h
      | some m =>
        simp [hq] at h
        have := ih m hq
        simp; omega

theorem IndexByte_append_cons (a : List Nat) (c : Nat) (r : List Nat) (h : c ∉ a) :
    IndexByte (a ++ c :: r) c = some a.length := by
  induction a with
  | nil => simp [IndexByte]
  | cons b bs ih =>
    simp only [List.mem_cons, not_or] at h
    simp [IndexByte, ih h.2, Ne.symm h.1]

theorem IndexByte_none (s : List Nat) (c : Nat) (h : c ∉ s) : IndexByte s c = none := by
  induction s with
  | nil => rfl
  | cons b bs ih =>
    simp only [List.mem_cons, not_or] at h
    simp [IndexByte, ih h.2, Ne.symm h.1]

theorem indexFuncLoop_lt (f : Nat → Bool) (fuel : Nat) (s : List Nat) (n : Nat)
    (h : indexFuncLoop f fuel s = some n) : n < s.length := by
  induction fuel generalizing s n with
  | zero => simp [indexFuncLoop] at h
  | succ fuel ih =>
    match s with
    | [] => simp [indexFuncLoop] at h
    | b :: bs =>
      simp only [indexFuncLoop] at h
      split_ifs at h with hf
      · simp at h; subst h; simp
      · cases hq : indexFuncLoop f fuel (List.drop (DecodeRune (b :: bs)).2 (b :: bs)) with
        | none => simp [hq] at h
        | some m =>
          simp [hq] at h
          have h1 := ih _ m hq
          have h2 := DecodeRune_width_le (b :: bs)
          simp only [List.length_drop] at h1
          omega

theorem IndexFunc_lt (f : Nat → Bool) (s : List Nat) (n : Nat)
    (h : IndexFunc s f = some n) : n < s.length :=
  indexFuncLoop_lt f _ s n h

theorem drop_width_le (src : Slice Nat) (i : Nat) :
    i + (DecodeRune (src.elems.drop i)).2 ≤ src.len ∨ src.len < i := by
  have := DecodeRune_width_le (src.elems.drop i)
  simp only [List.length_drop] at this
  unfold Slice.len
  omega

theorem pgParseConstant_tail_conserves (src : Slice Nat) :
    ∃ r, pgParseConstant.tail src = .ok r ∧ Conserves src r := by
  have hnum : ∃ r, (match IndexFunc src.elems pgIsNotNumeric with
      | none => do return (← src.sliceTo 0, src)
      | some i => cutAt src i) = Except.ok r ∧ Conserves src r := by
    cases hq : IndexFunc src.elems pgIsNotNumeric with
    | none =>
      simp only [Slice.sliceTo_ok src 0 (Nat.zero_le _), ok_bind, pure_eq_ok]
      exact ⟨_, rfl, conserves_whole src⟩
    | some n =>
      have := IndexFunc_lt _ _ _ hq
      simp only [cutAt_ok src n (Nat.le_of_lt this)]
      exact ⟨_, rfl, conserves_cut src n⟩
  unfold pgParseConstant.tail
  split
  · rename_i b0 b1 b2 b3 t heq
    split_ifs
    · have : 4 ≤ src.len := by simp [Slice.len, heq]
      rw [cutAt_ok src 4 this]
      exact ⟨_, rfl, conserves_cut src 4⟩
    · exact hnum
  · exact hnum

theorem pgParseConstant_loop_conserves (src : Slice Nat) (fuel i w : Nat)
    (hfuel : src.len < fuel + i) (hle : i ≤ src.len) (hw : i < src.len → i + w ≤ src.len) :
    ∃ r, pgParseConstant.loop src fuel i w = .ok r ∧ Conserves src r := by
  induction fuel generalizing i w with
  | zero => omega
  | succ fuel ih =>
    unfold pgParseConstant.loop
    split_ifs with hi
    · have hiw := hw hi
      simp only [Slice.sliceFrom_ok src (i + w) hiw, ok_bind, Slice.elems_map_drop]
      cases hq : IndexByte (List.drop (i + w) src.elems) 0x27 with
      | none => exact ⟨_, rfl, conserves_fail src⟩
      | some n =>
        have hn := IndexByte_lt _ _ _ hq
        simp only [List.length_drop] at hn
        have hle : i + w + (n + 1) ≤ src.len := by unfold Slice.len; omega
        simp only []
        split_ifs with hend
        · rw [cutAt_ok src _ hle]; exact ⟨_, rfl, conserves_cut src _⟩
        · simp only [Slice.sliceFrom_ok src _ hle, ok_bind, Slice.elems_map_drop]
          split_ifs with hc
          · rw [cutAt_ok src _ hle]; exact ⟨_, rfl, conserves_cut src _⟩
          · apply ih
            · omega
            · exact hle
            · intro _
              rcases drop_width_le src (i + w + (n + 1)) with h | h
              · exact h
              · omega
    · exact pgParseConstant_tail_conserves src

theorem pgParseConstant_conserves (src : Slice Nat) :
    ∃ r, pgParseConstant src = .ok r ∧ Conserves src r := by
  unfold pgParseConstant
  simp only []
  split_ifs with hc
  · apply pgParseConstant_loop_conserves
    · omega
    · omega
    · intro _
      have := DecodeRune_width_le src.elems
      unfold Slice.len; omega
  · exact pgParseConstant_tail_conserves src

theorem pgParseIdentifier_quoted_good (src : Slice Nat) (fuel i w : Nat)
    (hfuel : src.len < fuel + i) (hw : i + w ≤ src.len) :
    ∃ e, pgParseIdentifier.quoted src fuel i w = .ok e ∧ e.Good src (i + 1) := by
  induction fuel generalizing i w with
  | zero => omega
  | succ fuel ih =>
    unfold pgParseIdentifier.quoted
    simp only [Slice.sliceFrom_ok src (i + w) hw, ok_bind, Slice.elems_map_drop]
    cases hq : IndexByte (List.drop (i + w) src.elems) 0x22 with
    | none => exact ⟨_, rfl, conserves_fail src⟩
    | some n =>
      have hn := IndexByte_lt _ _ _ hq
      simp only [List.length_drop] at hn
      have hle : i + w + (n + 1) ≤ src.len := by unfold Slice.len; omega
      have hwd : i + w + (n + 1) + (DecodeRune (List.drop (i + w + (n + 1)) src.elems)).2
          ≤ src.len := by
        rcases drop_width_le src (i + w + (n + 1)) with h | h
        · exact h
        · omega
      simp only []
      split_ifs with hend
      · simp only [cutAt_ok src _ hle, ok_bind, pure_eq_ok]
        exact ⟨_, rfl, conserves_cut src _⟩
      · simp only [Slice.sliceFrom_ok src _ hle, ok_bind, Slice.elems_map_drop]
        split_ifs with hc hd
        · obtain ⟨e, he, hg⟩ := ih (i + w + (n + 1)) _ (by omega) hwd
          refine ⟨e, he, ?_⟩
          cases e with
          | ret r => exact hg
          | next i' c' w' => exact ⟨by have := hg.1; omega, hg.2⟩
        · simp only [cutAt_ok src _ hle, ok_bind, pure_eq_ok]
          exact ⟨_, rfl, conserves_cut src _⟩
        · simp only [pure_eq_ok]
          exact ⟨_, rfl, by omega, hwd⟩

theorem pgParseIdentifier_bare_good (letter : Nat → Bool) (src : Slice Nat) (i c w : Nat)
    (hw : i + w ≤ src.len) :
    ∃ e, pgParseIdentifier.bare letter src i c w = .ok e ∧ e.Good src (i + w) := by
  unfold pgParseIdentifier.bare
  split_ifs with hid
  · simp only [Slice.sliceFrom_ok src (i + w) hw, ok_bind, Slice.elems_map_drop]
    cases hq : IndexFunc (List.drop (i + w) src.elems) (pgIsNotIdentifier letter) with
    | none =>
      simp only [Slice.sliceTo_ok src 0 (Nat.zero_le _), ok_bind, pure_eq_ok]
      exact ⟨_, rfl, conserves_whole src⟩
    | some n =>
      have hn := IndexFunc_lt _ _ _ hq
      simp only [List.length_drop] at hn
      have hle : i + w + n ≤ src.len := by unfold Slice.len; omega
      have hwd : i + w + n + (DecodeRune (List.drop (i + w + n) src.elems)).2 ≤ src.len := by
        rcases drop_width_le src (i + w + n) with h | h
        · exact h
        · omega
      simp only [Slice.sliceFrom_ok src _ hle, ok_bind, Slice.elems_map_drop]
      split_ifs with hc
      · simp only [cutAt_ok src _ hle, ok_bind, pure_eq_ok]
        exact ⟨_, rfl, conserves_cut src _⟩
      · simp only [pure_eq_ok]
        exact ⟨_, rfl, by omega, hwd⟩
  · exact ⟨_, rfl, Nat.le_refl _, hw⟩

theorem pgParseIdentifier_body_good (letter : Nat → Bool) (src : Slice Nat) (i : Nat)
    (hi : i < src.len) :
    ∃ e, pgParseIdentifier.body letter src i = .ok e ∧ e.Good src (i + 1) := by
  unfold pgParseIdentifier.body
  simp only [Slice.sliceFrom_ok src i (Nat.le_of_lt hi), ok_bind, Slice.elems_map_drop]
  have hne : List.drop i src.elems ≠ [] := by
    intro h
    have := congrArg List.length h
    simp only [List.length_drop, List.length_nil] at this
    unfold Slice.len at hi; omega
  have hpos := DecodeRune_width_pos _ hne
  have hwd : i + (DecodeRune (List.drop i src.elems)).2 ≤ src.len := by
    rcases drop_width_le src i with h | h
    · exact h
    · omega
  have hmono : ∀ (i' c' w' : Nat), i + 1 ≤ i' + w' → i' + w' ≤ src.len →
      ∃ e, pgParseIdentifier.bare letter src i' c' w' = .ok e ∧ e.Good src (i + 1) := by
    intro i' c' w' h1 h2
    obtain ⟨e, he, hg⟩ := pgParseIdentifier_bare_good letter src i' c' w' h2
    refine ⟨e, he, ?_⟩
    cases e with
    | ret r => exact hg
    | next i'' c'' w'' => exact ⟨by have := hg.1; omega, hg.2⟩
  split_ifs with hc
  · obtain ⟨e, he, hg⟩ := pgParseIdentifier_quoted_good src (src.len + 1) i _ (by omega) hwd
    rw [he]
    simp only [ok_bind]
    cases e with
    | ret r => exact ⟨_, rfl, hg⟩
    | next i' c' w' => exact hmono i' c' w' hg.1 hg.2
  · exact hmono _ _ _ (by omega) hwd

theorem pgParseIdentifier_loop_conserves (letter : Nat → Bool) (src : Slice Nat) (fuel i : Nat)
    (hfuel : src.len < fuel + i) (hle : i ≤ src.len) :
    ∃ r, pgParseIdentifier.loop letter src fuel i = .ok r ∧ Conserves src r := by
  induction fuel generalizing i with
  | zero => omega
  | succ fuel ih =>
    unfold pgParseIdentifier.loop
    split_ifs with hi
    · obtain ⟨e, he, hg⟩ := pgParseIdentifier_body_good letter src i hi
      rw [he]
      simp only [ok_bind]
      cases e with
      | ret r => exact ⟨_, rfl, hg⟩
      | next i' c' w' =>
        simp only []
        exact ih _ (by have := hg.1; omega) hg.2
    · exact ⟨_, rfl, conserves_fail src⟩

theorem pgParseIdentifier_conserves (letter : Nat → Bool) (src : Slice Nat) :
    ∃ r, pgParseIdentifier letter src = .ok r ∧ Conserves src r :=
  pgParseIdentifier_loop_conserves letter src _ 0 (by omega) (Nat.zero_le _)

/-! ### Positions in a list given as prefix and suffix -/

theorem drop_at {l a b : List Nat} {n : Nat} (h : l = a ++ b) (hn : n = a.length) :
    l.drop n = b := by
  subst h hn; simp

theorem take_at {l a b : List Nat} {n : Nat} (h : l = a ++ b) (hn : n = a.length) :
    l.take n = a := by
  subst h hn; simp

theorem cutAt_at {l a b : List Nat} {n : Nat} (h : l = a ++ b) (hn : n = a.length) :
    cutAt (some l) n = .ok (some b, some a) := by
  rw [cutAt_ok _ _ (by subst h hn; simp)]
  simp [drop_at h hn, take_at h hn]

theorem sliceFrom_at {l a b : List Nat} {n : Nat} (h : l = a ++ b) (hn : n = a.length) :
    Slice.sliceFrom (some l) n = .ok (some b) := by
  rw [Slice.sliceFrom_ok _ _ (by subst h hn; simp)]
  simp [drop_at h hn]

theorem DecodeRune_ne_of_head (r : List Nat) (a : Nat) (ha : a < 0x80)
    (h : r.head? ≠ some a) : (DecodeRune r).1 ≠ a := by
  intro hc
  obtain ⟨t, rfl, _⟩ := DecodeRune_eq_ascii r a ha hc
  simp at h

theorem not_mem_doubled_mid (q : Nat) (mid : List Nat) (b : Nat) (hm : q ∉ mid) (hb : b ≠ q) :
    q ∉ mid ++ [b] := by
  simp [hm, Ne.symm hb]

/-! ### The string literal -/

theorem pgParseConstant_loop_literal (s : List Nat) :
    ∀ (pre mid r : List Nat) (fuel : Nat), 0x27 ∉ mid → s.length < fuel →
      r.head? ≠ some 0x27 →
      pgParseConstant.loop (some (pre ++ 0x27 :: (mid ++ doubled 0x27 s ++ 0x27 :: r)))
          fuel pre.length 1
        = .ok (some r, some (pre ++ 0x27 :: (mid ++ doubled 0x27 s ++ [0x27]))) := by
  induction s with
  | nil =>
    intro pre mid r fuel hm hf hr
    obtain ⟨fuel, rfl⟩ : ∃ k, fuel = k + 1 := ⟨fuel - 1, by simp at hf; omega⟩
    generalize hL : pre ++ 0x27 :: (mid ++ doubled 0x27 [] ++ 0x27 :: r) = L
    generalize hT : pre ++ 0x27 :: (mid ++ doubled 0x27 [] ++ [0x27]) = T
    have e1 : L = (pre ++ [0x27]) ++ (mid ++ 0x27 :: r) := by subst hL; simp [doubled]
    have e2 : L = T ++ r := by subst hL hT; simp [doubled]
    have n2 : pre.length + 1 + (mid.length + 1) = T.length := by
      subst hT; simp [doubled]; omega
    have s1 : Slice.sliceFrom (some L) (pre.length + 1) = .ok (some (mid ++ 0x27 :: r)) :=
      sliceFrom_at e1 (by simp)
    have s2 : Slice.sliceFrom (some L) (pre.length + 1 + (mid.length + 1)) = .ok (some r) :=
      sliceFrom_at e2 n2
    have c2 : cutAt (some L) (pre.length + 1 + (mid.length + 1)) = .ok (some r, some T) :=
      cutAt_at e2 n2
    have hlen : pre.length < L.length := by subst hL; simp
    unfold pgParseConstant.loop
    rw [if_pos (by simpa using hlen)]
    simp only [s1, ok_bind, Slice.elems_some, IndexByte_append_cons mid 0x27 r hm, c2, s2]
    split_ifs with hend hc
    · have : r = [] := by
        apply List.eq_nil_of_length_eq_zero
        have := congrArg List.length e2
        simp only [Slice.len_some, List.length_append] at hend this
        omega
      subst this; rfl
    · rfl
    · exact absurd (DecodeRune_ne_of_head r 0x27 (by omega) hr) hc
  | cons b s ih =>
    intro pre mid r fuel hm hf hr
    by_cases hb : b = 0x27
    · subst hb
      obtain ⟨fuel, rfl⟩ : ∃ k, fuel = k + 1 := ⟨fuel - 1, by simp at hf; omega⟩
      have key := ih (pre ++ 0x27 :: (mid ++ [0x27])) [] r fuel (by simp)
        (by simp at hf; omega) hr
      generalize hL : pre ++ 0x27 :: (mid ++ doubled 0x27 (0x27 :: s) ++ 0x27 :: r) = L
      have e0 : pre ++ 0x27 :: (mid ++ [0x27]) ++ 0x27 :: ([] ++ doubled 0x27 s ++ 0x27 :: r)
          = L := by subst hL; simp [doubled]
      rw [e0] at key
      have e1 : L = (pre ++ [0x27]) ++ (mid ++ 0x27 :: (0x27 :: (doubled 0x27 s ++ 0x27 :: r))) := by
        subst hL; simp [doubled]
      have e2 : L = (pre ++ 0x27 :: (mid ++ [0x27])) ++ (0x27 :: (doubled 0x27 s ++ 0x27 :: r)) := by
        subst hL; simp [doubled]
      have n2 : pre.length + 1 + (mid.length + 1) = (pre ++ 0x27 :: (mid ++ [0x27])).length := by
        simp; omega
      have s1 : Slice.sliceFrom (some L) (pre.length + 1)
          = .ok (some (mid ++ 0x27 :: (0x27 :: (doubled 0x27 s ++ 0x27 :: r)))) :=
        sliceFrom_at e1 (by simp)
      have s2 : Slice.sliceFrom (some L) (pre.length + 1 + (mid.length + 1))
          = .ok (some (0x27 :: (doubled 0x27 s ++ 0x27 :: r))) :=
        sliceFrom_at e2 n2
      have hlen : pre.length < L.length := by subst hL; simp
      have hne : pre.length + 1 + (mid.length + 1) ≠ L.length := by
        have := congrArg List.length e2
        rw [this, n2]; simp
      unfold pgParseConstant.loop
      rw [if_pos (by simpa using hlen)]
      simp only [s1, ok_bind, Slice.elems_some, IndexByte_append_cons mid 0x27 _ hm, s2,
        DecodeRune_ascii 0x27 _ (by omega : (0x27 : Nat) < 0x80)]
      rw [if_neg (by simpa using hne), if_neg (by simp), n2, key]
      simp [doubled]
    · have e1 : pre ++ 0x27 :: (mid ++ doubled 0x27 (b :: s) ++ 0x27 :: r)
          = pre ++ 0x27 :: ((mid ++ [b]) ++ doubled 0x27 s ++ 0x27 :: r) := by
        simp [doubled, hb]
      rw [e1, ih pre (mid ++ [b]) r fuel (not_mem_doubled_mid _ _ _ hm hb)
        (by simp at hf; omega) hr]
      simp [doubled, hb]

theorem length_le_doubled (q : Nat) (s : List Nat) : s.length ≤ (doubled q s).length := by
  induction s with
  | nil => simp [doubled]
  | cons b s ih => unfold doubled; split_ifs <;> simp <;> omega

theorem pgParseConstant_literal (s r : List Nat) (hr : r.head? ≠ some 0x27) :
    pgParseConstant (some (stringLiteral s ++ r)) = .ok (some r, some (stringLiteral s)) := by
  have hl := length_le_doubled 0x27 s
  have key := pgParseConstant_loop_literal s [] [] r ((stringLiteral s ++ r).length + 1)
    (by simp) (by simp [stringLiteral]; omega) hr
  have e : stringLiteral s ++ r = 0x27 :: (doubled 0x27 s ++ 0x27 :: r) := by
    simp [stringLiteral]
  have hd : DecodeRune (stringLiteral s ++ r) = (0x27, 1) := by
    rw [e]; exact DecodeRune_ascii 0x27 _ (by omega)
  simp only [List.nil_append, List.length_nil] at key
  rw [← e] at key
  unfold pgParseConstant
  simp only [Slice.elems_some, Slice.len_some, hd, if_true]
  exact key.trans (by simp [stringLiteral])

/-! ### `bytes.IndexFunc` over a run of characters -/

theorem utf8Encode_length_pos (c : Nat) : 1 ≤ (utf8Encode c).length := by
  unfold utf8Encode; split_ifs <;> simp

theorem utf8Encode_ne_nil (c : Nat) : utf8Encode c ≠ [] := by
  intro h
  have := utf8Encode_length_pos c
  rw [h] at this
  simp at this

theorem length_le_encodeRunes (cs : List Nat) : cs.length ≤ (encodeRunes cs).length := by
  induction cs with
  | nil => simp [encodeRunes]
  | cons c cs ih =>
    have := utf8Encode_length_pos c
    simp [encodeRunes]; omega

theorem indexFuncLoop_run (f : Nat → Bool) (cs : List Nat) :
    ∀ (tail : List Nat) (fuel : Nat), (∀ c ∈ cs, isScalar c = true ∧ f c = false) →
      cs.length < fuel → tail ≠ [] → f (DecodeRune tail).1 = true →
      indexFuncLoop f fuel (encodeRunes cs ++ tail) = some (encodeRunes cs).length := by
  induction cs with
  | nil =>
    intro tail fuel _ hf ht hft
    obtain ⟨fuel, rfl⟩ : ∃ k, fuel = k + 1 := ⟨fuel - 1, by simp at hf; omega⟩
    match tail, ht with
    | b :: t, _ => simp [encodeRunes, indexFuncLoop, hft]
  | cons c cs ih =>
    intro tail fuel hcs hf ht hft
    obtain ⟨fuel, rfl⟩ : ∃ k, fuel = k + 1 := ⟨fuel - 1, by simp at hf; omega⟩
    have hc := hcs c (by simp)
    have hdec : DecodeRune (encodeRunes (c :: cs) ++ tail) = (c, (utf8Encode c).length) := by
      simp only [encodeRunes, List.append_assoc]
      exact DecodeRune_utf8Encode c _ hc.1
    have hdrop : List.drop (utf8Encode c).length (encodeRunes (c :: cs) ++ tail)
        = encodeRunes cs ++ tail := by
      simp [encodeRunes]
    have hne : encodeRunes (c :: cs) ++ tail ≠ [] := by simp [ht]
    generalize hL : encodeRunes (c :: cs) ++ tail = L at hdec hdrop hne
    match L, hne with
    | b :: t, _ =>
      simp only [indexFuncLoop, hdec, hc.2, hdrop]
      rw [ih tail fuel (fun c' h' => hcs c' (by simp [h'])) (by simp at hf; omega) ht hft]
      simp [encodeRunes]; omega

theorem indexFuncLoop_run_all (f : Nat → Bool) (cs : List Nat) :
    ∀ (fuel : Nat), (∀ c ∈ cs, isScalar c = true ∧ f c = false) →
      indexFuncLoop f fuel (encodeRunes cs) = none := by
  induction cs with
  | nil => intro fuel _; cases fuel <;> simp [encodeRunes, indexFuncLoop]
  | cons c cs ih =>
    intro fuel hcs
    cases fuel with
    | zero => simp [indexFuncLoop]
    | succ fuel =>
      have hc := hcs c (by simp)
      have hdec : DecodeRune (encodeRunes (c :: cs)) = (c, (utf8Encode c).length) := by
        have := DecodeRune_utf8Encode c (encodeRunes cs) hc.1
        simpa [encodeRunes] using this
      have hdrop : List.drop (utf8Encode c).length (encodeRunes (c :: cs)) = encodeRunes cs := by
        simp [encodeRunes]
      have hne : encodeRunes (c :: cs) ≠ [] := by simp [encodeRunes, utf8Encode_ne_nil]
      generalize hL : encodeRunes (c :: cs) = L at hdec hdrop hne
      match L, hne with
      | b :: t, _ =>
        simp only [indexFuncLoop, hdec, hc.2, hdrop]
        rw [ih fuel (fun c' h' => hcs c' (by simp [h']))]
        simp

/-- `bytes.IndexFunc` stops right after a run of characters none of which satisfies `f`,
when a rune that satisfies `f` follows. -/
theorem IndexFunc_run (f : Nat → Bool) (cs tail : List Nat)
    (hcs : ∀ c ∈ cs, isScalar c = true ∧ f c = false) (ht : tail ≠ [])
    (hft : f (DecodeRune tail).1 = true) :
    IndexFunc (encodeRunes cs ++ tail) f = some (encodeRunes cs).length := by
  unfold IndexFunc
  apply indexFuncLoop_run f cs tail _ hcs _ ht hft
  have := length_le_encodeRunes cs
  have : 1 ≤ tail.length := by
    cases tail with
    | nil => contradiction
    | cons _ _ => simp
  simp only [List.length_append]; omega

theorem IndexFunc_run_all (f : Nat → Bool) (cs : List Nat)
    (hcs : ∀ c ∈ cs, isScalar c = true ∧ f c = false) :
    IndexFunc (encodeRunes cs) f = none :=
  indexFuncLoop_run_all f cs _ hcs

/-- A run of ASCII bytes is its own encoding. -/
theorem encodeRunes_ascii (t : List Nat) (h : ∀ b ∈ t, b < 0x80) : encodeRunes t = t := by
  induction t with
  | nil => rfl
  | cons b t ih =>
    have hb := h b (by simp)
    simp [encodeRunes, utf8Encode, hb, ih (fun b' h' => h b' (by simp [h']))]

theorem pgIsNumeric_lt (b : Nat) (h : pgIsNumeric b = true) : b < 0x80 := by
  simp only [pgIsNumeric, Bool.or_eq_true, Bool.and_eq_true, decide_eq_true_eq,
    beq_iff_eq] at h
  omega

theorem isScalar_of_lt (b : Nat) (h : b < 0x80) : isScalar b = true := by
  simp only [isScalar, Bool.or_eq_true, Bool.and_eq_true, decide_eq_true_eq]
  omega

/-! ### The null keyword and the numeric token -/

theorem pgParseConstant_tail_numeric (src : Slice Nat)
    (h : ∀ b ∈ src.elems.head?, b ≠ 0x6E ∧ b ≠ 0x4E) :
    pgParseConstant.tail src =
      match IndexFunc src.elems pgIsNotNumeric with
      | none => do return (← src.sliceTo 0, src)
      | some i => cutAt src i := by
  unfold pgParseConstant.tail
  split
  · rename_i b0 b1 b2 b3 t heq
    rw [heq] at h
    have := h b0 (by simp)
    rw [if_neg (by omega)]
  · cases IndexFunc src.elems pgIsNotNumeric <;> rfl

theorem pgParseConstant_null (k rest : List Nat) (hk : isNullKeyword k = true) :
    pgParseConstant (some (k ++ rest)) = .ok (some rest, some k) := by
  match k, hk with
  | [b0, b1, b2, b3], hk =>
    simp only [isNullKeyword, Bool.and_eq_true, Bool.or_eq_true, beq_iff_eq] at hk
    have hd : DecodeRune ([b0, b1, b2, b3] ++ rest) = (b0, 1) :=
      DecodeRune_ascii b0 _ (by omega)
    unfold pgParseConstant
    simp only [Slice.elems_some, hd]
    rw [if_neg (by omega)]
    unfold pgParseConstant.tail
    simp only [Slice.elems_some, List.cons_append, List.nil_append]
    rw [if_pos (by omega)]
    exact cutAt_at (by simp) (by simp)

theorem pgParseConstant_numeric (t rest : List Nat) (ht : t ≠ [])
    (hnum : ∀ b ∈ t, pgIsNumeric b = true) (hrest : rest = [] ∨ ∃ u, rest = 0x20 :: u) :
    pgParseConstant (some (t ++ rest)) = .ok (some rest, some t) := by
  have hasc : ∀ b ∈ t, b < 0x80 := fun b hb => pgIsNumeric_lt b (hnum b hb)
  have henc := encodeRunes_ascii t hasc
  have hrun : ∀ c ∈ t, isScalar c = true ∧ pgIsNotNumeric c = false := fun c hc =>
    ⟨isScalar_of_lt c (hasc c hc), by simp [pgIsNotNumeric, hnum c hc]⟩
  match t, ht with
  | b :: t', _ =>
    have hb := hnum b (by simp)
    have hb' : b ≠ 0x27 ∧ b ≠ 0x6E ∧ b ≠ 0x4E := by
      simp only [pgIsNumeric, Bool.or_eq_true, Bool.and_eq_true, decide_eq_true_eq,
        beq_iff_eq] at hb
      omega
    have hd : DecodeRune (b :: t' ++ rest) = (b, 1) := DecodeRune_ascii b _ (hasc b (by simp))
    unfold pgParseConstant
    simp only [Slice.elems_some, hd]
    rw [if_neg hb'.1, pgParseConstant_tail_numeric _ (by
      intro b0 hb0
      simp at hb0; subst hb0; exact hb'.2)]
    simp only [Slice.elems_some]
    rcases hrest with rfl | ⟨u, rfl⟩
    · have := IndexFunc_run_all pgIsNotNumeric (b :: t') hrun
      rw [henc] at this
      simp only [List.append_nil, this, Slice.sliceTo_ok _ 0 (Nat.zero_le _), ok_bind,
        pure_eq_ok]
      simp
    · have := IndexFunc_run pgIsNotNumeric (b :: t') (0x20 :: u) hrun (by simp)
        (by rw [DecodeRune_ascii 0x20 _ (by omega)]; decide)
      rw [henc] at this
      simp only [this]
      exact cutAt_at rfl rfl

theorem pgParseConstant_value (v : Constant) (rest : List Nat) (hv : v.wellFormed = true)
    (hrest : rest = [] ∨ ∃ u, rest = 0x20 :: u) :
    pgParseConstant (some (v.text ++ rest)) = .ok (some rest, some v.text) := by
  cases v with
  | string content =>
    apply pgParseConstant_literal
    rcases hrest with rfl | ⟨u, rfl⟩ <;> simp
  | null keyword => exact pgParseConstant_null keyword rest hv
  | numeric token =>
    simp only [Constant.wellFormed, Bool.and_eq_true, Bool.not_eq_true', List.isEmpty_eq_false,
      List.all_eq_true] at hv
    exact pgParseConstant_numeric token rest (by
      intro h; simp [h] at hv) hv.2 hrest

/-! ### The identifier scanner on well-formed segments -/

theorem pgParseIdentifier_quoted_segment (s : List Nat) :
    ∀ (pre mid tail : List Nat) (fuel : Nat), 0x22 ∉ mid → s.length < fuel →
      (DecodeRune tail).1 ≠ 0x22 →
      pgParseIdentifier.quoted (some (pre ++ 0x22 :: (mid ++ doubled 0x22 s ++ 0x22 :: tail)))
          fuel pre.length 1
        = .ok (segmentExit (pre ++ 0x22 :: (mid ++ doubled 0x22 s ++ [0x22])) tail) := by
  induction s with
  | nil =>
    intro pre mid r fuel hm hf hr
    obtain ⟨fuel, rfl⟩ : ∃ k, fuel = k + 1 := ⟨fuel - 1, by simp at hf; omega⟩
    generalize hL : pre ++ 0x22 :: (mid ++ doubled 0x22 [] ++ 0x22 :: r) = L
    generalize hT : pre ++ 0x22 :: (mid ++ doubled 0x22 [] ++ [0x22]) = T
    have e1 : L = (pre ++ [0x22]) ++ (mid ++ 0x22 :: r) := by subst hL; simp [doubled]
    have e2 : L = T ++ r := by subst hL hT; simp [doubled]
    have n2 : pre.length + 1 + (mid.length + 1) = T.length := by
      subst hT; simp [doubled]; omega
    have s1 : Slice.sliceFrom (some L) (pre.length + 1) = .ok (some (mid ++ 0x22 :: r)) :=
      sliceFrom_at e1 (by simp)
    have s2 : Slice.sliceFrom (some L) (pre.length + 1 + (mid.length + 1)) = .ok (some r) :=
      sliceFrom_at e2 n2
    have c2 : cutAt (some L) (pre.length + 1 + (mid.length + 1)) = .ok (some r, some T) :=
      cutAt_at e2 n2
    have hlen : r = [] ↔ pre.length + 1 + (mid.length + 1) = L.length := by
      have := congrArg List.length e2
      simp only [List.length_append] at this
      constructor
      · intro h; subst h; simp at this; omega
      · intro h; apply List.eq_nil_of_length_eq_zero; omega
    unfold pgParseIdentifier.quoted
    simp only [s1, ok_bind, Slice.elems_some, IndexByte_append_cons mid 0x22 r hm, c2, s2,
      Slice.len_some, pure_eq_ok]
    unfold segmentExit
    by_cases hr0 : r = []
    · rw [if_pos (hlen.1 hr0), if_pos hr0]; subst hr0; rfl
    · rw [if_neg (fun h => hr0 (hlen.2 h)), if_neg hr, if_neg hr0]
      by_cases hd : (DecodeRune r).1 = 0x2E
      · rw [if_neg (not_not.2 hd), if_pos hd, n2, hd]
      · rw [if_pos hd, if_neg hd]
  | cons b s ih =>
    intro pre mid r fuel hm hf hr
    by_cases hb : b = 0x22
    · subst hb
      obtain ⟨fuel, rfl⟩ : ∃ k, fuel = k + 1 := ⟨fuel - 1, by simp at hf; omega⟩
      have key := ih (pre ++ 0x22 :: (mid ++ [0x22])) [] r fuel (by simp)
        (by simp at hf; omega) hr
      generalize hL : pre ++ 0x22 :: (mid ++ doubled 0x22 (0x22 :: s) ++ 0x22 :: r) = L
      have e0 : pre ++ 0x22 :: (mid ++ [0x22]) ++ 0x22 :: ([] ++ doubled 0x22 s ++ 0x22 :: r)
          = L := by subst hL; simp [doubled]
      rw [e0] at key
      have e1 : L = (pre ++ [0x22]) ++ (mid ++ 0x22 :: (0x22 :: (doubled 0x22 s ++ 0x22 :: r))) := by
        subst hL; simp [doubled]
      have e2 : L = (pre ++ 0x22 :: (mid ++ [0x22])) ++ (0x22 :: (doubled 0x22 s ++ 0x22 :: r)) := by
        subst hL; simp [doubled]
      have n2 : pre.length + 1 + (mid.length + 1) = (pre ++ 0x22 :: (mid ++ [0x22])).length := by
        simp; omega
      have s1 : Slice.sliceFrom (some L) (pre.length + 1)
          = .ok (some (mid ++ 0x22 :: (0x22 :: (doubled 0x22 s ++ 0x22 :: r)))) :=
        sliceFrom_at e1 (by simp)
      have s2 : Slice.sliceFrom (some L) (pre.length + 1 + (mid.length + 1))
          = .ok (some (0x22 :: (doubled 0x22 s ++ 0x22 :: r))) :=
        sliceFrom_at e2 n2
      have hne : pre.length + 1 + (mid.length + 1) ≠ L.length := by
        have := congrArg List.length e2
        rw [this, n2]; simp
      unfold pgParseIdentifier.quoted
      simp only [s1, ok_bind, Slice.elems_some, IndexByte_append_cons mid 0x22 _ hm, s2,
        DecodeRune_ascii 0x22 _ (by omega : (0x22 : Nat) < 0x80), Slice.len_some]
      rw [if_neg hne, if_pos trivial, n2, key]
      simp [doubled]
    · have e1 : pre ++ 0x22 :: (mid ++ doubled 0x22 (b :: s) ++ 0x22 :: r)
          = pre ++ 0x22 :: ((mid ++ [b]) ++ doubled 0x22 s ++ 0x22 :: r) := by
        simp [doubled, hb]
      rw [e1, ih pre (mid ++ [b]) r fuel (not_mem_doubled_mid _ _ _ hm hb)
        (by simp at hf; omega) hr]
      simp [doubled, hb]

theorem pgParseIdentifier_bare_skip (letter : Nat → Bool) (src : Slice Nat) (i c w : Nat)
    (hc : pgIsIdentifier letter c = false) :
    pgParseIdentifier.bare letter src i c w = .ok (.next i c w) := by
  unfold pgParseIdentifier.bare
  simp [hc]

theorem pgParseIdentifier_bare_segment (letter : Nat → Bool) (pre : List Nat) (c : Nat)
    (cs tail : List Nat) (hc : pgIsIdentifier letter c = true)
    (hcs : ∀ c' ∈ cs, isScalar c' = true ∧ pgIsIdentifier letter c' = true)
    (htail : tail = [] ∨ pgIsIdentifier letter (DecodeRune tail).1 = false) :
    pgParseIdentifier.bare letter (some (pre ++ utf8Encode c ++ encodeRunes cs ++ tail))
        pre.length c (utf8Encode c).length
      = .ok (segmentExit (pre ++ utf8Encode c ++ encodeRunes cs) tail) := by
  have hrun : ∀ c' ∈ cs, isScalar c' = true ∧ pgIsNotIdentifier letter c' = false :=
    fun c' h' => ⟨(hcs c' h').1, by simp [pgIsNotIdentifier, (hcs c' h').2]⟩
  generalize hL : pre ++ utf8Encode c ++ encodeRunes cs ++ tail = L
  generalize hT : pre ++ utf8Encode c ++ encodeRunes cs = T
  have e1 : L = (pre ++ utf8Encode c) ++ (encodeRunes cs ++ tail) := by subst hL; simp
  have e2 : L = T ++ tail := by subst hL hT; rfl
  have n2 : pre.length + (utf8Encode c).length + (encodeRunes cs).length = T.length := by
    subst hT; simp only [List.length_append]
  have s1 : Slice.sliceFrom (some L) (pre.length + (utf8Encode c).length)
      = .ok (some (encodeRunes cs ++ tail)) := sliceFrom_at e1 (by simp)
  unfold pgParseIdentifier.bare
  rw [if_pos hc]
  simp only [s1, ok_bind, Slice.elems_some]
  unfold segmentExit
  rcases htail with rfl | htail
  · simp only [List.append_nil, IndexFunc_run_all _ cs hrun,
      Slice.sliceTo_ok _ 0 (Nat.zero_le _), ok_bind, pure_eq_ok, if_true]
    simp [e2]
  · by_cases ht0 : tail = []
    · subst ht0
      simp only [List.append_nil, IndexFunc_run_all _ cs hrun,
        Slice.sliceTo_ok _ 0 (Nat.zero_le _), ok_bind, pure_eq_ok, if_true]
      simp [e2]
    · have s2 : Slice.sliceFrom (some L)
          (pre.length + (utf8Encode c).length + (encodeRunes cs).length) = .ok (some tail) :=
        sliceFrom_at e2 n2
      have c2 : cutAt (some L) (pre.length + (utf8Encode c).length + (encodeRunes cs).length)
          = .ok (some tail, some T) := cutAt_at e2 n2
      simp only [IndexFunc_run _ cs tail hrun ht0 (by simp [pgIsNotIdentifier, htail]), s2, c2,
        ok_bind, Slice.elems_some, pure_eq_ok, if_neg ht0]
      by_cases hd : (DecodeRune tail).1 = 0x2E
      · rw [if_neg (not_not.2 hd), if_pos hd, n2, hd]
      · rw [if_pos hd, if_neg hd]

theorem pgIsIdentifier_ascii (letter : Nat → Bool) (c : Nat) (hc : c < 0x80) :
    pgIsIdentifier letter c
      = ((0x30 ≤ c && c ≤ 0x39) || c == 0x24 || c == 0x5F ||
          (0x41 ≤ c && c ≤ 0x5A) || (0x61 ≤ c && c ≤ 0x7A)) := by
  have h1 : c ≤ 0xFF := by omega
  have h2 : (c == 0xAA) = false := by simp; omega
  have h3 : (c == 0xB5) = false := by simp; omega
  have h4 : (c == 0xBA) = false := by simp; omega
  have h5 : decide (0xC0 ≤ c) = false := by simp; omega
  have h6 : decide (0xD8 ≤ c) = false := by simp; omega
  have h7 : decide (0xF8 ≤ c) = false := by simp; omega
  simp only [pgIsIdentifier, IsLetter, latin1Letter, h1, if_true, h2, h3, h4, h5, h6, h7,
    Bool.false_and, Bool.or_false, Bool.or_assoc]

theorem pgIsIdentifier_dot (letter : Nat → Bool) : pgIsIdentifier letter 0x2E = false := by
  rw [pgIsIdentifier_ascii letter _ (by omega)]; decide

theorem pgIsIdentifier_quote (letter : Nat → Bool) : pgIsIdentifier letter 0x22 = false := by
  rw [pgIsIdentifier_ascii letter _ (by omega)]; decide

theorem Segment_text_ne_nil (letter : Nat → Bool) (s : Segment)
    (hs : s.wellFormed letter = true) : s.text ≠ [] := by
  cases s with
  | bare chars =>
    cases chars with
    | nil => simp [Segment.wellFormed] at hs
    | cons c cs => simp [Segment.text, encodeRunes, utf8Encode_ne_nil]
  | quoted content => simp [Segment.text]

theorem pgParseIdentifier_body_segment (letter : Nat → Bool) (s : Segment)
    (hs : s.wellFormed letter = true) (pre tail : List Nat) (ss : List Segment)
    (htail : tail = [] ∨
      ((DecodeRune tail).1 ≠ 0x22 ∧
        (lastBare s ss = true → pgIsIdentifier letter (DecodeRune tail).1 = false)))
    (hss : ss = [] ∨ pgIsIdentifier letter (DecodeRune tail).1 = false) :
    pgParseIdentifier.body letter (some (pre ++ s.text ++ tail)) pre.length
      = .ok (segmentExit (pre ++ s.text) tail) := by
  cases s with
  | quoted content =>
    have hq : (DecodeRune tail).1 ≠ 0x22 := by
      rcases htail with rfl | h
      · simp [DecodeRune, RuneError]
      · exact h.1
    have key := pgParseIdentifier_quoted_segment content pre [] tail
      ((pre ++ (Segment.quoted content).text ++ tail).length + 1) (by simp)
      (by
        have := length_le_doubled 0x22 content
        simp [Segment.text]; omega) hq
    have eL : pre ++ 0x22 :: ([] ++ doubled 0x22 content ++ 0x22 :: tail)
        = pre ++ (Segment.quoted content).text ++ tail := by simp [Segment.text]
    have eT : pre ++ 0x22 :: ([] ++ doubled 0x22 content ++ [0x22])
        = pre ++ (Segment.quoted content).text := by simp [Segment.text]
    rw [eL, eT] at key
    generalize hL : pre ++ (Segment.quoted content).text ++ tail = L at key
    have e1 : L = pre ++ (0x22 :: (doubled 0x22 content ++ 0x22 :: tail)) := by
      subst hL; simp [Segment.text]
    have s1 : Slice.sliceFrom (some L) pre.length
        = .ok (some (0x22 :: (doubled 0x22 content ++ 0x22 :: tail))) := sliceFrom_at e1 rfl
    unfold pgParseIdentifier.body
    simp only [s1, ok_bind, Slice.elems_some, DecodeRune_ascii 0x22 _ (by omega : (0x22 : Nat) < 0x80),
      if_true, Slice.len_some, key]
    unfold segmentExit
    split_ifs with h1 h2
    · rfl
    · simp only []
      exact pgParseIdentifier_bare_skip letter _ _ _ _ (pgIsIdentifier_dot letter)
    · rfl
  | bare chars =>
    match chars, hs with
    | c :: cs, hs =>
      simp only [Segment.wellFormed, List.isEmpty_cons, Bool.not_false, Bool.true_and,
        List.all_cons, Bool.and_eq_true, List.all_eq_true] at hs
      have hcq : c ≠ 0x22 := by
        intro h
        have := pgIsIdentifier_quote letter
        rw [← h, hs.1.2] at this
        exact Bool.noConfusion this
      have hid : tail = [] ∨ pgIsIdentifier letter (DecodeRune tail).1 = false := by
        rcases hss with rfl | h
        · exact htail.imp id (fun h => h.2 rfl)
        · exact Or.inr h
      have key := pgParseIdentifier_bare_segment letter pre c cs tail hs.1.2 hs.2 hid
      have eL : pre ++ utf8Encode c ++ encodeRunes cs ++ tail
          = pre ++ (Segment.bare (c :: cs)).text ++ tail := by simp [Segment.text, encodeRunes]
      have eT : pre ++ utf8Encode c ++ encodeRunes cs = pre ++ (Segment.bare (c :: cs)).text := by
        simp [Segment.text, encodeRunes]
      rw [eL, eT] at key
      generalize hL : pre ++ (Segment.bare (c :: cs)).text ++ tail = L at key
      have e1 : L = pre ++ (utf8Encode c ++ (encodeRunes cs ++ tail)) := by
        subst hL; simp [Segment.text, encodeRunes]
      have s1 : Slice.sliceFrom (some L) pre.length
          = .ok (some (utf8Encode c ++ (encodeRunes cs ++ tail))) := sliceFrom_at e1 rfl
      unfold pgParseIdentifier.body
      simp only [s1, ok_bind, Slice.elems_some, DecodeRune_utf8Encode c _ hs.1.1, if_neg hcq, key]

/-- What the remainder after the last segment has to be. -/
theorem endedBy_iff (letter : Nat → Bool) (t : Identifier) (r : List Nat) :
    t.endedBy letter r = true ↔
      (r = [] ∨ ((DecodeRune r).1 ≠ 0x22 ∧ (DecodeRune r).1 ≠ 0x2E ∧
        (lastBare t.first t.more = true → pgIsIdentifier letter (DecodeRune r).1 = false))) := by
  simp only [Identifier.endedBy, Bool.or_eq_true, List.isEmpty_iff, Bool.and_eq_true,
    bne_iff_ne, Bool.not_eq_true']
  constructor
  · rintro (h | ⟨⟨h1, h2⟩, h3⟩)
    · exact Or.inl h
    · refine Or.inr ⟨h1, h2, fun hb => ?_⟩
      rcases h3 with h3 | h3
      · rw [hb] at h3; exact Bool.noConfusion h3
      · exact h3
  · rintro (h | ⟨h1, h2, h3⟩)
    · exact Or.inl h
    · refine Or.inr ⟨⟨h1, h2⟩, ?_⟩
      cases hb : lastBare t.first t.more with
      | false => exact Or.inl rfl
      | true => exact Or.inr (h3 hb)

theorem pgParseIdentifier_loop_segments (letter : Nat → Bool) (ss : List Segment) :
    ∀ (s : Segment) (pre r : List Nat) (fuel : Nat), s.wellFormed letter = true →
      (∀ s' ∈ ss, s'.wellFormed letter = true) →
      (r = [] ∨ ((DecodeRune r).1 ≠ 0x22 ∧ (DecodeRune r).1 ≠ 0x2E ∧
        (lastBare s ss = true → pgIsIdentifier letter (DecodeRune r).1 = false))) →
      ss.length < fuel →
      pgParseIdentifier.loop letter (some (pre ++ s.text ++ (dotted ss ++ r))) fuel pre.length
        = .ok (some r, some (pre ++ s.text ++ dotted ss)) := by
  induction ss with
  | nil =>
    intro s pre r fuel hs _ hr hf
    obtain ⟨fuel, rfl⟩ : ∃ k, fuel = k + 1 := ⟨fuel - 1, by simp at hf; omega⟩
    have hne := Segment_text_ne_nil letter s hs
    have hlt : pre.length < (pre ++ s.text ++ (dotted [] ++ r)).length := by
      have : 0 < s.text.length := List.length_pos.2 hne
      simp only [List.length_append]; omega
    have hb := pgParseIdentifier_body_segment letter s hs pre (dotted [] ++ r) []
      (by
        simp only [dotted, List.nil_append]
        exact hr.imp id (fun h => ⟨h.1, h.2.2⟩)) (Or.inl rfl)
    unfold pgParseIdentifier.loop
    rw [if_pos (by simpa using hlt), hb]
    simp only [ok_bind, dotted, List.nil_append, List.append_nil]
    unfold segmentExit
    rcases hr with h | h
    · subst h; rfl
    · split_ifs with h1 h2
      · subst h1; rfl
      · exact absurd h2 h.2.1
      · rfl
  | cons s' ss ih =>
    intro s pre r fuel hs hss hr hf
    obtain ⟨fuel, rfl⟩ : ∃ k, fuel = k + 1 := ⟨fuel - 1, by simp at hf; omega⟩
    have hne := Segment_text_ne_nil letter s hs
    have hlt : pre.length < (pre ++ s.text ++ (dotted (s' :: ss) ++ r)).length := by
      have : 0 < s.text.length := List.length_pos.2 hne
      simp only [List.length_append]; omega
    have hlast : lastBare s (s' :: ss) = lastBare s' ss := by cases s <;> rfl
    have key := ih s' (pre ++ s.text ++ [0x2E]) r fuel (hss s' (by simp))
      (fun t ht => hss t (by simp [ht])) (by rw [← hlast]; exact hr) (by simp at hf; omega)
    have eL : pre ++ s.text ++ [0x2E] ++ s'.text ++ (dotted ss ++ r)
        = pre ++ s.text ++ (dotted (s' :: ss) ++ r) := by simp [dotted]
    have eT : pre ++ s.text ++ [0x2E] ++ s'.text ++ dotted ss
        = pre ++ s.text ++ dotted (s' :: ss) := by simp [dotted]
    rw [eL, eT] at key
    have hdot : DecodeRune (dotted (s' :: ss) ++ r) = (0x2E, 1) := by
      simp only [dotted, List.cons_append]
      exact DecodeRune_ascii 0x2E _ (by omega)
    have hb := pgParseIdentifier_body_segment letter s hs pre (dotted (s' :: ss) ++ r) (s' :: ss)
      (Or.inr ⟨by rw [hdot]; decide, fun _ => by rw [hdot]; exact pgIsIdentifier_dot letter⟩)
      (Or.inr (by rw [hdot]; exact pgIsIdentifier_dot letter))
    unfold pgParseIdentifier.loop
    rw [if_pos (by simpa using hlt), hb]
    have hx : segmentExit (pre ++ s.text) (dotted (s' :: ss) ++ r)
        = .next (pre ++ s.text).length 0x2E 1 := by
      unfold segmentExit
      simp [dotted, DecodeRune_ascii 0x2E _ (by omega : (0x2E : Nat) < 0x80)]
    rw [hx]
    simp only [ok_bind]
    have hn : (pre ++ s.text).length + 1 = (pre ++ s.text ++ [0x2E]).length := by
      simp only [List.length_append, List.length_cons, List.length_nil]
    rw [hn, key]

theorem pgParseIdentifier_endedBy (letter : Nat → Bool) (t : Identifier) (r : List Nat)
    (ht : t.wellFormed letter = true) (hr : t.endedBy letter r = true) :
    pgParseIdentifier letter (some (t.text ++ r)) = .ok (some r, some t.text) := by
  simp only [Identifier.wellFormed, Bool.and_eq_true, List.all_eq_true] at ht
  have := pgParseIdentifier_loop_segments letter t.more t.first [] r
    ((t.text ++ r).length + 1) ht.1 ht.2 ((endedBy_iff letter t r).1 hr) (by
      have : t.more.length ≤ (dotted t.more).length := by
        induction t.more with
        | nil => simp
        | cons a l ih => simp [dotted]; omega
      simp [Identifier.text]; omega)
  simp only [List.nil_append, List.length_nil] at this
  unfold pgParseIdentifier
  simp only [Identifier.text, Slice.len_some, List.append_assoc] at this ⊢
  exact this

theorem pgParseIdentifier_wellFormed (letter : Nat → Bool) (t : Identifier) (r : List Nat)
    (ht : t.wellFormed letter = true) (hr : endsIdentifier letter r = true) :
    pgParseIdentifier letter (some (t.text ++ r)) = .ok (some r, some t.text) := by
  apply pgParseIdentifier_endedBy letter t r ht
  rw [endedBy_iff]
  simp only [endsIdentifier, Bool.or_eq_true, List.isEmpty_iff, Bool.and_eq_true,
    Bool.not_eq_true', bne_iff_ne] at hr
  rcases hr with h | h
  · exact Or.inl h
  · exact Or.inr ⟨h.1.2, h.2, fun _ => h.1.1⟩

/-! ### The type bracket -/

theorem hasCloser_drop (ty : List Nat) (n : Nat) (h : hasCloser ty = false) :
    hasCloser (ty.drop n) = false := by
  induction n generalizing ty with
  | zero => simpa using h
  | succ n ih =>
    cases ty with
    | nil => simp [hasCloser]
    | cons b bs =>
      simp only [hasCloser, Bool.or_eq_false_iff] at h
      simpa using ih bs h.2

theorem HasPrefix_closer (ty rest : List Nat) (hty : ty ≠ []) (h : hasCloser ty = false) :
    HasPrefix (ty ++ 0x5D :: 0x3A :: rest) [0x5D, 0x3A] = false := by
  match ty, hty with
  | [b], _ =>
    simp [HasPrefix]
  | b :: b2 :: t, _ =>
    simp only [hasCloser, Bool.or_eq_false_iff, Bool.and_eq_false_imp, beq_iff_eq,
      List.head?_cons] at h
    have := h.1
    simp [HasPrefix]
    intro hb
    have := this hb
    simpa using this

theorem typeRegexpLazy_succ (fuel : Nat) (s : List Nat) (hs : s ≠ []) :
    typeRegexpLazy (fuel + 1) s =
      if (DecodeRune s).1 = 0x0A then none
      else if HasPrefix (s.drop (DecodeRune s).2) [0x5D, 0x3A] then some ((DecodeRune s).2 + 2)
      else (typeRegexpLazy fuel (s.drop (DecodeRune s).2)).map (· + (DecodeRune s).2) := by
  cases s with
  | nil => exact absurd rfl hs
  | cons b t => rfl

theorem typeRegexpLazy_type (n : Nat) :
    ∀ (ty rest : List Nat) (fuel : Nat), ty.length ≤ n → ty ≠ [] → hasCloser ty = false →
      0x0A ∉ ty → ty.length ≤ fuel →
      typeRegexpLazy fuel (ty ++ 0x5D :: 0x3A :: rest) = some (ty.length + 2) := by
  induction n with
  | zero =>
    intro ty rest fuel hn hty
    exact absurd (List.eq_nil_of_length_eq_zero (by omega)) hty
  | succ n ih =>
    intro ty rest fuel hn hty hcl hnl hf
    have hpos : 0 < ty.length := List.length_pos.2 hty
    obtain ⟨fuel, rfl⟩ : ∃ k, fuel = k + 1 := ⟨fuel - 1, by omega⟩
    have hw1 := DecodeRune_append_ascii ty 0x5D (0x3A :: rest) hty (by omega)
    have hw0 := DecodeRune_width_pos (ty ++ 0x5D :: 0x3A :: rest) (by simp)
    have hc : (DecodeRune (ty ++ 0x5D :: 0x3A :: rest)).1 ≠ 0x0A := by
      intro h
      obtain ⟨t, ht, _⟩ := DecodeRune_eq_ascii _ 0x0A (by omega) h
      cases ty with
      | nil => exact hty rfl
      | cons b bs =>
        simp only [List.cons_append, List.cons.injEq] at ht
        exact hnl (by simp [ht.1])
    have hdrop : List.drop (DecodeRune (ty ++ 0x5D :: 0x3A :: rest)).2
        (ty ++ 0x5D :: 0x3A :: rest)
        = List.drop (DecodeRune (ty ++ 0x5D :: 0x3A :: rest)).2 ty ++ 0x5D :: 0x3A :: rest :=
      List.drop_append_of_le_length hw1
    rw [typeRegexpLazy_succ _ _ (by simp), if_neg hc, hdrop]
    generalize (DecodeRune (ty ++ 0x5D :: 0x3A :: rest)).2 = w at hw0 hw1
    by_cases hd : List.drop w ty = []
    · have hwl : w = ty.length := by
        have := congrArg List.length hd
        simp only [List.length_drop, List.length_nil] at this
        omega
      rw [hd]
      simp [HasPrefix, hwl]
    · rw [HasPrefix_closer _ rest hd (hasCloser_drop ty w hcl)]
      simp only [Bool.false_eq_true, if_false]
      rw [ih (List.drop w ty) rest fuel (by simp only [List.length_drop]; omega) hd
        (hasCloser_drop ty w hcl) (fun h => hnl (List.mem_of_mem_drop h))
        (by simp only [List.length_drop]; omega)]
      simp only [List.length_drop, Option.map_some']
      congr 1
      omega

theorem pgTestDecodingTypeRegexpFind_type (ty rest : List Nat) (hty : ty ≠ [])
    (hcl : hasCloser ty = false) (hnl : 0x0A ∉ ty) :
    pgTestDecodingTypeRegexpFind (0x5B :: (ty ++ 0x5D :: 0x3A :: rest))
      = some (0x5B :: (ty ++ [0x5D, 0x3A])) := by
  simp only [pgTestDecodingTypeRegexpFind]
  rw [typeRegexpLazy_type ty.length ty rest _ (Nat.le_refl _) hty hcl hnl (by simp)]
  simp only [Option.map_some', Option.some.injEq]
  have e : 0x5B :: (ty ++ 0x5D :: 0x3A :: rest) = (0x5B :: (ty ++ [0x5D, 0x3A])) ++ rest := by simp
  exact take_at e (by simp)

/-! ### Column entries -/

theorem endsIdentifier_ascii (letter : Nat → Bool) (b : Nat) (t : List Nat) (hb : b < 0x80)
    (h : pgIsIdentifier letter b = false ∧ b ≠ 0x22 ∧ b ≠ 0x2E) :
    endsIdentifier letter (b :: t) = true := by
  simp [endsIdentifier, DecodeRune_ascii b t hb, h.1, h.2.1, h.2.2]

theorem pgIsIdentifier_bracket (letter : Nat → Bool) : pgIsIdentifier letter 0x5B = false := by
  rw [pgIsIdentifier_ascii letter _ (by omega)]; decide

theorem pgIsIdentifier_colon (letter : Nat → Bool) : pgIsIdentifier letter 0x3A = false := by
  rw [pgIsIdentifier_ascii letter _ (by omega)]; decide

theorem pgIsIdentifier_minus (letter : Nat → Bool) : pgIsIdentifier letter 0x2D = false := by
  rw [pgIsIdentifier_ascii letter _ (by omega)]; decide

theorem parseColumn_entry (letter : Nat → Bool) (e : ColumnEntry) (rest : List Nat)
    (he : e.wellFormed letter = true) (hrest : rest = [] ∨ ∃ u, rest = 0x20 :: u) :
    parseColumn letter (some (e.text ++ rest))
      = .ok { remaining := some (rest.drop 1), name := some e.name.text,
              value := some e.value.text, err := none } := by
  simp only [ColumnEntry.wellFormed, Bool.and_eq_true, Bool.not_eq_true',
    List.isEmpty_eq_false] at he
  obtain ⟨⟨⟨⟨hname, hty⟩, hcl⟩, hnl⟩, hval⟩ := he
  have hnl' : 0x0A ∉ e.type := by
    intro h
    have : e.type.contains 0x0A = true := by simpa using h
    rw [this] at hnl
    exact Bool.noConfusion hnl
  have hty' : e.type ≠ [] := by
    intro h; rw [h] at hty; simp at hty
  have e1 : e.text ++ rest
      = e.name.text ++ 0x5B :: (e.type ++ 0x5D :: 0x3A :: (e.value.text ++ rest)) := by
    simp [ColumnEntry.text]
  have h1 := pgParseIdentifier_wellFormed letter e.name
    (0x5B :: (e.type ++ 0x5D :: 0x3A :: (e.value.text ++ rest))) hname
    (endsIdentifier_ascii letter _ _ (by omega) ⟨pgIsIdentifier_bracket letter, by omega, by omega⟩)
  have h2 := pgTestDecodingTypeRegexpFind_type e.type (e.value.text ++ rest) hty' hcl hnl'
  have h3 : Slice.sliceFrom (some (0x5B :: (e.type ++ 0x5D :: 0x3A :: (e.value.text ++ rest))))
      (0x5B :: (e.type ++ [0x5D, 0x3A])).length = .ok (some (e.value.text ++ rest)) :=
    sliceFrom_at (by simp) rfl
  have h4 := pgParseConstant_value e.value rest hval hrest
  unfold parseColumn
  rw [e1, h1]
  simp only [ok_bind, Slice.elems_some, h2, h3, h4]
  rcases hrest with rfl | ⟨u, rfl⟩
  · rfl
  · simp only [Slice.sliceFrom_ok (some (0x20 :: u)) 1 (by simp), ok_bind, pure_eq_ok]
    rfl

theorem columnsText_cons (e : ColumnEntry) (es : List ColumnEntry) :
    ∃ rest, columnsText (e :: es) = e.text ++ rest ∧ (rest = [] ∨ ∃ u, rest = 0x20 :: u) ∧
      rest.drop 1 = columnsText es := by
  cases es with
  | nil => exact ⟨[], by simp [columnsText], Or.inl rfl, rfl⟩
  | cons e' es' => exact ⟨0x20 :: columnsText (e' :: es'), by simp [columnsText], Or.inr ⟨_, rfl⟩, rfl⟩

theorem ColumnEntry_text_ne_nil (e : ColumnEntry) : e.text ≠ [] := by
  simp [ColumnEntry.text]

theorem columnsText_cons_ne_nil (e : ColumnEntry) (es : List ColumnEntry) :
    columnsText (e :: es) ≠ [] := by
  obtain ⟨rest, h, _⟩ := columnsText_cons e es
  rw [h]; simp [ColumnEntry_text_ne_nil]

theorem length_le_columnsText (es : List ColumnEntry) : es.length ≤ (columnsText es).length := by
  induction es with
  | nil => simp
  | cons e es ih =>
    obtain ⟨rest, h, _, hd⟩ := columnsText_cons e es
    have h0 : 0 < e.text.length := List.length_pos.2 (ColumnEntry_text_ne_nil e)
    have : (columnsText es).length ≤ rest.length := by
      rw [← hd]; simp
    rw [h]; simp only [List.length_append, List.length_cons]; omega

theorem parseInsert_loop_entries (letter : Nat → Bool) (es : List ColumnEntry) :
    ∀ (fuel : Nat) (o : ReplicationOperation), (∀ e ∈ es, e.wellFormed letter = true) →
      es.length < fuel →
      parseInsert.loop letter fuel (some (columnsText es)) o = .ok (none, o.addNewEntries es) := by
  induction es with
  | nil =>
    intro fuel o _ hf
    obtain ⟨fuel, rfl⟩ : ∃ k, fuel = k + 1 := ⟨fuel - 1, by simp at hf; omega⟩
    simp [parseInsert.loop, columnsText, Slice.len, ReplicationOperation.addNewEntries]
  | cons e es ih =>
    intro fuel o hes hf
    obtain ⟨fuel, rfl⟩ : ∃ k, fuel = k + 1 := ⟨fuel - 1, by simp at hf; omega⟩
    obtain ⟨rest, h, hrest, hd⟩ := columnsText_cons e es
    have hlen : Slice.len (some (columnsText (e :: es))) > 0 :=
      List.length_pos.2 (columnsText_cons_ne_nil e es)
    unfold parseInsert.loop
    rw [if_pos hlen, h, parseColumn_entry letter e rest (hes e (by simp)) hrest]
    simp only [ok_bind, hd, ne_eq, not_true_eq_false, if_false, Slice.elems_some]
    rw [ih fuel _ (fun e' h' => hes e' (by simp [h'])) (by simp at hf; omega)]
    rfl

theorem parseDelete_loop_entries (letter : Nat → Bool) (es : List ColumnEntry) :
    ∀ (fuel : Nat) (o : ReplicationOperation), (∀ e ∈ es, e.wellFormed letter = true) →
      es.length < fuel →
      parseDelete.loop letter fuel (some (columnsText es)) o = .ok (none, o.addOldEntries es) := by
  induction es with
  | nil =>
    intro fuel o _ hf
    obtain ⟨fuel, rfl⟩ : ∃ k, fuel = k + 1 := ⟨fuel - 1, by simp at hf; omega⟩
    simp [parseDelete.loop, columnsText, Slice.len, ReplicationOperation.addOldEntries]
  | cons e es ih =>
    intro fuel o hes hf
    obtain ⟨fuel, rfl⟩ : ∃ k, fuel = k + 1 := ⟨fuel - 1, by simp at hf; omega⟩
    obtain ⟨rest, h, hrest, hd⟩ := columnsText_cons e es
    have hlen : Slice.len (some (columnsText (e :: es))) > 0 :=
      List.length_pos.2 (columnsText_cons_ne_nil e es)
    unfold parseDelete.loop
    rw [if_pos hlen, h, parseColumn_entry letter e rest (hes e (by simp)) hrest]
    simp only [ok_bind, hd, ne_eq, not_true_eq_false, if_false, Slice.elems_some]
    rw [ih fuel _ (fun e' h' => hes e' (by simp [h'])) (by simp at hf; omega)]
    rfl

/-! ### The old key of an UPDATE -/

theorem HasPrefix_append (pre s : List Nat) : HasPrefix (pre ++ s) pre = true := by
  simp [HasPrefix]

theorem eq_append_of_HasPrefix (s pre : List Nat) (h : HasPrefix s pre = true) :
    s = pre ++ s.drop pre.length := by
  simp only [HasPrefix, beq_iff_eq] at h
  conv_lhs => rw [← List.take_append_drop pre.length s]
  rw [h]

/-- The word before the `-` of a keyword, as an identifier. -/
theorem pgParseIdentifier_word (letter : Nat → Bool) (word : List Nat) (y : List Nat)
    (hw : (Segment.bare word).wellFormed letter = true) (ha : ∀ b ∈ word, b < 0x80) :
    pgParseIdentifier letter (some (word ++ 0x2D :: y)) = .ok (some (0x2D :: y), some word) := by
  have := pgParseIdentifier_wellFormed letter ⟨.bare word, []⟩ (0x2D :: y)
    (by simp [Identifier.wellFormed, hw])
    (endsIdentifier_ascii letter _ _ (by omega) ⟨pgIsIdentifier_minus letter, by omega, by omega⟩)
  simpa [Identifier.text, Segment.text, dotted, encodeRunes_ascii word ha] using this

theorem wellFormed_word (letter : Nat → Bool) (word : List Nat) (hne : word ≠ [])
    (h : ∀ b ∈ word, 0x61 ≤ b ∧ b ≤ 0x7A) : (Segment.bare word).wellFormed letter = true := by
  simp only [Segment.wellFormed, Bool.and_eq_true, Bool.not_eq_true', List.isEmpty_eq_false,
    List.all_eq_true]
  refine ⟨by simpa using hne, fun c hc => ⟨?_, ?_⟩⟩
  · exact isScalar_of_lt c (by have := h c hc; omega)
  · rw [pgIsIdentifier_ascii letter c (by have := h c hc; omega)]
    have := h c hc
    simp; omega

/-- A column entry does not begin with a lower-case word followed by `-`. -/
theorem entry_not_keyword (letter : Nat → Bool) (e : ColumnEntry) (x word y : List Nat)
    (he : e.wellFormed letter = true) (hne : word ≠ []) (hw : ∀ b ∈ word, 0x61 ≤ b ∧ b ≤ 0x7A) :
    e.text ++ x ≠ word ++ 0x2D :: y := by
  intro heq
  simp only [ColumnEntry.wellFormed, Bool.and_eq_true] at he
  have h1 := pgParseIdentifier_wellFormed letter e.name (0x5B :: (e.type ++ 0x5D :: 0x3A :: (e.value.text ++ x)))
    he.1.1.1.1
    (endsIdentifier_ascii letter _ _ (by omega) ⟨pgIsIdentifier_bracket letter, by omega, by omega⟩)
  have h2 := pgParseIdentifier_word letter word y (wellFormed_word letter word hne hw)
    (fun b hb => by have := hw b hb; omega)
  have e1 : e.name.text ++ 0x5B :: (e.type ++ 0x5D :: 0x3A :: (e.value.text ++ x)) = e.text ++ x := by
    simp [ColumnEntry.text]
  rw [e1, heq, h2] at h1
  simp at h1

theorem entry_not_new_tuple (letter : Nat → Bool) (e : ColumnEntry) (x : List Nat)
    (he : e.wellFormed letter = true) :
    HasPrefix (e.text ++ x) (ascii "new-tuple: ") = false := by
  cases h : HasPrefix (e.text ++ x) (ascii "new-tuple: ") with
  | false => rfl
  | true =>
    exfalso
    have := eq_append_of_HasPrefix _ _ h
    apply entry_not_keyword letter e x [0x6E, 0x65, 0x77]
      (ascii "tuple: " ++ (e.text ++ x).drop (ascii "new-tuple: ").length) he (by simp)
      (by decide)
    rw [this]
    rfl

theorem entry_not_old_key (letter : Nat → Bool) (e : ColumnEntry) (x : List Nat)
    (he : e.wellFormed letter = true) :
    HasPrefix (e.text ++ x) (ascii "old-key: ") = false := by
  cases h : HasPrefix (e.text ++ x) (ascii "old-key: ") with
  | false => rfl
  | true =>
    exfalso
    have := eq_append_of_HasPrefix _ _ h
    apply entry_not_keyword letter e x [0x6F, 0x6C, 0x64]
      (ascii "key: " ++ (e.text ++ x).drop (ascii "old-key: ").length) he (by simp)
      (by decide)
    rw [this]
    rfl

theorem parseUpdate_oldKey_entries (letter : Nat → Bool) (K : List ColumnEntry) :
    ∀ (k : ColumnEntry) (fuel : Nat) (o : ReplicationOperation) (tailN : List Nat),
      (∀ e ∈ k :: K, e.wellFormed letter = true) → K.length < fuel →
      parseUpdate.oldKey letter fuel
          (some (columnsText (k :: K) ++ 0x20 :: (ascii "new-tuple: " ++ tailN))) o
        = .ok (.done (some tailN) (o.addOldEntries (k :: K))) := by
  induction K with
  | nil =>
    intro k fuel o tailN hwf hf
    obtain ⟨fuel, rfl⟩ : ∃ n, fuel = n + 1 := ⟨fuel - 1, by simp at hf; omega⟩
    have hlen : Slice.len (some (columnsText [k] ++ 0x20 :: (ascii "new-tuple: " ++ tailN))) > 0 := by
      simp [Slice.len]
    unfold parseUpdate.oldKey
    rw [if_pos hlen]
    simp only [columnsText]
    rw [parseColumn_entry letter k _ (hwf k (by simp)) (Or.inr ⟨_, rfl⟩)]
    simp only [ok_bind, ne_eq, not_true_eq_false, if_false, Slice.elems_some, List.drop_one,
      List.tail_cons, HasPrefix_append, if_true]
    rw [sliceFrom_at rfl (by decide : 11 = (ascii "new-tuple: ").length)]
    rfl
  | cons k' K ih =>
    intro k fuel o tailN hwf hf
    obtain ⟨fuel, rfl⟩ : ∃ n, fuel = n + 1 := ⟨fuel - 1, by simp at hf; omega⟩
    have e1 : columnsText (k :: k' :: K) ++ 0x20 :: (ascii "new-tuple: " ++ tailN)
        = k.text ++ 0x20 :: (columnsText (k' :: K) ++ 0x20 :: (ascii "new-tuple: " ++ tailN)) := by
      simp [columnsText]
    have hlen : Slice.len (some (columnsText (k :: k' :: K) ++ 0x20 :: (ascii "new-tuple: " ++ tailN))) > 0 := by
      simp [Slice.len]
    obtain ⟨rest, h, _, _⟩ := columnsText_cons k' K
    have hnp : HasPrefix (columnsText (k' :: K) ++ 0x20 :: (ascii "new-tuple: " ++ tailN))
        (ascii "new-tuple: ") = false := by
      rw [h, List.append_assoc]
      exact entry_not_new_tuple letter k' _ (hwf k' (by simp))
    unfold parseUpdate.oldKey
    rw [if_pos hlen, e1, parseColumn_entry letter k _ (hwf k (by simp)) (Or.inr ⟨_, rfl⟩)]
    simp only [ok_bind, ne_eq, not_true_eq_false, if_false, Slice.elems_some, List.drop_one,
      List.tail_cons, hnp, Bool.false_eq_true]
    rw [ih k' fuel _ tailN (fun e he => hwf e (by simp at he ⊢; tauto)) (by simp at hf; omega)]
    rfl

theorem parseUpdate_oldKey (letter : Nat → Bool) (k : ColumnEntry) (K N : List ColumnEntry)
    (o : ReplicationOperation) (hK : ∀ e ∈ k :: K, e.wellFormed letter = true)
    (hN : ∀ e ∈ N, e.wellFormed letter = true) :
    parseUpdate letter
        (some (ascii "old-key: " ++ (columnsText (k :: K) ++ 0x20 ::
          (ascii "new-tuple: " ++ columnsText N)))) o
      = .ok (none, (o.addOldEntries (k :: K)).addNewEntries N) := by
  have hlK := length_le_columnsText (k :: K)
  have hlN := length_le_columnsText N
  unfold parseUpdate
  simp only [Slice.elems_some, HasPrefix_append, if_true]
  rw [sliceFrom_at rfl (by decide : 9 = (ascii "old-key: ").length)]
  simp only [ok_bind]
  rw [parseUpdate_oldKey_entries letter K k _ o _ hK (by
    simp only [Slice.len_some, List.length_append, List.length_cons] at hlK ⊢; omega)]
  simp only [ok_bind]
  exact parseInsert_loop_entries letter N _ _ hN (by simp only [Slice.len_some]; omega)

/-! ### What `Parse` does to the record -/

theorem balanced_addOld {o : ReplicationOperation} (h : o.Balanced) (n v : GoString) :
    ({ o with OldColumns := o.OldColumns.append n, OldValues := o.OldValues.append v }
      : ReplicationOperation).Balanced := by
  have h1 := h.1
  have h2 := h.2
  simp only [Slice.len] at h1 h2
  simp only [ReplicationOperation.Balanced, Slice.len, Slice.append, Slice.elems_some,
    List.length_append, List.length_singleton, h1, h2, and_self]

theorem balanced_addNew {o : ReplicationOperation} (h : o.Balanced) (n v : GoString) :
    ({ o with NewColumns := o.NewColumns.append n, NewValues := o.NewValues.append v }
      : ReplicationOperation).Balanced := by
  have h1 := h.1
  have h2 := h.2
  simp only [Slice.len] at h1 h2
  simp only [ReplicationOperation.Balanced, Slice.len, Slice.append, Slice.elems_some,
    List.length_append, List.length_singleton, h1, h2, and_self]

theorem Slice.elems_reset {α : Type} (s : Slice α) : s.reset.elems = [] := by
  cases s <;> rfl

theorem balanced_reset (o : ReplicationOperation) (op tgt : GoString) :
    ({ o.reset with Target := tgt, Operation := op } : ReplicationOperation).Balanced := by
  simp [ReplicationOperation.Balanced, ReplicationOperation.reset, Slice.len, Slice.elems_reset]

theorem parseInsert_loop_balanced (letter : Nat → Bool) (fuel : Nat) :
    ∀ (input : Slice Nat) (o out : ReplicationOperation) (err : GoError),
      parseInsert.loop letter fuel input o = .ok (err, out) → o.Balanced → out.Balanced := by
  induction fuel with
  | zero => intro input o out err h; simp [parseInsert.loop] at h
  | succ fuel ih =>
    intro input o out err h hb
    unfold parseInsert.loop at h
    split_ifs at h with hlen
    · cases hc : parseColumn letter input with
      | error e => simp [hc] at h
      | ok col =>
        simp only [hc, ok_bind] at h
        split_ifs at h with herr
        · simp only [pure_eq_ok, Except.ok.injEq, Prod.mk.injEq] at h
          rw [← h.2]; exact hb
        · exact ih _ _ _ _ h (balanced_addNew hb _ _)
    · simp only [pure_eq_ok, Except.ok.injEq, Prod.mk.injEq] at h
      rw [← h.2]; exact hb

theorem parseDelete_loop_balanced (letter : Nat → Bool) (fuel : Nat) :
    ∀ (input : Slice Nat) (o out : ReplicationOperation) (err : GoError),
      parseDelete.loop letter fuel input o = .ok (err, out) → o.Balanced → out.Balanced := by
  induction fuel with
  | zero => intro input o out err h; simp [parseDelete.loop] at h
  | succ fuel ih =>
    intro input o out err h hb
    unfold parseDelete.loop at h
    split_ifs at h with hlen
    · cases hc : parseColumn letter input with
      | error e => simp [hc] at h
      | ok col =>
        simp only [hc, ok_bind] at h
        split_ifs at h with herr
        · simp only [pure_eq_ok, Except.ok.injEq, Prod.mk.injEq] at h
          rw [← h.2]; exact hb
        · exact ih _ _ _ _ h (balanced_addOld hb _ _)
    · simp only [pure_eq_ok, Except.ok.injEq, Prod.mk.injEq] at h
      rw [← h.2]; exact hb

/-- The record an `OldKeyExit` carries. -/
theorem parseUpdate_oldKey_balanced (letter : Nat → Bool) (fuel : Nat) :
    ∀ (input : Slice Nat) (o : ReplicationOperation) (x : OldKeyExit),
      parseUpdate.oldKey letter fuel input o = .ok x → o.Balanced →
      match x with
      | .ret _ out => out.Balanced
      | .done _ out => out.Balanced := by
  induction fuel with
  | zero => intro input o x h; simp [parseUpdate.oldKey] at h
  | succ fuel ih =>
    intro input o x h hb
    unfold parseUpdate.oldKey at h
    split_ifs at h with hlen
    · cases hc : parseColumn letter input with
      | error e => simp [hc] at h
      | ok col =>
        simp only [hc, ok_bind] at h
        split_ifs at h with herr hpre
        · simp only [pure_eq_ok, Except.ok.injEq] at h
          subst h; exact hb
        · cases hs : col.remaining.sliceFrom 11 with
          | error e => simp [hs] at h
          | ok s =>
            simp only [hs, ok_bind, pure_eq_ok, Except.ok.injEq] at h
            subst h
            exact balanced_addOld hb _ _
        · exact ih _ _ _ h (balanced_addOld hb _ _)
    · simp only [pure_eq_ok, Except.ok.injEq] at h
      subst h; exact hb

theorem parseUpdate_balanced (letter : Nat → Bool) (input : Slice Nat)
    (o out : ReplicationOperation) (err : GoError)
    (h : parseUpdate letter input o = .ok (err, out)) (hb : o.Balanced) : out.Balanced := by
  unfold parseUpdate at h
  have key : ∀ x : OldKeyExit,
      (match x with
        | .ret _ out => out.Balanced
        | .done _ out => out.Balanced) →
      (match x with
        | .ret err output => (pure (err, output) : Except Fault (GoError × ReplicationOperation))
        | .done input output => parseInsert.loop letter (input.len + 1) input output)
        = .ok (err, out) → out.Balanced := by
    intro x hx hx'
    cases x with
    | ret e o' =>
      simp only [pure_eq_ok, Except.ok.injEq, Prod.mk.injEq] at hx'
      rw [← hx'.2]; exact hx
    | done i o' => exact parseInsert_loop_balanced letter _ _ _ _ _ hx' hx
  split_ifs at h with hp
  · cases hs : input.sliceFrom 9 with
    | error e => simp [hs] at h
    | ok s =>
      simp only [hs, ok_bind] at h
      cases hk : parseUpdate.oldKey letter (s.len + 1) s o with
      | error e => simp [hk] at h
      | ok x =>
        simp only [hk, ok_bind] at h
        exact key x (parseUpdate_oldKey_balanced letter _ _ _ _ hk hb) h
  · simp only [pure_eq_ok, ok_bind] at h
    exact parseInsert_loop_balanced letter _ _ _ _ _ h hb

/-- What `Parse` does with an input does not depend on the record: it aborts, or it finishes
with an operation and a target on the reset record, or it hands a body and the reset record
with the operation and the target to one of the three row decoders. -/
theorem Parse_factor (letter : Nat → Bool) (input : Slice Nat) :
    (∃ f, ∀ o, Parse letter input o = .error f) ∨
    (∃ op tgt, ∀ o, Parse letter input o
        = .ok (none, { o.reset with Target := tgt, Operation := op })) ∨
    (∃ op tgt body, ∀ o, Parse letter input o
        = parseDelete letter body { o.reset with Target := tgt, Operation := op }) ∨
    (∃ op tgt body, ∀ o, Parse letter input o
        = parseInsert letter body { o.reset with Target := tgt, Operation := op }) ∨
    (∃ op tgt body, ∀ o, Parse letter input o
        = parseUpdate letter body { o.reset with Target := tgt, Operation := op }) := by
  unfold Parse
  by_cases h0 : input.len < 1
  · exact Or.inl ⟨.panic, fun o => by simp only [h0, if_true]⟩
  simp only [h0, if_false]
  cases indexAt input.elems 0 with
  | error f => exact Or.inl ⟨f, fun o => rfl⟩
  | ok first =>
  simp only [ok_bind]
  by_cases hB : first = 0x42
  · simp only [hB, if_true]
    cases input.sliceTo 5 with
    | error f => exact Or.inl ⟨f, fun o => rfl⟩
    | ok op =>
      cases input.sliceFrom 6 with
      | error f => exact Or.inl ⟨f, fun o => rfl⟩
      | ok tgt => exact Or.inr (Or.inl ⟨op.elems, tgt.elems, fun o => rfl⟩)
  simp only [hB, if_false]
  by_cases hC : first = 0x43
  · simp only [hC, if_true]
    cases input.sliceTo 6 with
    | error f => exact Or.inl ⟨f, fun o => rfl⟩
    | ok op =>
      cases input.sliceFrom 7 with
      | error f => exact Or.inl ⟨f, fun o => rfl⟩
      | ok tgt => exact Or.inr (Or.inl ⟨op.elems, tgt.elems, fun o => rfl⟩)
  simp only [hC, if_false]
  by_cases hT : (!HasPrefix input.elems (ascii "table ")) = true
  · exact Or.inl ⟨.panic, fun o => by simp only [hT, if_true]⟩
  simp only [hT, Bool.false_eq_true, if_false]
  cases input.sliceFrom 6 with
  | error f => exact Or.inl ⟨f, fun o => rfl⟩
  | ok s =>
  simp only [ok_bind]
  cases pgParseIdentifier letter s with
  | error f => exact Or.inl ⟨f, fun o => rfl⟩
  | ok ct =>
  obtain ⟨current, target⟩ := ct
  simp only [ok_bind]
  by_cases hP : (!HasPrefix current.elems (ascii ": ")) = true
  · exact Or.inl ⟨.panic, fun o => by simp only [hP, if_true]⟩
  simp only [hP, Bool.false_eq_true, if_false]
  cases current.sliceFrom (2 + 6) with
  | error f => exact Or.inl ⟨f, fun o => rfl⟩
  | ok rest =>
  simp only [ok_bind]
  cases current.sliceBetween 2 (2 + 6) with
  | error f => exact Or.inl ⟨f, fun o => rfl⟩
  | ok operation =>
  simp only [ok_bind]
  by_cases hO : operation.elems ≠ ascii "DELETE" ∧ operation.elems ≠ ascii "INSERT" ∧
      operation.elems ≠ ascii "UPDATE"
  · exact Or.inl ⟨.panic, fun o => by rw [if_pos hO]⟩
  simp only [if_neg hO]
  by_cases hQ : (!HasPrefix rest.elems (ascii ": ")) = true
  · exact Or.inl ⟨.panic, fun o => by simp only [hQ, if_true]⟩
  simp only [hQ, Bool.false_eq_true, if_false]
  cases rest.sliceFrom 2 with
  | error f => exact Or.inl ⟨f, fun o => rfl⟩
  | ok body =>
  simp only [ok_bind]
  cases indexAt operation.elems 0 with
  | error f => exact Or.inl ⟨f, fun o => rfl⟩
  | ok op0 =>
  simp only [ok_bind]
  by_cases hD : op0 = 0x44
  · simp only [hD, if_true]
    exact Or.inr (Or.inr (Or.inl ⟨operation.elems, target.elems, body, fun o => rfl⟩))
  simp only [hD, if_false]
  by_cases hI : op0 = 0x49
  · simp only [hI, if_true]
    exact Or.inr (Or.inr (Or.inr (Or.inl ⟨operation.elems, target.elems, body, fun o => rfl⟩)))
  simp only [hI, if_false]
  by_cases hU : op0 = 0x55
  · simp only [hU, if_true]
    exact Or.inr (Or.inr (Or.inr (Or.inr ⟨operation.elems, target.elems, body, fun o => rfl⟩)))
  simp only [hU, if_false]
  exact Or.inr (Or.inl ⟨operation.elems, target.elems, fun o => rfl⟩)

/-! ### Records that hold the same output -/

theorem sameOutput_addOld {a b : ReplicationOperation} (h : a.SameOutput b) (n v : GoString) :
    ReplicationOperation.SameOutput
      { a with OldColumns := a.OldColumns.append n, OldValues := a.OldValues.append v }
      { b with OldColumns := b.OldColumns.append n, OldValues := b.OldValues.append v } := by
  obtain ⟨h1, h2, h3, h4, h5, h6⟩ := h
  simp only [ReplicationOperation.SameOutput, Slice.append, Slice.elems_some, h1, h2, h3, h4,
    h5, h6, and_self]

theorem sameOutput_addNew {a b : ReplicationOperation} (h : a.SameOutput b) (n v : GoString) :
    ReplicationOperation.SameOutput
      { a with NewColumns := a.NewColumns.append n, NewValues := a.NewValues.append v }
      { b with NewColumns := b.NewColumns.append n, NewValues := b.NewValues.append v } := by
  obtain ⟨h1, h2, h3, h4, h5, h6⟩ := h
  simp only [ReplicationOperation.SameOutput, Slice.append, Slice.elems_some, h1, h2, h3, h4,
    h5, h6, and_self]

theorem sameOutput_reset (a b : ReplicationOperation) (op tgt : GoString) :
    ReplicationOperation.SameOutput { a.reset with Target := tgt, Operation := op }
      { b.reset with Target := tgt, Operation := op } := by
  simp [ReplicationOperation.SameOutput, ReplicationOperation.reset, Slice.elems_reset]

theorem parseInsert_loop_same (letter : Nat → Bool) (fuel : Nat) :
    ∀ (input : Slice Nat) (a b out : ReplicationOperation) (err : GoError),
      parseInsert.loop letter fuel input a = .ok (err, out) → a.SameOutput b →
      ∃ out', parseInsert.loop letter fuel input b = .ok (err, out') ∧ out.SameOutput out' := by
  induction fuel with
  | zero => intro input a b out err h; simp [parseInsert.loop] at h
  | succ fuel ih =>
    intro input a b out err h hs
    unfold parseInsert.loop at h ⊢
    split_ifs at h ⊢ with hlen
    · cases hc : parseColumn letter input with
      | error e => simp [hc] at h
      | ok col =>
        simp only [hc, ok_bind] at h ⊢
        split_ifs at h ⊢ with herr
        · simp only [pure_eq_ok, Except.ok.injEq, Prod.mk.injEq] at h
          exact ⟨b, by rw [h.1]; rfl, by rw [← h.2]; exact hs⟩
        · exact ih _ _ _ _ _ h (sameOutput_addNew hs _ _)
    · simp only [pure_eq_ok, Except.ok.injEq, Prod.mk.injEq] at h
      exact ⟨b, by rw [h.1]; rfl, by rw [← h.2]; exact hs⟩

theorem parseDelete_loop_same (letter : Nat → Bool) (fuel : Nat) :
    ∀ (input : Slice Nat) (a b out : ReplicationOperation) (err : GoError),
      parseDelete.loop letter fuel input a = .ok (err, out) → a.SameOutput b →
      ∃ out', parseDelete.loop letter fuel input b = .ok (err, out') ∧ out.SameOutput out' := by
  induction fuel with
  | zero => intro input a b out err h; simp [parseDelete.loop] at h
  | succ fuel ih =>
    intro input a b out err h hs
    unfold parseDelete.loop at h ⊢
    split_ifs at h ⊢ with hlen
    · cases hc : parseColumn letter input with
      | error e => simp [hc] at h
      | ok col =>
        simp only [hc, ok_bind] at h ⊢
        split_ifs at h ⊢ with herr
        · simp only [pure_eq_ok, Except.ok.injEq, Prod.mk.injEq] at h
          exact ⟨b, by rw [h.1]; rfl, by rw [← h.2]; exact hs⟩
        · exact ih _ _ _ _ _ h (sameOutput_addOld hs _ _)
    · simp only [pure_eq_ok, Except.ok.injEq, Prod.mk.injEq] at h
      exact ⟨b, by rw [h.1]; rfl, by rw [← h.2]; exact hs⟩

theorem parseUpdate_oldKey_same (letter : Nat → Bool) (fuel : Nat) :
    ∀ (input : Slice Nat) (a b : ReplicationOperation) (x : OldKeyExit),
      parseUpdate.oldKey letter fuel input a = .ok x → a.SameOutput b →
      ∃ y, parseUpdate.oldKey letter fuel input b = .ok y ∧ x.Same y := by
  induction fuel with
  | zero => intro input a b x h; simp [parseUpdate.oldKey] at h
  | succ fuel ih =>
    intro input a b x h hs
    unfold parseUpdate.oldKey at h ⊢
    split_ifs at h ⊢ with hlen
    · cases hc : parseColumn letter input with
      | error e => simp [hc] at h
      | ok col =>
        simp only [hc, ok_bind] at h ⊢
        split_ifs at h ⊢ with herr hpre
        · simp only [pure_eq_ok, Except.ok.injEq] at h
          subst h
          exact ⟨_, rfl, rfl, hs⟩
        · cases hsl : col.remaining.sliceFrom 11 with
          | error e => simp [hsl] at h
          | ok s =>
            simp only [hsl, ok_bind, pure_eq_ok, Except.ok.injEq] at h ⊢
            subst h
            exact ⟨_, rfl, rfl, sameOutput_addOld hs _ _⟩
        · exact ih _ _ _ _ h (sameOutput_addOld hs _ _)
    · simp only [pure_eq_ok, Except.ok.injEq] at h
      subst h
      exact ⟨_, rfl, rfl, hs⟩

theorem parseUpdate_same (letter : Nat → Bool) (input : Slice Nat)
    (a b out : ReplicationOperation) (err : GoError)
    (h : parseUpdate letter input a = .ok (err, out)) (hs : a.SameOutput b) :
    ∃ out', parseUpdate letter input b = .ok (err, out') ∧ out.SameOutput out' := by
  unfold parseUpdate at h ⊢
  split_ifs at h ⊢ with hp
  · cases hsl : input.sliceFrom 9 with
    | error e => simp [hsl] at h
    | ok s =>
      simp only [hsl, ok_bind] at h ⊢
      cases hk : parseUpdate.oldKey letter (s.len + 1) s a with
      | error e => simp [hk] at h
      | ok x =>
        simp only [hk, ok_bind] at h
        obtain ⟨y, hy, hxy⟩ := parseUpdate_oldKey_same letter _ _ _ b _ hk hs
        simp only [hy, ok_bind]
        cases x with
        | ret e o' =>
          cases y with
          | ret e' o'' =>
            simp only [pure_eq_ok, Except.ok.injEq, Prod.mk.injEq] at h ⊢
            obtain ⟨he, ho⟩ := hxy
            exact ⟨o'', ⟨by rw [← he, h.1], rfl⟩, by rw [← h.2]; exact ho⟩
          | done _ _ => exact absurd hxy (by simp [OldKeyExit.Same])
        | done i o' =>
          cases y with
          | ret _ _ => exact absurd hxy (by simp [OldKeyExit.Same])
          | done i' o'' =>
            obtain ⟨hi, ho⟩ := hxy
            subst hi
            exact parseInsert_loop_same letter _ _ _ _ _ _ h ho
  · simp only [pure_eq_ok, ok_bind] at h ⊢
    exact parseInsert_loop_same letter _ _ _ _ _ _ h hs

theorem Parse_same (letter : Nat → Bool) (input : Slice Nat) (a b out : ReplicationOperation)
    (err : GoError) (h : Parse letter input a = .ok (err, out)) :
    ∃ out', Parse letter input b = .ok (err, out') ∧ out.SameOutput out' := by
  rcases Parse_factor letter input with ⟨f, hf⟩ | ⟨op, tgt, hf⟩ | ⟨op, tgt, body, hf⟩ |
    ⟨op, tgt, body, hf⟩ | ⟨op, tgt, body, hf⟩
  · rw [hf] at h; exact absurd h (by simp)
  · rw [hf] at h ⊢
    simp only [Except.ok.injEq, Prod.mk.injEq] at h
    exact ⟨_, by rw [h.1], by rw [← h.2]; exact sameOutput_reset a b op tgt⟩
  · rw [hf] at h ⊢
    exact parseDelete_loop_same letter _ _ _ _ _ _ h (sameOutput_reset a b op tgt)
  · rw [hf] at h ⊢
    exact parseInsert_loop_same letter _ _ _ _ _ _ h (sameOutput_reset a b op tgt)
  · rw [hf] at h ⊢
    exact parseUpdate_same letter _ _ _ _ _ h (sameOutput_reset a b op tgt)

theorem Parse_balanced (letter : Nat → Bool) (input : Slice Nat) (o out : ReplicationOperation)
    (err : GoError) (h : Parse letter input o = .ok (err, out)) : out.Balanced := by
  rcases Parse_factor letter input with ⟨f, hf⟩ | ⟨op, tgt, hf⟩ | ⟨op, tgt, body, hf⟩ |
    ⟨op, tgt, body, hf⟩ | ⟨op, tgt, body, hf⟩
  · rw [hf] at h; exact absurd h (by simp)
  · rw [hf] at h
    simp only [Except.ok.injEq, Prod.mk.injEq] at h
    rw [← h.2]; exact balanced_reset o op tgt
  · rw [hf] at h
    exact parseDelete_loop_balanced letter _ _ _ _ _ h (balanced_reset o op tgt)
  · rw [hf] at h
    exact parseInsert_loop_balanced letter _ _ _ _ _ h (balanced_reset o op tgt)
  · rw [hf] at h
    exact parseUpdate_balanced letter _ _ _ _ h (balanced_reset o op tgt)

/-! ### `Parse` on the three kinds of message -/

theorem Parse_control (letter : Nat → Bool) (word x : List Nat) (o : ReplicationOperation)
    (first : Nat) (hw : word.head? = some first) (hf : first = 0x42 ∨ first = 0x43)
    (hn : word.length = if first = 0x42 then 5 else 6) :
    Parse letter (some (word ++ 0x20 :: x)) o
      = .ok (none, { o.reset with Operation := word, Target := x }) := by
  match word, hw with
  | b :: w, hw =>
    simp only [List.head?_cons, Option.some.injEq] at hw
    subst hw
    have e1 : b :: w ++ 0x20 :: x = (b :: w) ++ (0x20 :: x) := rfl
    have e2 : b :: w ++ 0x20 :: x = (b :: w ++ [0x20]) ++ x := by simp
    unfold Parse
    simp only [Slice.len_some, List.cons_append, List.length_cons, Slice.elems_some]
    rw [if_neg (by omega)]
    simp only [indexAt, List.getElem?_cons_zero, ok_bind]
    rcases hf with hB | hC
    · rw [if_pos hB]
      rw [if_pos hB] at hn
      have s1 : Slice.sliceTo (some (b :: (w ++ 0x20 :: x))) 5 = .ok (some (b :: w)) := by
        rw [Slice.sliceTo_ok _ _ (by simp at hn ⊢; omega)]
        have ht : List.take 5 (b :: (w ++ 0x20 :: x)) = b :: w := take_at e1 hn.symm
        simp only [Option.map_some', ht]
      have s2 : Slice.sliceFrom (some (b :: (w ++ 0x20 :: x))) 6 = .ok (some x) :=
        sliceFrom_at e2 (by simp at hn ⊢; omega)
      simp only [s1, s2, ok_bind, Slice.elems_some, pure_eq_ok]
      rfl
    · have hB : ¬ b = 0x42 := by omega
      rw [if_neg hB, if_pos hC]
      rw [if_neg hB] at hn
      have s1 : Slice.sliceTo (some (b :: (w ++ 0x20 :: x))) 6 = .ok (some (b :: w)) := by
        rw [Slice.sliceTo_ok _ _ (by simp at hn ⊢; omega)]
        have ht : List.take 6 (b :: (w ++ 0x20 :: x)) = b :: w := take_at e1 hn.symm
        simp only [Option.map_some', ht]
      have s2 : Slice.sliceFrom (some (b :: (w ++ 0x20 :: x))) 7 = .ok (some x) :=
        sliceFrom_at e2 (by simp at hn ⊢; omega)
      simp only [s1, s2, ok_bind, Slice.elems_some, pure_eq_ok]
      rfl

theorem ascii_colon (x : List Nat) : ascii ": " ++ x = 0x3A :: 0x20 :: x := rfl

theorem Parse_row (letter : Nat → Bool) (T : Identifier) (op body : List Nat)
    (o : ReplicationOperation) (hT : T.wellFormed letter = true)
    (hop : op = ascii "DELETE" ∨ op = ascii "INSERT" ∨ op = ascii "UPDATE") :
    Parse letter (some (ascii "table " ++ (T.text ++ (ascii ": " ++ (op ++ (ascii ": " ++ body))))))
        o
      = if op = ascii "DELETE" then
          parseDelete letter (some body) { o.reset with Target := T.text, Operation := op }
        else if op = ascii "INSERT" then
          parseInsert letter (some body) { o.reset with Target := T.text, Operation := op }
        else
          parseUpdate letter (some body) { o.reset with Target := T.text, Operation := op } := by
  have hlen : op.length = 6 := by rcases hop with rfl | rfl | rfl <;> rfl
  generalize hL : ascii "table " ++ (T.text ++ (ascii ": " ++ (op ++ (ascii ": " ++ body)))) = L
  have h0 : ¬ Slice.len (some L) < 1 := by subst hL; simp [ascii]
  have h1 : indexAt L 0 = .ok 0x74 := by subst hL; rfl
  have h2 : HasPrefix L (ascii "table ") = true := by subst hL; exact HasPrefix_append _ _
  have h3 : Slice.sliceFrom (some L) 6
      = .ok (some (T.text ++ (ascii ": " ++ (op ++ (ascii ": " ++ body))))) :=
    sliceFrom_at hL.symm rfl
  have h4 := pgParseIdentifier_wellFormed letter T (ascii ": " ++ (op ++ (ascii ": " ++ body))) hT
    (by rw [ascii_colon]
        exact endsIdentifier_ascii letter _ _ (by omega)
          ⟨pgIsIdentifier_colon letter, by omega, by omega⟩)
  have h5 : HasPrefix (ascii ": " ++ (op ++ (ascii ": " ++ body))) (ascii ": ") = true :=
    HasPrefix_append _ _
  have e6 : ascii ": " ++ (op ++ (ascii ": " ++ body)) = (ascii ": " ++ op) ++ (ascii ": " ++ body) := by
    simp
  have n6 : 2 + 6 = (ascii ": " ++ op).length := by
    simp only [List.length_append, hlen]; rfl
  have h6 : Slice.sliceFrom (some (ascii ": " ++ (op ++ (ascii ": " ++ body)))) (2 + 6)
      = .ok (some (ascii ": " ++ body)) := sliceFrom_at e6 n6
  have h7 : Slice.sliceBetween (some (ascii ": " ++ (op ++ (ascii ": " ++ body)))) 2 (2 + 6)
      = .ok (some op) := by
    unfold Slice.sliceBetween
    rw [if_pos ⟨by omega, by
      have := congrArg List.length e6
      simp only [Slice.len_some] at this ⊢
      rw [this, List.length_append, ← n6]; omega⟩]
    simp only [Option.map_some', take_at e6 n6]
    rfl
  have h8 : HasPrefix (ascii ": " ++ body) (ascii ": ") = true := HasPrefix_append _ _
  have h9 : Slice.sliceFrom (some (ascii ": " ++ body)) 2 = .ok (some body) :=
    sliceFrom_at rfl rfl
  unfold Parse
  simp only [h0, if_false, Slice.elems_some, h1, ok_bind, h2, Bool.not_true, Bool.false_eq_true,
    h3, h4, h5, h6, h7, h8, h9]
  rw [if_neg (by decide), if_neg (by decide)]
  rcases hop with rfl | rfl | rfl
  · rw [if_neg (by decide)]
    rfl
  · rw [if_neg (by decide)]
    rfl
  · rw [if_neg (by decide)]
    rfl

/-! ### The record after a column list -/

theorem addNewEntries_fields (es : List ColumnEntry) :
    ∀ o : ReplicationOperation,
      (o.addNewEntries es).Operation = o.Operation ∧ (o.addNewEntries es).Target = o.Target ∧
      (o.addNewEntries es).Position = o.Position ∧
      (o.addNewEntries es).OldColumns = o.OldColumns ∧
      (o.addNewEntries es).OldValues = o.OldValues ∧
      (o.addNewEntries es).NewColumns.elems = o.NewColumns.elems ++ es.map (fun e => e.name.text) ∧
      (o.addNewEntries es).NewValues.elems
        = o.NewValues.elems ++ es.map (fun e => e.value.text) := by
  induction es with
  | nil => intro o; simp [ReplicationOperation.addNewEntries]
  | cons e es ih =>
    intro o
    have := ih (o.addNew e.name.text e.value.text)
    simp only [ReplicationOperation.addNewEntries, List.foldl_cons] at this ⊢
    obtain ⟨h1, h2, h3, h4, h5, h6, h7⟩ := this
    refine ⟨h1, h2, h3, h4, h5, ?_, ?_⟩
    · rw [h6]; simp [ReplicationOperation.addNew, Slice.append]
    · rw [h7]; simp [ReplicationOperation.addNew, Slice.append]

theorem addOldEntries_fields (es : List ColumnEntry) :
    ∀ o : ReplicationOperation,
      (o.addOldEntries es).Operation = o.Operation ∧ (o.addOldEntries es).Target = o.Target ∧
      (o.addOldEntries es).Position = o.Position ∧
      (o.addOldEntries es).NewColumns = o.NewColumns ∧
      (o.addOldEntries es).NewValues = o.NewValues ∧
      (o.addOldEntries es).OldColumns.elems = o.OldColumns.elems ++ es.map (fun e => e.name.text) ∧
      (o.addOldEntries es).OldValues.elems
        = o.OldValues.elems ++ es.map (fun e => e.value.text) := by
  induction es with
  | nil => intro o; simp [ReplicationOperation.addOldEntries]
  | cons e es ih =>
    intro o
    have := ih (o.addOld e.name.text e.value.text)
    simp only [ReplicationOperation.addOldEntries, List.foldl_cons] at this ⊢
    obtain ⟨h1, h2, h3, h4, h5, h6, h7⟩ := this
    refine ⟨h1, h2, h3, h4, h5, ?_, ?_⟩
    · rw [h6]; simp [ReplicationOperation.addOld, Slice.append]
    · rw [h7]; simp [ReplicationOperation.addOld, Slice.append]

theorem Parse_insert_entries (letter : Nat → Bool) (T : Identifier) (es : List ColumnEntry)
    (o : ReplicationOperation) (hT : T.wellFormed letter = true)
    (hes : ∀ e ∈ es, e.wellFormed letter = true) :
    Parse letter (some (ascii "table " ++ T.text ++ ascii ": INSERT: " ++ columnsText es)) o
      = .ok (none, ReplicationOperation.addNewEntries
          { o.reset with Target := T.text, Operation := ascii "INSERT" } es) := by
  have e : ascii "table " ++ T.text ++ ascii ": INSERT: " ++ columnsText es
      = ascii "table " ++ (T.text ++ (ascii ": " ++ (ascii "INSERT" ++ (ascii ": " ++ columnsText es)))) := by
    have : ascii ": INSERT: " = ascii ": " ++ (ascii "INSERT" ++ ascii ": ") := by decide
    rw [this]; simp only [List.append_assoc]
  rw [e, Parse_row letter T _ _ o hT (Or.inr (Or.inl rfl)), if_neg (by decide), if_pos rfl]
  exact parseInsert_loop_entries letter es _ _ hes
    (by have := length_le_columnsText es; simp only [Slice.len_some]; omega)

theorem Parse_delete_entries (letter : Nat → Bool) (T : Identifier) (es : List ColumnEntry)
    (o : ReplicationOperation) (hT : T.wellFormed letter = true)
    (hes : ∀ e ∈ es, e.wellFormed letter = true) :
    Parse letter (some (ascii "table " ++ T.text ++ ascii ": DELETE: " ++ columnsText es)) o
      = .ok (none, ReplicationOperation.addOldEntries
          { o.reset with Target := T.text, Operation := ascii "DELETE" } es) := by
  have e : ascii "table " ++ T.text ++ ascii ": DELETE: " ++ columnsText es
      = ascii "table " ++ (T.text ++ (ascii ": " ++ (ascii "DELETE" ++ (ascii ": " ++ columnsText es)))) := by
    have : ascii ": DELETE: " = ascii ": " ++ (ascii "DELETE" ++ ascii ": ") := by decide
    rw [this]; simp only [List.append_assoc]
  rw [e, Parse_row letter T _ _ o hT (Or.inl rfl), if_pos rfl]
  exact parseDelete_loop_entries letter es _ _ hes
    (by have := length_le_columnsText es; simp only [Slice.len_some]; omega)

theorem Parse_update_entries (letter : Nat → Bool) (T : Identifier) (k : ColumnEntry)
    (K N : List ColumnEntry) (o : ReplicationOperation) (hT : T.wellFormed letter = true)
    (hK : ∀ e ∈ k :: K, e.wellFormed letter = true) (hN : ∀ e ∈ N, e.wellFormed letter = true) :
    Parse letter (some (ascii "table " ++ T.text ++ ascii ": UPDATE: old-key: " ++
        columnsText (k :: K) ++ ascii " new-tuple: " ++ columnsText N)) o
      = .ok (none, ReplicationOperation.addNewEntries (ReplicationOperation.addOldEntries
          { o.reset with Target := T.text, Operation := ascii "UPDATE" } (k :: K)) N) := by
  have e : ascii "table " ++ T.text ++ ascii ": UPDATE: old-key: " ++
        columnsText (k :: K) ++ ascii " new-tuple: " ++ columnsText N
      = ascii "table " ++ (T.text ++ (ascii ": " ++ (ascii "UPDATE" ++ (ascii ": " ++
          (ascii "old-key: " ++ (columnsText (k :: K) ++ 0x20 ::
            (ascii "new-tuple: " ++ columnsText N))))))) := by
    have h1 : ascii ": UPDATE: old-key: "
        = ascii ": " ++ (ascii "UPDATE" ++ (ascii ": " ++ ascii "old-key: ")) := by decide
    have h2 : ascii " new-tuple: " = 0x20 :: ascii "new-tuple: " := by decide
    rw [h1, h2]; simp only [List.append_assoc, List.cons_append]
  rw [e, Parse_row letter T _ _ o hT (Or.inr (Or.inr rfl)), if_neg (by decide),
    if_neg (by decide)]
  exact parseUpdate_oldKey letter k K N _ hK hN

/-! ### The numeric run before any byte -/

theorem DecodeRune_not_numeric (b : Nat) (u : List Nat) (hb : pgIsNumeric b = false) :
    pgIsNumeric (DecodeRune (b :: u)).1 = false := by
  cases h : pgIsNumeric (DecodeRune (b :: u)).1 with
  | false => rfl
  | true =>
    exfalso
    obtain ⟨r, hr, _⟩ := DecodeRune_eq_ascii (b :: u) _ (pgIsNumeric_lt _ h) rfl
    simp only [List.cons.injEq] at hr
    rw [← hr.1, hb] at h
    exact Bool.noConfusion h

theorem pgParseConstant_numeric_run (t rest : List Nat) (ht : t ≠ [])
    (hnum : ∀ b ∈ t, pgIsNumeric b = true)
    (hrest : rest = [] ∨ ∃ b u, rest = b :: u ∧ pgIsNumeric b = false) :
    pgParseConstant (some (t ++ rest)) = .ok (some rest, some t) := by
  have hasc : ∀ b ∈ t, b < 0x80 := fun b hb => pgIsNumeric_lt b (hnum b hb)
  have henc := encodeRunes_ascii t hasc
  have hrun : ∀ c ∈ t, isScalar c = true ∧ pgIsNotNumeric c = false := fun c hc =>
    ⟨isScalar_of_lt c (hasc c hc), by simp [pgIsNotNumeric, hnum c hc]⟩
  match t, ht with
  | b :: t', _ =>
    have hb := hnum b (by simp)
    have hb' : b ≠ 0x27 ∧ b ≠ 0x6E ∧ b ≠ 0x4E := by
      simp only [pgIsNumeric, Bool.or_eq_true, Bool.and_eq_true, decide_eq_true_eq,
        beq_iff_eq] at hb
      omega
    have hd : DecodeRune (b :: t' ++ rest) = (b, 1) := DecodeRune_ascii b _ (hasc b (by simp))
    unfold pgParseConstant
    simp only [Slice.elems_some, hd]
    rw [if_neg hb'.1, pgParseConstant_tail_numeric _ (by
      intro b0 hb0
      simp at hb0; subst hb0; exact hb'.2)]
    simp only [Slice.elems_some]
    rcases hrest with rfl | ⟨c, u, rfl, hc⟩
    · have := IndexFunc_run_all pgIsNotNumeric (b :: t') hrun
      rw [henc] at this
      simp only [List.append_nil, this, Slice.sliceTo_ok _ 0 (Nat.zero_le _), ok_bind,
        pure_eq_ok]
      simp
    · have := IndexFunc_run pgIsNotNumeric (b :: t') (c :: u) hrun (by simp)
        (by simp [pgIsNotNumeric, DecodeRune_not_numeric c u hc])
      rw [henc] at this
      simp only [this]
      exact cutAt_at rfl rfl

theorem dropWhile_head_not (p : Nat → Bool) (l : List Nat) :
    l.dropWhile p = [] ∨ ∃ b u, l.dropWhile p = b :: u ∧ p b = false := by
  induction l with
  | nil => exact Or.inl rfl
  | cons a l ih =>
    cases h : p a with
    | true => simpa [List.dropWhile, h] using ih
    | false => exact Or.inr ⟨a, l, by simp [List.dropWhile, h], h⟩

theorem pgParseConstant_numeric_prefix (b : Nat) (t : List Nat) (hb : pgIsNumeric b = true) :
    pgParseConstant (some (b :: t))
      = .ok (some ((b :: t).dropWhile pgIsNumeric), some ((b :: t).takeWhile pgIsNumeric)) := by
  have h := pgParseConstant_numeric_run ((b :: t).takeWhile pgIsNumeric)
    ((b :: t).dropWhile pgIsNumeric) (by simp [List.takeWhile, hb])
    (fun c hc => List.mem_takeWhile_imp hc) (dropWhile_head_not pgIsNumeric (b :: t))
  rwa [List.takeWhile_append_dropWhile] at h

/-! ### UPDATE without an old key -/

theorem columnsText_not_old_key (letter : Nat → Bool) (es : List ColumnEntry)
    (hes : ∀ e ∈ es, e.wellFormed letter = true) :
    HasPrefix (columnsText es) (ascii "old-key: ") = false := by
  cases es with
  | nil => rfl
  | cons e es =>
    obtain ⟨rest, h, _, _⟩ := columnsText_cons e es
    rw [h]
    exact entry_not_old_key letter e rest (hes e (by simp))

theorem Parse_update_plain (letter : Nat → Bool) (T : Identifier) (es : List ColumnEntry)
    (o : ReplicationOperation) (hT : T.wellFormed letter = true)
    (hes : ∀ e ∈ es, e.wellFormed letter = true) :
    Parse letter (some (ascii "table " ++ T.text ++ ascii ": UPDATE: " ++ columnsText es)) o
      = .ok (none, ReplicationOperation.addNewEntries
          { o.reset with Target := T.text, Operation := ascii "UPDATE" } es) := by
  have e : ascii "table " ++ T.text ++ ascii ": UPDATE: " ++ columnsText es
      = ascii "table " ++ (T.text ++ (ascii ": " ++ (ascii "UPDATE" ++ (ascii ": " ++ columnsText es)))) := by
    have : ascii ": UPDATE: " = ascii ": " ++ (ascii "UPDATE" ++ ascii ": ") := by decide
    rw [this]; simp only [List.append_assoc]
  rw [e, Parse_row letter T _ _ o hT (Or.inr (Or.inr rfl)), if_neg (by decide),
    if_neg (by decide)]
  unfold parseUpdate
  simp only [Slice.elems_some, columnsText_not_old_key letter es hes, Bool.false_eq_true,
    if_false, pure_eq_ok, ok_bind]
  exact parseInsert_loop_entries letter es _ _ hes
    (by have := length_le_columnsText es; simp only [Slice.len_some]; omega)

/-! ### Quotes that are never closed -/

theorem pgParseConstant_loop_unterminated (s : List Nat) :
    ∀ (pre mid : List Nat) (fuel : Nat), 0x27 ∉ mid → s.length < fuel →
      pgParseConstant.loop (some (pre ++ 0x27 :: (mid ++ doubled 0x27 s))) fuel pre.length 1
        = .ok (some (pre ++ 0x27 :: (mid ++ doubled 0x27 s)), none) := by
  induction s with
  | nil =>
    intro pre mid fuel hm hf
    obtain ⟨fuel, rfl⟩ : ∃ k, fuel = k + 1 := ⟨fuel - 1, by simp at hf; omega⟩
    generalize hL : pre ++ 0x27 :: (mid ++ doubled 0x27 []) = L
    have e1 : L = (pre ++ [0x27]) ++ mid := by subst hL; simp [doubled]
    have s1 : Slice.sliceFrom (some L) (pre.length + 1) = .ok (some mid) :=
      sliceFrom_at e1 (by simp)
    have hlen : pre.length < L.length := by subst hL; simp
    unfold pgParseConstant.loop
    rw [if_pos (by simpa using hlen)]
    simp only [s1, ok_bind, Slice.elems_some, IndexByte_none mid 0x27 hm, pure_eq_ok]
  | cons b s ih =>
    intro pre mid fuel hm hf
    by_cases hb : b = 0x27
    · subst hb
      obtain ⟨fuel, rfl⟩ : ∃ k, fuel = k + 1 := ⟨fuel - 1, by simp at hf; omega⟩
      have key := ih (pre ++ 0x27 :: (mid ++ [0x27])) [] fuel (by simp) (by simp at hf; omega)
      generalize hL : pre ++ 0x27 :: (mid ++ doubled 0x27 (0x27 :: s)) = L
      have e0 : pre ++ 0x27 :: (mid ++ [0x27]) ++ 0x27 :: ([] ++ doubled 0x27 s) = L := by
        subst hL; simp [doubled]
      rw [e0] at key
      have e1 : L = (pre ++ [0x27]) ++ (mid ++ 0x27 :: (0x27 :: doubled 0x27 s)) := by
        subst hL; simp [doubled]
      have e2 : L = (pre ++ 0x27 :: (mid ++ [0x27])) ++ (0x27 :: doubled 0x27 s) := by
        subst hL; simp [doubled]
      have n2 : pre.length + 1 + (mid.length + 1) = (pre ++ 0x27 :: (mid ++ [0x27])).length := by
        simp; omega
      have s1 : Slice.sliceFrom (some L) (pre.length + 1)
          = .ok (some (mid ++ 0x27 :: (0x27 :: doubled 0x27 s))) := sliceFrom_at e1 (by simp)
      have s2 : Slice.sliceFrom (some L) (pre.length + 1 + (mid.length + 1))
          = .ok (some (0x27 :: doubled 0x27 s)) := sliceFrom_at e2 n2
      have hlen : pre.length < L.length := by subst hL; simp
      have hne : pre.length + 1 + (mid.length + 1) ≠ L.length := by
        have := congrArg List.length e2
        rw [this, n2]; simp
      unfold pgParseConstant.loop
      rw [if_pos (by simpa using hlen)]
      simp only [s1, ok_bind, Slice.elems_some, IndexByte_append_cons mid 0x27 _ hm, s2,
        DecodeRune_ascii 0x27 _ (by omega : (0x27 : Nat) < 0x80)]
      rw [if_neg (by simpa using hne), if_neg (by simp), n2, key]
    · have e1 : pre ++ 0x27 :: (mid ++ doubled 0x27 (b :: s))
          = pre ++ 0x27 :: ((mid ++ [b]) ++ doubled 0x27 s) := by
        simp [doubled, hb]
      rw [e1]
      exact ih pre (mid ++ [b]) fuel (not_mem_doubled_mid _ _ _ hm hb) (by simp at hf; omega)

theorem pgParseConstant_unterminated (s : List Nat) :
    pgParseConstant (some (0x27 :: doubled 0x27 s))
      = .ok (some (0x27 :: doubled 0x27 s), none) := by
  have hl := length_le_doubled 0x27 s
  have key := pgParseConstant_loop_unterminated s [] [] ((0x27 :: doubled 0x27 s).length + 1)
    (by simp) (by simp; omega)
  simp only [List.nil_append, List.length_nil] at key
  unfold pgParseConstant
  simp only [Slice.elems_some, Slice.len_some,
    DecodeRune_ascii 0x27 _ (by omega : (0x27 : Nat) < 0x80), if_true]
  exact key

theorem pgParseIdentifier_quoted_unterminated (s : List Nat) :
    ∀ (pre mid : List Nat) (fuel : Nat), 0x22 ∉ mid → s.length < fuel →
      pgParseIdentifier.quoted (some (pre ++ 0x22 :: (mid ++ doubled 0x22 s))) fuel pre.length 1
        = .ok (.ret (some (pre ++ 0x22 :: (mid ++ doubled 0x22 s)), none)) := by
  induction s with
  | nil =>
    intro pre mid fuel hm hf
    obtain ⟨fuel, rfl⟩ : ∃ k, fuel = k + 1 := ⟨fuel - 1, by simp at hf; omega⟩
    generalize hL : pre ++ 0x22 :: (mid ++ doubled 0x22 []) = L
    have e1 : L = (pre ++ [0x22]) ++ mid := by subst hL; simp [doubled]
    have s1 : Slice.sliceFrom (some L) (pre.length + 1) = .ok (some mid) :=
      sliceFrom_at e1 (by simp)
    unfold pgParseIdentifier.quoted
    simp only [s1, ok_bind, Slice.elems_some, IndexByte_none mid 0x22 hm, pure_eq_ok]
  | cons b s ih =>
    intro pre mid fuel hm hf
    by_cases hb : b = 0x22
    · subst hb
      obtain ⟨fuel, rfl⟩ : ∃ k, fuel = k + 1 := ⟨fuel - 1, by simp at hf; omega⟩
      have key := ih (pre ++ 0x22 :: (mid ++ [0x22])) [] fuel (by simp) (by simp at hf; omega)
      generalize hL : pre ++ 0x22 :: (mid ++ doubled 0x22 (0x22 :: s)) = L
      have e0 : pre ++ 0x22 :: (mid ++ [0x22]) ++ 0x22 :: ([] ++ doubled 0x22 s) = L := by
        subst hL; simp [doubled]
      rw [e0] at key
      have e1 : L = (pre ++ [0x22]) ++ (mid ++ 0x22 :: (0x22 :: doubled 0x22 s)) := by
        subst hL; simp [doubled]
      have e2 : L = (pre ++ 0x22 :: (mid ++ [0x22])) ++ (0x22 :: doubled 0x22 s) := by
        subst hL; simp [doubled]
      have n2 : pre.length + 1 + (mid.length + 1) = (pre ++ 0x22 :: (mid ++ [0x22])).length := by
        simp; omega
      have s1 : Slice.sliceFrom (some L) (pre.length + 1)
          = .ok (some (mid ++ 0x22 :: (0x22 :: doubled 0x22 s))) := sliceFrom_at e1 (by simp)
      have s2 : Slice.sliceFrom (some L) (pre.length + 1 + (mid.length + 1))
          = .ok (some (0x22 :: doubled 0x22 s)) := sliceFrom_at e2 n2
      have hne : pre.length + 1 + (mid.length + 1) ≠ L.length := by
        have := congrArg List.length e2
        rw [this, n2]; simp
      unfold pgParseIdentifier.quoted
      simp only [s1, ok_bind, Slice.elems_some, IndexByte_append_cons mid 0x22 _ hm, s2,
        DecodeRune_ascii 0x22 _ (by omega : (0x22 : Nat) < 0x80), Slice.len_some]
      rw [if_neg hne, if_pos trivial, n2, key]
    · have e1 : pre ++ 0x22 :: (mid ++ doubled 0x22 (b :: s))
          = pre ++ 0x22 :: ((mid ++ [b]) ++ doubled 0x22 s) := by
        simp [doubled, hb]
      rw [e1]
      exact ih pre (mid ++ [b]) fuel (not_mem_doubled_mid _ _ _ hm hb) (by simp at hf; omega)

/-! ### Segments that a `.` follows, and bytes that start no segment -/

theorem indexFuncLoop_fuel (f : Nat → Bool) (n : Nat) :
    ∀ (s : List Nat) (fuel fuel' : Nat), s.length ≤ n → s.length ≤ fuel → s.length ≤ fuel' →
      indexFuncLoop f fuel s = indexFuncLoop f fuel' s := by
  induction n with
  | zero =>
    intro s fuel fuel' hn _ _
    have : s = [] := List.eq_nil_of_length_eq_zero (by omega)
    subst this
    cases fuel <;> cases fuel' <;> rfl
  | succ n ih =>
    intro s fuel fuel' hn h1 h2
    match s with
    | [] => cases fuel <;> cases fuel' <;> rfl
    | b :: t =>
      obtain ⟨fuel, rfl⟩ : ∃ k, fuel = k + 1 := ⟨fuel - 1, by simp at h1; omega⟩
      obtain ⟨fuel', rfl⟩ : ∃ k, fuel' = k + 1 := ⟨fuel' - 1, by simp at h2; omega⟩
      have hw := DecodeRune_width_pos (b :: t) (by simp)
      have hl : (List.drop (DecodeRune (b :: t)).2 (b :: t)).length ≤ t.length := by
        simp only [List.length_drop, List.length_cons]; omega
      simp only [List.length_cons] at hn h1 h2
      simp only [indexFuncLoop]
      rw [ih _ fuel fuel' (by omega) (by omega) (by omega)]

theorem startsNoSegment_cons (letter : Nat → Bool) (r : List Nat) (hr : r ≠ [])
    (h : startsNoSegment letter r = true) :
    pgIsIdentifier letter (DecodeRune r).1 = false ∧ (DecodeRune r).1 ≠ 0x22 ∧
      startsNoSegment letter (r.drop (DecodeRune r).2) = true := by
  match r, hr with
  | b :: t, _ =>
    have hw := DecodeRune_width_pos (b :: t) (by simp)
    have hl : (List.drop (DecodeRune (b :: t)).2 (b :: t)).length ≤ t.length := by
      simp only [List.length_drop, List.length_cons]; omega
    simp only [startsNoSegment, IndexFunc, List.length_cons, indexFuncLoop] at h ⊢
    split_ifs at h with hf
    · simp at h
    · simp only [Bool.or_eq_true, beq_iff_eq, not_or, Bool.not_eq_true] at hf
      refine ⟨hf.1, hf.2, ?_⟩
      rw [indexFuncLoop_fuel _ t.length _ _ t.length hl (Nat.le_refl _) hl]
      simpa using h

theorem pgParseIdentifier_loop_fuel (letter : Nat → Bool) (src : Slice Nat) (fuel : Nat) :
    ∀ (i : Nat) (r : Scan), pgParseIdentifier.loop letter src fuel i = .ok r →
      ∀ d, pgParseIdentifier.loop letter src (fuel + d) i = .ok r := by
  induction fuel with
  | zero => intro i r h; simp [pgParseIdentifier.loop] at h
  | succ fuel ih =>
    intro i r h d
    rw [show fuel + 1 + d = (fuel + d) + 1 by omega]
    unfold pgParseIdentifier.loop at h ⊢
    split_ifs at h ⊢ with hi
    · cases hb : pgParseIdentifier.body letter src i with
      | error e => simp [hb] at h
      | ok x =>
        simp only [hb, ok_bind] at h ⊢
        cases x with
        | ret r' => exact h
        | next i' c' w' => exact ih _ _ h d
    · exact h

theorem pgParseIdentifier_loop_garbage (letter : Nat → Bool) (n : Nat) :
    ∀ (pre r : List Nat) (fuel : Nat), r.length ≤ n → startsNoSegment letter r = true →
      r.length < fuel →
      pgParseIdentifier.loop letter (some (pre ++ r)) fuel pre.length
        = .ok (some (pre ++ r), none) := by
  induction n with
  | zero =>
    intro pre r fuel hn _ hf
    have : r = [] := List.eq_nil_of_length_eq_zero (by omega)
    subst this
    obtain ⟨fuel, rfl⟩ : ∃ k, fuel = k + 1 := ⟨fuel - 1, by simp at hf; omega⟩
    unfold pgParseIdentifier.loop
    rw [if_neg (by simp)]
    rfl
  | succ n ih =>
    intro pre r fuel hn hg hf
    by_cases hr : r = []
    · subst hr
      obtain ⟨fuel, rfl⟩ : ∃ k, fuel = k + 1 := ⟨fuel - 1, by simp at hf; omega⟩
      unfold pgParseIdentifier.loop
      rw [if_neg (by simp)]
      rfl
    · obtain ⟨fuel, rfl⟩ : ∃ k, fuel = k + 1 := ⟨fuel - 1, by omega⟩
      obtain ⟨h1, h2, h3⟩ := startsNoSegment_cons letter r hr hg
      have hw := DecodeRune_width_pos r hr
      have hwl := DecodeRune_width_le r
      have hpos : 0 < r.length := List.length_pos.2 hr
      have s1 : Slice.sliceFrom (some (pre ++ r)) pre.length = .ok (some r) :=
        sliceFrom_at rfl rfl
      have key := ih (pre ++ r.take (DecodeRune r).2) (r.drop (DecodeRune r).2) fuel
        (by simp only [List.length_drop]; omega) h3 (by simp only [List.length_drop]; omega)
      have e1 : pre ++ r.take (DecodeRune r).2 ++ r.drop (DecodeRune r).2 = pre ++ r := by
        rw [List.append_assoc, List.take_append_drop]
      have n1 : (pre ++ r.take (DecodeRune r).2).length = pre.length + (DecodeRune r).2 := by
        simp only [List.length_append, List.length_take]; omega
      rw [e1, n1] at key
      unfold pgParseIdentifier.loop
      rw [if_pos (by simp only [Slice.len_some, List.length_append]; omega)]
      unfold pgParseIdentifier.body
      simp only [s1, ok_bind, Slice.elems_some, if_neg h2,
        pgParseIdentifier_bare_skip letter _ _ _ _ h1]
      exact key

theorem pgParseIdentifier_loop_leading (letter : Nat → Bool) (segs : List Segment) :
    ∀ (pre rest : List Nat) (k : Nat) (res : Except Fault Scan),
      (∀ s ∈ segs, s.wellFormed letter = true) →
      pgParseIdentifier.loop letter (some (pre ++ leading segs ++ rest)) k
          (pre ++ leading segs).length = res →
      pgParseIdentifier.loop letter (some (pre ++ leading segs ++ rest)) (k + segs.length)
          pre.length = res := by
  induction segs with
  | nil =>
    intro pre rest k res _ h
    simpa [leading] using h
  | cons g gs ih =>
    intro pre rest k res hwf h
    have hg := hwf g (by simp)
    have hne := Segment_text_ne_nil letter g hg
    have eL : pre ++ g.text ++ (0x2E :: (leading gs ++ rest))
        = pre ++ leading (g :: gs) ++ rest := by simp [leading]
    have eL' : pre ++ g.text ++ [0x2E] ++ leading gs ++ rest
        = pre ++ leading (g :: gs) ++ rest := by simp [leading]
    have eP : (pre ++ g.text ++ [0x2E] ++ leading gs).length
        = (pre ++ leading (g :: gs)).length := by simp [leading]
    have key := ih (pre ++ g.text ++ [0x2E]) rest k res (fun s hs => hwf s (by simp [hs]))
      (by rw [eL', eP]; exact h)
    rw [eL'] at key
    have hdot : DecodeRune (0x2E :: (leading gs ++ rest)) = (0x2E, 1) :=
      DecodeRune_ascii 0x2E _ (by omega)
    have hb := pgParseIdentifier_body_segment letter g hg pre (0x2E :: (leading gs ++ rest)) []
      (Or.inr ⟨by rw [hdot]; decide, fun _ => by rw [hdot]; exact pgIsIdentifier_dot letter⟩)
      (Or.inl rfl)
    rw [eL] at hb
    have hx : segmentExit (pre ++ g.text) (0x2E :: (leading gs ++ rest))
        = .next (pre ++ g.text).length 0x2E 1 := by
      unfold segmentExit
      simp [hdot]
    have hlt : pre.length < (pre ++ leading (g :: gs) ++ rest).length := by
      have : 0 < g.text.length := List.length_pos.2 hne
      simp only [leading, List.length_append, List.length_cons]; omega
    have hn : (pre ++ g.text).length + 1 = (pre ++ g.text ++ [0x2E]).length := by
      simp only [List.length_append, List.length_cons, List.length_nil]
    rw [show k + (g :: gs).length = (k + gs.length) + 1 by simp only [List.length_cons]; omega]
    unfold pgParseIdentifier.loop
    rw [if_pos (by simpa using hlt), hb, hx]
    simp only [ok_bind]
    rw [hn]
    exact key

theorem pgParseIdentifier_unterminated (letter : Nat → Bool) (segs : List Segment)
    (s : List Nat) (hwf : ∀ g ∈ segs, g.wellFormed letter = true) :
    pgParseIdentifier letter (some (leading segs ++ 0x22 :: doubled 0x22 s))
      = .ok (some (leading segs ++ 0x22 :: doubled 0x22 s), none) := by
  generalize hL : leading segs ++ 0x22 :: doubled 0x22 s = L
  have hl := length_le_doubled 0x22 s
  have hlen : segs.length + 1 ≤ L.length := by
    subst hL
    have : segs.length ≤ (leading segs).length := by
      induction segs with
      | nil => simp
      | cons a l ih =>
        have := ih (fun g hg => hwf g (by simp [hg]))
        simp [leading]; omega
    simp only [List.length_append, List.length_cons]; omega
  -- the iteration at the opening quote
  have hq : pgParseIdentifier.loop letter (some ([] ++ leading segs ++ 0x22 :: doubled 0x22 s))
      (L.length + 1 - segs.length) ([] ++ leading segs).length = .ok (some L, none) := by
    obtain ⟨k, hk⟩ : ∃ k, L.length + 1 - segs.length = k + 1 := ⟨L.length - segs.length, by omega⟩
    have key := pgParseIdentifier_quoted_unterminated s (leading segs) [] (L.length + 1)
      (by simp) (by subst hL; simp only [List.length_append, List.length_cons]; omega)
    simp only [List.nil_append] at key ⊢
    rw [hL] at key ⊢
    have s1 : Slice.sliceFrom (some L) (leading segs).length
        = .ok (some (0x22 :: doubled 0x22 s)) := sliceFrom_at hL.symm rfl
    rw [hk]
    unfold pgParseIdentifier.loop
    rw [if_pos (by subst hL; simp)]
    unfold pgParseIdentifier.body
    simp only [s1, ok_bind, Slice.elems_some,
      DecodeRune_ascii 0x22 _ (by omega : (0x22 : Nat) < 0x80), if_true, Slice.len_some, key,
      pure_eq_ok]
  have := pgParseIdentifier_loop_leading letter segs [] (0x22 :: doubled 0x22 s) _ _ hwf hq
  simp only [List.nil_append, List.length_nil] at this
  rw [hL] at this
  unfold pgParseIdentifier
  rw [show Slice.len (some L) + 1 = L.length + 1 - segs.length + segs.length by
    simp only [Slice.len_some]; omega]
  exact this

theorem pgParseIdentifier_trailing_dot (letter : Nat → Bool) (t : Identifier) (r : List Nat)
    (ht : t.wellFormed letter = true) (hr : startsNoSegment letter r = true) :
    pgParseIdentifier letter (some (t.text ++ 0x2E :: r))
      = .ok (some (t.text ++ 0x2E :: r), none) := by
  simp only [Identifier.wellFormed, Bool.and_eq_true, List.all_eq_true] at ht
  have hwf : ∀ g ∈ t.first :: t.more, g.wellFormed letter = true := by
    intro g hg
    rcases List.mem_cons.1 hg with h | h
    · rw [h]; exact ht.1
    · exact ht.2 g h
  have hlead : ∀ (s : Segment) (ss : List Segment),
      leading (s :: ss) = s.text ++ dotted ss ++ [0x2E] := by
    intro s ss
    induction ss generalizing s with
    | nil => simp [leading, dotted]
    | cons a l ih =>
      rw [leading, ih a]
      simp [dotted]
  have eL : t.text ++ 0x2E :: r = [] ++ leading (t.first :: t.more) ++ r := by
    simp [hlead, Identifier.text]
  have hg := pgParseIdentifier_loop_garbage letter r.length
    ([] ++ leading (t.first :: t.more)) r (r.length + 1) (Nat.le_refl _) hr (by omega)
  have := pgParseIdentifier_loop_leading letter (t.first :: t.more) [] r _ _ hwf hg
  simp only [List.length_nil] at this
  have hlen : (t.first :: t.more).length ≤ (leading (t.first :: t.more)).length := by
    generalize t.first :: t.more = l
    induction l with
    | nil => simp
    | cons a l ih => simp [leading]; omega
  rw [← eL] at this
  unfold pgParseIdentifier
  have hd : Slice.len (some (t.text ++ 0x2E :: r)) + 1
      = r.length + 1 + (t.first :: t.more).length
        + ((leading (t.first :: t.more)).length - (t.first :: t.more).length) := by
    rw [eL]
    simp only [Slice.len_some, List.length_append, List.length_nil]
    omega
  rw [hd]
  exact pgParseIdentifier_loop_fuel letter _ _ _ _ this _

/-! ### What `parseColumn` makes of the scanners -/

theorem pgTestDecodingTypeRegexpFind_length (src m : List Nat)
    (h : pgTestDecodingTypeRegexpFind src = some m) : m.length ≤ src.length := by
  unfold pgTestDecodingTypeRegexpFind at h
  split at h
  · rename_i s
    cases hq : typeRegexpLazy s.length s with
    | none => simp [hq] at h
    | some n =>
      simp only [hq, Option.map_some', Option.some.injEq] at h
      rw [← h, List.length_take]
      exact Nat.min_le_right _ _
  · simp at h

theorem parseColumn_outcome (letter : Nat → Bool) (src : Slice Nat) :
    ∃ remaining name, pgParseIdentifier letter src = .ok (remaining, name) ∧
      ((pgTestDecodingTypeRegexpFind remaining.elems = none ∧
          parseColumn letter src = .error .panic) ∨
        (∃ m rest value, pgTestDecodingTypeRegexpFind remaining.elems = some m ∧
          pgParseConstant (remaining.map (List.drop m.length)) = .ok (rest, value) ∧
          ∃ col, parseColumn letter src = .ok col ∧ col.err = none ∧ col.name = name ∧
            col.value = value)) := by
  obtain ⟨⟨remaining, name⟩, h1, _⟩ := pgParseIdentifier_conserves letter src
  refine ⟨remaining, name, h1, ?_⟩
  cases hm : pgTestDecodingTypeRegexpFind remaining.elems with
  | none =>
    left
    refine ⟨rfl, ?_⟩
    unfold parseColumn
    simp only [h1, ok_bind, hm]
  | some m =>
    right
    have hlen := pgTestDecodingTypeRegexpFind_length _ _ hm
    obtain ⟨⟨rest, value⟩, h2, _⟩ := pgParseConstant_conserves (remaining.map (List.drop m.length))
    refine ⟨m, rest, value, rfl, h2, ?_⟩
    unfold parseColumn
    simp only [h1, ok_bind, hm, Slice.sliceFrom_ok remaining m.length hlen, h2]
    split
    · rename_i t heq
      rw [Slice.sliceFrom_ok rest 1 (by simp [Slice.len, heq])]
      exact ⟨_, rfl, rfl, rfl, rfl⟩
    · exact ⟨_, rfl, rfl, rfl, rfl⟩

/-! ### The fields the column loops leave alone -/

theorem parseInsert_loop_frame (letter : Nat → Bool) (fuel : Nat) :
    ∀ (input : Slice Nat) (o out : ReplicationOperation) (err : GoError),
      parseInsert.loop letter fuel input o = .ok (err, out) →
      out.Operation = o.Operation ∧ out.Target = o.Target ∧ out.Position = o.Position := by
  induction fuel with
  | zero => intro input o out err h; simp [parseInsert.loop] at h
  | succ fuel ih =>
    intro input o out err h
    unfold parseInsert.loop at h
    split_ifs at h with hlen
    · cases hc : parseColumn letter input with
      | error e => simp [hc] at h
      | ok col =>
        simp only [hc, ok_bind] at h
        split_ifs at h with herr
        · simp only [pure_eq_ok, Except.ok.injEq, Prod.mk.injEq] at h
          rw [← h.2]; exact ⟨rfl, rfl, rfl⟩
        · have hi := ih _ _ _ _ h
          exact hi
    · simp only [pure_eq_ok, Except.ok.injEq, Prod.mk.injEq] at h
      rw [← h.2]; exact ⟨rfl, rfl, rfl⟩

theorem parseDelete_loop_frame (letter : Nat → Bool) (fuel : Nat) :
    ∀ (input : Slice Nat) (o out : ReplicationOperation) (err : GoError),
      parseDelete.loop letter fuel input o = .ok (err, out) →
      out.Operation = o.Operation ∧ out.Target = o.Target ∧ out.Position = o.Position := by
  induction fuel with
  | zero => intro input o out err h; simp [parseDelete.loop] at h
  | succ fuel ih =>
    intro input o out err h
    unfold parseDelete.loop at h
    split_ifs at h with hlen
    · cases hc : parseColumn letter input with
      | error e => simp [hc] at h
      | ok col =>
        simp only [hc, ok_bind] at h
        split_ifs at h with herr
        · simp only [pure_eq_ok, Except.ok.injEq, Prod.mk.injEq] at h
          rw [← h.2]; exact ⟨rfl, rfl, rfl⟩
        · have hi := ih _ _ _ _ h
          exact hi
    · simp only [pure_eq_ok, Except.ok.injEq, Prod.mk.injEq] at h
      rw [← h.2]; exact ⟨rfl, rfl, rfl⟩

theorem parseUpdate_oldKey_frame (letter : Nat → Bool) (fuel : Nat) :
    ∀ (input : Slice Nat) (o : ReplicationOperation) (x : OldKeyExit),
      parseUpdate.oldKey letter fuel input o = .ok x →
      match x with
      | .ret _ out =>
        out.Operation = o.Operation ∧ out.Target = o.Target ∧ out.Position = o.Position
      | .done _ out =>
        out.Operation = o.Operation ∧ out.Target = o.Target ∧ out.Position = o.Position := by
  induction fuel with
  | zero => intro input o x h; simp [parseUpdate.oldKey] at h
  | succ fuel ih =>
    intro input o x h
    unfold parseUpdate.oldKey at h
    split_ifs at h with hlen
    · cases hc : parseColumn letter input with
      | error e => simp [hc] at h
      | ok col =>
        simp only [hc, ok_bind] at h
        split_ifs at h with herr hpre
        · simp only [pure_eq_ok, Except.ok.injEq] at h
          subst h; exact ⟨rfl, rfl, rfl⟩
        · cases hs : col.remaining.sliceFrom 11 with
          | error e => simp [hs] at h
          | ok s =>
            simp only [hs, ok_bind, pure_eq_ok, Except.ok.injEq] at h
            subst h
            exact ⟨rfl, rfl, rfl⟩
        · have hi := ih _ _ _ h
          exact hi
    · simp only [pure_eq_ok, Except.ok.injEq] at h
      subst h; exact ⟨rfl, rfl, rfl⟩

theorem parseUpdate_frame (letter : Nat → Bool) (input : Slice Nat)
    (o out : ReplicationOperation) (err : GoError)
    (h : parseUpdate letter input o = .ok (err, out)) :
    out.Operation = o.Operation ∧ out.Target = o.Target ∧ out.Position = o.Position := by
  unfold parseUpdate at h
  split_ifs at h with hp
  · cases hs : input.sliceFrom 9 with
    | error e => simp [hs] at h
    | ok s =>
      simp only [hs, ok_bind] at h
      cases hk : parseUpdate.oldKey letter (s.len + 1) s o with
      | error e => simp [hk] at h
      | ok x =>
        simp only [hk, ok_bind] at h
        have hx := parseUpdate_oldKey_frame letter _ _ _ _ hk
        cases x with
        | ret e o' =>
          simp only [pure_eq_ok, Except.ok.injEq, Prod.mk.injEq] at h
          rw [← h.2]; exact hx
        | done i o' =>
          obtain ⟨a, b, c⟩ := parseInsert_loop_frame letter _ _ _ _ _ h
          exact ⟨a.trans hx.1, b.trans hx.2.1, c.trans hx.2.2⟩
  · simp only [pure_eq_ok, ok_bind] at h
    exact parseInsert_loop_frame letter _ _ _ _ _ h

/-! ### The operation `Parse` records -/

theorem indexAt_zero {α : Type} (xs : List α) (x : α) (h : indexAt xs 0 = .ok x) :
    xs.head? = some x := by
  unfold indexAt at h
  cases xs with
  | nil => simp at h
  | cons a t =>
    simp only [List.getElem?_cons_zero, Except.ok.injEq] at h
    simp [h]

theorem Slice.sliceTo_elems {α : Type} (s r : Slice α) (j : Nat) (h : s.sliceTo j = .ok r) :
    r.elems = s.elems.take j := by
  unfold Slice.sliceTo at h
  split_ifs at h
  simp only [Except.ok.injEq] at h
  rw [← h, Slice.elems_map_take]

/-- `Parse` factors as in `Parse_factor`, with what each path stores in
`Operation`. -/
theorem Parse_shape (letter : Nat → Bool) (input : Slice Nat) :
    (∃ f, ∀ o, Parse letter input o = .error f) ∨
    (∃ tgt, input.elems.head? = some 0x42 ∧ ∀ o, Parse letter input o
        = .ok (none, { o.reset with Target := tgt, Operation := input.elems.take 5 })) ∨
    (∃ tgt, input.elems.head? = some 0x43 ∧ ∀ o, Parse letter input o
        = .ok (none, { o.reset with Target := tgt, Operation := input.elems.take 6 })) ∨
    (∃ op tgt body,
      (op = ascii "DELETE" ∨ op = ascii "INSERT" ∨ op = ascii "UPDATE") ∧
      ((∀ o, Parse letter input o
          = .ok (none, { o.reset with Target := tgt, Operation := op })) ∨
        (∀ o, Parse letter input o
          = parseDelete letter body { o.reset with Target := tgt, Operation := op }) ∨
        (∀ o, Parse letter input o
          = parseInsert letter body { o.reset with Target := tgt, Operation := op }) ∨
        (∀ o, Parse letter input o
          = parseUpdate letter body { o.reset with Target := tgt, Operation := op }))) := by
  unfold Parse
  by_cases h0 : input.len < 1
  · exact Or.inl ⟨.panic, fun o => by simp only [h0, if_true]⟩
  simp only [h0, if_false]
  cases hidx : indexAt input.elems 0 with
  | error f => exact Or.inl ⟨f, fun o => rfl⟩
  | ok first =>
  have hhead := indexAt_zero _ _ hidx
  simp only [ok_bind]
  by_cases hB : first = 0x42
  · simp only [hB, if_true]
    cases hop : input.sliceTo 5 with
    | error f => exact Or.inl ⟨f, fun o => rfl⟩
    | ok op =>
      cases input.sliceFrom 6 with
      | error f => exact Or.inl ⟨f, fun o => rfl⟩
      | ok tgt =>
        refine Or.inr (Or.inl ⟨tgt.elems, hB ▸ hhead, fun o => ?_⟩)
        rw [← Slice.sliceTo_elems _ _ _ hop]
        rfl
  simp only [hB, if_false]
  by_cases hC : first = 0x43
  · simp only [hC, if_true]
    cases hop : input.sliceTo 6 with
    | error f => exact Or.inl ⟨f, fun o => rfl⟩
    | ok op =>
      cases input.sliceFrom 7 with
      | error f => exact Or.inl ⟨f, fun o => rfl⟩
      | ok tgt =>
        refine Or.inr (Or.inr (Or.inl ⟨tgt.elems, hC ▸ hhead, fun o => ?_⟩))
        rw [← Slice.sliceTo_elems _ _ _ hop]
        rfl
  simp only [hC, if_false]
  by_cases hT : (!HasPrefix input.elems (ascii "table ")) = true
  · exact Or.inl ⟨.panic, fun o => by simp only [hT, if_true]⟩
  simp only [hT, Bool.false_eq_true, if_false]
  cases input.sliceFrom 6 with
  | error f => exact Or.inl ⟨f, fun o => rfl⟩
  | ok s =>
  simp only [ok_bind]
  cases pgParseIdentifier letter s with
  | error f => exact Or.inl ⟨f, fun o => rfl⟩
  | ok ct =>
  obtain ⟨current, target⟩ := ct
  simp only [ok_bind]
  by_cases hP : (!HasPrefix current.elems (ascii ": ")) = true
  · exact Or.inl ⟨.panic, fun o => by simp only [hP, if_true]⟩
  simp only [hP, Bool.false_eq_true, if_false]
  cases current.sliceFrom (2 + 6) with
  | error f => exact Or.inl ⟨f, fun o => rfl⟩
  | ok rest =>
  simp only [ok_bind]
  cases current.sliceBetween 2 (2 + 6) with
  | error f => exact Or.inl ⟨f, fun o => rfl⟩
  | ok operation =>
  simp only [ok_bind]
  by_cases hO : operation.elems ≠ ascii "DELETE" ∧ operation.elems ≠ ascii "INSERT" ∧
      operation.elems ≠ ascii "UPDATE"
  · exact Or.inl ⟨.panic, fun o => by rw [if_pos hO]⟩
  simp only [if_neg hO]
  have hop : operation.elems = ascii "DELETE" ∨ operation.elems = ascii "INSERT" ∨
      operation.elems = ascii "UPDATE" := by
    by_cases h1 : operation.elems = ascii "DELETE"
    · exact Or.inl h1
    by_cases h2 : operation.elems = ascii "INSERT"
    · exact Or.inr (Or.inl h2)
    by_cases h3 : operation.elems = ascii "UPDATE"
    · exact Or.inr (Or.inr h3)
    exact absurd ⟨h1, h2, h3⟩ hO
  by_cases hQ : (!HasPrefix rest.elems (ascii ": ")) = true
  · exact Or.inl ⟨.panic, fun o => by simp only [hQ, if_true]⟩
  simp only [hQ, Bool.false_eq_true, if_false]
  cases rest.sliceFrom 2 with
  | error f => exact Or.inl ⟨f, fun o => rfl⟩
  | ok body =>
  simp only [ok_bind]
  cases indexAt operation.elems 0 with
  | error f => exact Or.inl ⟨f, fun o => rfl⟩
  | ok op0 =>
  simp only [ok_bind]
  refine Or.inr (Or.inr (Or.inr ⟨operation.elems, target.elems, body, hop, ?_⟩))
  by_cases hD : op0 = 0x44
  · simp only [hD, if_true]
    exact Or.inr (Or.inl fun o => rfl)
  simp only [hD, if_false]
  by_cases hI : op0 = 0x49
  · simp only [hI, if_true]
    exact Or.inr (Or.inr (Or.inl fun o => rfl))
  simp only [hI, if_false]
  by_cases hU : op0 = 0x55
  · simp only [hU, if_true]
    exact Or.inr (Or.inr (Or.inr fun o => rfl))
  simp only [hU, if_false]
  exact Or.inl fun o => rfl

theorem Parse_operation (letter : Nat → Bool) (input : Slice Nat)
    (o out : ReplicationOperation) (err : GoError)
    (h : Parse letter input o = .ok (err, out)) :
    (input.elems.head? = some 0x42 ∧ out.Operation = input.elems.take 5) ∨
    (input.elems.head? = some 0x43 ∧ out.Operation = input.elems.take 6) ∨
    out.Operation = ascii "DELETE" ∨ out.Operation = ascii "INSERT" ∨
    out.Operation = ascii "UPDATE" := by
  rcases Parse_shape letter input with ⟨f, hf⟩ | ⟨tgt, hh, hf⟩ | ⟨tgt, hh, hf⟩ |
    ⟨op, tgt, body, hop, hf | hf | hf | hf⟩
  · rw [hf o] at h; cases h
  · rw [hf o] at h
    simp only [Except.ok.injEq, Prod.mk.injEq] at h
    exact Or.inl ⟨hh, by rw [← h.2]⟩
  · rw [hf o] at h
    simp only [Except.ok.injEq, Prod.mk.injEq] at h
    exact Or.inr (Or.inl ⟨hh, by rw [← h.2]⟩)
  · rw [hf o] at h
    simp only [Except.ok.injEq, Prod.mk.injEq] at h
    have e : out.Operation = op := by rw [← h.2]
    rw [e]; exact Or.inr (Or.inr hop)
  · rw [hf o] at h
    have e := (parseDelete_loop_frame letter _ _ _ _ _ h).1
    rw [e]; exact Or.inr (Or.inr hop)
  · rw [hf o] at h
    have e := (parseInsert_loop_frame letter _ _ _ _ _ h).1
    rw [e]; exact Or.inr (Or.inr hop)
  · rw [hf o] at h
    have e := (parseUpdate_frame letter _ _ _ _ h).1
    rw [e]; exact Or.inr (Or.inr hop)

theorem indexAt_of_head {α : Type} (xs : List α) (x : α) (h : xs.head? = some x) :
    indexAt xs 0 = .ok x := by
  unfold indexAt
  cases xs with
  | nil => simp at h
  | cons a t =>
    simp only [List.head?_cons, Option.some.injEq] at h
    simp [h]

theorem len_of_head (input : Slice Nat) (x : Nat) (h : input.elems.head? = some x) :
    ¬ input.len < 1 := by
  unfold Slice.len
  cases hq : input.elems with
  | nil => simp [hq] at h
  | cons a t => simp

theorem Parse_operation_begin (letter : Nat → Bool) (input : Slice Nat)
    (o out : ReplicationOperation) (err : GoError)
    (hb : input.elems.head? = some 0x42) (h : Parse letter input o = .ok (err, out)) :
    out.Operation = input.elems.take 5 := by
  have h0 := len_of_head input _ hb
  have h1 := indexAt_of_head _ _ hb
  unfold Parse at h
  simp only [h0, if_false, h1, ok_bind, if_true] at h
  cases hop : input.sliceTo 5 with
  | error f => simp [hop] at h
  | ok op =>
    cases htg : input.sliceFrom 6 with
    | error f => simp [hop, htg] at h
    | ok tgt =>
      simp only [hop, htg, ok_bind, pure_eq_ok, Except.ok.injEq, Prod.mk.injEq] at h
      rw [← h.2]
      exact Slice.sliceTo_elems _ _ _ hop

theorem Parse_operation_commit (letter : Nat → Bool) (input : Slice Nat)
    (o out : ReplicationOperation) (err : GoError)
    (hc : input.elems.head? = some 0x43) (h : Parse letter input o = .ok (err, out)) :
    out.Operation = input.elems.take 6 := by
  have h0 := len_of_head input _ hc
  have h1 := indexAt_of_head _ _ hc
  have hne : ¬ (0x43 : Nat) = 0x42 := by decide
  unfold Parse at h
  simp only [h0, if_false, h1, ok_bind, hne, if_true] at h
  cases hop : input.sliceTo 6 with
  | error f => simp [hop] at h
  | ok op =>
    cases htg : input.sliceFrom 7 with
    | error f => simp [hop, htg] at h
    | ok tgt =>
      simp only [hop, htg, ok_bind, pure_eq_ok, Except.ok.injEq, Prod.mk.injEq] at h
      rw [← h.2]
      exact Slice.sliceTo_elems _ _ _ hop

/-- What `Parse` leaves in `Operation`, by the first byte of the message. -/
theorem Parse_operation_cases (letter : Nat → Bool) (input : Slice Nat)
    (o out : ReplicationOperation) (err : GoError)
    (h : Parse letter input o = .ok (err, out)) :
    (input.elems.head? = some 0x42 → out.Operation = input.elems.take 5) ∧
    (input.elems.head? = some 0x43 → out.Operation = input.elems.take 6) ∧
    (input.elems.head? ≠ some 0x42 → input.elems.head? ≠ some 0x43 →
      out.Operation = ascii "DELETE" ∨ out.Operation = ascii "INSERT" ∨
        out.Operation = ascii "UPDATE") := by
  refine ⟨fun hb => Parse_operation_begin letter input o out err hb h,
    fun hc => Parse_operation_commit letter input o out err hc h, fun hb hc => ?_⟩
  rcases Parse_operation letter input o out err h with q | q | q
  · exact absurd q.1 hb
  · exact absurd q.1 hc
  · exact q

/-! ### Inputs on which a scanner recognises nothing -/

theorem IndexFunc_head (f : Nat → Bool) (b : Nat) (t : List Nat)
    (h : f (DecodeRune (b :: t)).1 = true) : IndexFunc (b :: t) f = some 0 := by
  simp only [IndexFunc, List.length_cons, indexFuncLoop, h, if_true]

theorem pgParseConstant_no_form (b : Nat) (t : List Nat) (hq : b ≠ 0x27)
    (hk : isNullKeyword ((b :: t).take 4) = false) (hn : pgIsNumeric b = false) :
    pgParseConstant (some (b :: t)) = .ok (some (b :: t), some []) := by
  have hd : (DecodeRune (b :: t)).1 ≠ 0x27 :=
    DecodeRune_ne_of_head _ _ (by omega) (by simpa using hq)
  have hi : IndexFunc (b :: t) pgIsNotNumeric = some 0 :=
    IndexFunc_head _ _ _ (by simp [pgIsNotNumeric, DecodeRune_not_numeric b t hn])
  have hc : cutAt (some (b :: t)) 0 = .ok (some (b :: t), some []) :=
    cutAt_at (List.nil_append _).symm rfl
  unfold pgParseConstant
  simp only [Slice.elems_some, if_neg hd]
  unfold pgParseConstant.tail
  simp only [Slice.elems_some]
  split
  · rename_i b0 b1 b2 b3 u heq
    rw [heq] at hk
    simp only [List.take_succ_cons, List.take_zero, isNullKeyword, Bool.and_eq_false_iff,
      Bool.or_eq_false_iff, beq_eq_false_iff_ne] at hk
    rw [if_neg (by
      intro hc
      rcases hk with ((h | h) | h) | h <;> omega)]
    rw [hi]
    exact hc
  · rw [hi]
    exact hc

theorem pgParseIdentifier_skips (letter : Nat → Bool) (b : Nat) (t : Identifier)
    (r : List Nat) (hb : b < 0x80) (hi : pgIsIdentifier letter b = false) (hq : b ≠ 0x22)
    (ht : t.wellFormed letter = true) (hr : t.endedBy letter r = true) :
    pgParseIdentifier letter (some (b :: (t.text ++ r))) = .ok (some r, some (b :: t.text)) := by
  simp only [Identifier.wellFormed, Bool.and_eq_true, List.all_eq_true] at ht
  have key := pgParseIdentifier_loop_segments letter t.more t.first [b] r
    ((t.text ++ r).length + 1) ht.1 ht.2 ((endedBy_iff letter t r).1 hr) (by
      have : t.more.length ≤ (dotted t.more).length := by
        induction t.more with
        | nil => simp
        | cons a l ih => simp [dotted]; omega
      simp [Identifier.text]; omega)
  simp only [Identifier.text, List.singleton_append, List.cons_append, List.length_cons,
    List.length_nil, List.append_assoc, List.nil_append] at key ⊢
  generalize hL : b :: (t.first.text ++ (dotted t.more ++ r)) = L at key ⊢
  have s0 : Slice.sliceFrom (some L) 0 = .ok (some L) := sliceFrom_at (List.nil_append _).symm rfl
  have hd : DecodeRune L = (b, 1) := by rw [← hL]; exact DecodeRune_ascii b _ hb
  have hlen : L.length = (t.first.text ++ (dotted t.more ++ r)).length + 1 := by
    rw [← hL]; rfl
  unfold pgParseIdentifier
  rw [show Slice.len (some L) + 1 = ((t.first.text ++ (dotted t.more ++ r)).length + 1) + 1 by
    simp only [Slice.len_some, hlen]]
  unfold pgParseIdentifier.loop
  rw [if_pos (by simp only [Slice.len_some, hlen]; omega)]
  unfold pgParseIdentifier.body
  simp only [s0, ok_bind, Slice.elems_some, hd, if_neg hq,
    pgParseIdentifier_bare_skip letter _ _ _ _ hi]
  exact key

/-! ### Aborts and returns of the decoder -/

theorem indexAt_error {α : Type} (xs : List α) (i : Nat) (f : Fault)
    (h : indexAt xs i = .error f) : f = .outOfRange := by
  unfold indexAt at h
  split at h
  · cases h
  · cases h; rfl

theorem Slice.sliceFrom_error {α : Type} (s : Slice α) (i : Nat) (f : Fault)
    (h : s.sliceFrom i = .error f) : f = .outOfRange := by
  unfold Slice.sliceFrom at h
  split_ifs at h
  cases h; rfl

theorem Slice.sliceTo_error {α : Type} (s : Slice α) (i : Nat) (f : Fault)
    (h : s.sliceTo i = .error f) : f = .outOfRange := by
  unfold Slice.sliceTo at h
  split_ifs at h
  cases h; rfl

theorem Slice.sliceBetween_error {α : Type} (s : Slice α) (i j : Nat) (f : Fault)
    (h : s.sliceBetween i j = .error f) : f = .outOfRange := by
  unfold Slice.sliceBetween at h
  split_ifs at h
  cases h; rfl

theorem pgTestDecodingTypeRegexpFind_pos (src m : List Nat)
    (h : pgTestDecodingTypeRegexpFind src = some m) : 1 ≤ m.length := by
  unfold pgTestDecodingTypeRegexpFind at h
  split at h
  · rename_i s
    cases hq : typeRegexpLazy s.length s with
    | none => simp [hq] at h
    | some n =>
      simp only [hq, Option.map_some', Option.some.injEq] at h
      rw [← h, List.length_take, List.length_cons]
      omega
  · simp at h

/-- A column either aborts on a missing type, or returns with a nil error and
less input than it was given. -/
theorem parseColumn_total (letter : Nat → Bool) (src : Slice Nat) :
    (∃ col, parseColumn letter src = .ok col ∧ col.err = none ∧
        col.remaining.len < src.len) ∨
      parseColumn letter src = .error .panic := by
  obtain ⟨⟨remaining, name⟩, h1, hc1⟩ := pgParseIdentifier_conserves letter src
  have l1 : remaining.len ≤ src.len := by
    have := congrArg List.length hc1
    simp only [List.length_append] at this
    unfold Slice.len; omega
  unfold parseColumn
  simp only [h1, ok_bind]
  cases hm : pgTestDecodingTypeRegexpFind remaining.elems with
  | none => exact Or.inr rfl
  | some m =>
    left
    have hlen := pgTestDecodingTypeRegexpFind_length _ _ hm
    have hpos := pgTestDecodingTypeRegexpFind_pos _ _ hm
    obtain ⟨⟨rest, value⟩, h2, hc2⟩ := pgParseConstant_conserves (remaining.map (List.drop m.length))
    have l2 : rest.len + m.length ≤ remaining.len := by
      have := congrArg List.length hc2
      simp only [List.length_append, Slice.elems_map_drop, List.length_drop] at this
      unfold Slice.len at hlen ⊢; omega
    simp only [Slice.sliceFrom_ok remaining m.length hlen, ok_bind, h2]
    split
    · rename_i t heq
      have hr : 1 ≤ rest.len := by simp [Slice.len, heq]
      rw [Slice.sliceFrom_ok rest 1 hr]
      refine ⟨_, rfl, rfl, ?_⟩
      have : Slice.len (rest.map (List.drop 1)) ≤ rest.len := by
        simp [Slice.len, Slice.elems_map_drop]
      simp only [] at this ⊢
      omega
    · refine ⟨_, rfl, rfl, ?_⟩
      simp only []
      omega

theorem parseInsert_loop_total (letter : Nat → Bool) (fuel : Nat) :
    ∀ (input : Slice Nat) (o : ReplicationOperation), input.len < fuel →
      (∃ out, parseInsert.loop letter fuel input o = .ok (none, out)) ∨
        parseInsert.loop letter fuel input o = .error .panic := by
  induction fuel with
  | zero => intro input o h; omega
  | succ fuel ih =>
    intro input o h
    unfold parseInsert.loop
    split_ifs with hlen
    · rcases parseColumn_total letter input with ⟨col, hc, he, hl⟩ | hc
      · simp only [hc, ok_bind, he, ne_eq, not_true_eq_false, if_false]
        exact ih _ _ (by omega)
      · rw [hc]; exact Or.inr rfl
    · exact Or.inl ⟨_, rfl⟩

theorem parseDelete_loop_total (letter : Nat → Bool) (fuel : Nat) :
    ∀ (input : Slice Nat) (o : ReplicationOperation), input.len < fuel →
      (∃ out, parseDelete.loop letter fuel input o = .ok (none, out)) ∨
        parseDelete.loop letter fuel input o = .error .panic := by
  induction fuel with
  | zero => intro input o h; omega
  | succ fuel ih =>
    intro input o h
    unfold parseDelete.loop
    split_ifs with hlen
    · rcases parseColumn_total letter input with ⟨col, hc, he, hl⟩ | hc
      · simp only [hc, ok_bind, he, ne_eq, not_true_eq_false, if_false]
        exact ih _ _ (by omega)
      · rw [hc]; exact Or.inr rfl
    · exact Or.inl ⟨_, rfl⟩

theorem parseUpdate_oldKey_total (letter : Nat → Bool) (fuel : Nat) :
    ∀ (input : Slice Nat) (o : ReplicationOperation), input.len < fuel →
      (∃ rest out, parseUpdate.oldKey letter fuel input o = .ok (.done rest out)) ∨
        parseUpdate.oldKey letter fuel input o = .error .panic := by
  induction fuel with
  | zero => intro input o h; omega
  | succ fuel ih =>
    intro input o h
    unfold parseUpdate.oldKey
    split_ifs with hlen
    · rcases parseColumn_total letter input with ⟨col, hc, he, hl⟩ | hc
      · simp only [hc, ok_bind, he, ne_eq, not_true_eq_false, if_false]
        split_ifs with hp
        · have h11 : 11 ≤ col.remaining.len := by
            have := congrArg List.length (eq_append_of_HasPrefix _ _ hp)
            simp only [List.length_append] at this
            have e : (ascii "new-tuple: ").length = 11 := rfl
            unfold Slice.len; omega
          rw [Slice.sliceFrom_ok _ _ h11]
          exact Or.inl ⟨_, _, rfl⟩
        · exact ih _ _ (by omega)
      · rw [hc]; exact Or.inr rfl
    · exact Or.inl ⟨_, _, rfl⟩

theorem parseUpdate_total (letter : Nat → Bool) (input : Slice Nat)
    (o : ReplicationOperation) :
    (∃ out, parseUpdate letter input o = .ok (none, out)) ∨
      parseUpdate letter input o = .error .panic := by
  unfold parseUpdate
  split_ifs with hp
  · have h9 : 9 ≤ input.len := by
      have := congrArg List.length (eq_append_of_HasPrefix _ _ hp)
      simp only [List.length_append] at this
      have e : (ascii "old-key: ").length = 9 := rfl
      unfold Slice.len; omega
    simp only [Slice.sliceFrom_ok _ _ h9, ok_bind]
    rcases parseUpdate_oldKey_total letter _ (input.map (List.drop 9)) o (Nat.lt_succ_self _)
      with ⟨rest, out, hk⟩ | hk
    · simp only [hk, ok_bind]
      exact parseInsert_loop_total letter _ _ _ (Nat.lt_succ_self _)
    · rw [hk]; exact Or.inr rfl
  · simp only [pure_eq_ok, ok_bind]
    exact parseInsert_loop_total letter _ _ _ (Nat.lt_succ_self _)

/-! ### Every path through `Parse` -/

/-- `Parse` factors as in `Parse_factor`; an abort before the column loops is a
panic or a slice out of range. -/
theorem Parse_paths (letter : Nat → Bool) (input : Slice Nat) :
    (∀ o, Parse letter input o = .error .panic) ∨
    (∀ o, Parse letter input o = .error .outOfRange) ∨
    (∃ op tgt, ∀ o, Parse letter input o
        = .ok (none, { o.reset with Target := tgt, Operation := op })) ∨
    (∃ op tgt body, ∀ o, Parse letter input o
        = parseDelete letter body { o.reset with Target := tgt, Operation := op }) ∨
    (∃ op tgt body, ∀ o, Parse letter input o
        = parseInsert letter body { o.reset with Target := tgt, Operation := op }) ∨
    (∃ op tgt body, ∀ o, Parse letter input o
        = parseUpdate letter body { o.reset with Target := tgt, Operation := op }) := by
  unfold Parse
  by_cases h0 : input.len < 1
  · exact Or.inl fun o => by simp only [h0, if_true]
  simp only [h0, if_false]
  cases hidx : indexAt input.elems 0 with
  | error f => cases indexAt_error _ _ _ hidx; exact Or.inr (Or.inl fun o => rfl)
  | ok first =>
  simp only [ok_bind]
  by_cases hB : first = 0x42
  · simp only [hB, if_true]
    cases hop : input.sliceTo 5 with
    | error f => cases Slice.sliceTo_error _ _ _ hop; exact Or.inr (Or.inl fun o => rfl)
    | ok op =>
      cases htg : input.sliceFrom 6 with
      | error f => cases Slice.sliceFrom_error _ _ _ htg; exact Or.inr (Or.inl fun o => rfl)
      | ok tgt => exact Or.inr (Or.inr (Or.inl ⟨op.elems, tgt.elems, fun o => rfl⟩))
  simp only [hB, if_false]
  by_cases hC : first = 0x43
  · simp only [hC, if_true]
    cases hop : input.sliceTo 6 with
    | error f => cases Slice.sliceTo_error _ _ _ hop; exact Or.inr (Or.inl fun o => rfl)
    | ok op =>
      cases htg : input.sliceFrom 7 with
      | error f => cases Slice.sliceFrom_error _ _ _ htg; exact Or.inr (Or.inl fun o => rfl)
      | ok tgt => exact Or.inr (Or.inr (Or.inl ⟨op.elems, tgt.elems, fun o => rfl⟩))
  simp only [hC, if_false]
  by_cases hT : (!HasPrefix input.elems (ascii "table ")) = true
  · exact Or.inl fun o => by simp only [hT, if_true]
  simp only [hT, Bool.false_eq_true, if_false]
  cases hs : input.sliceFrom 6 with
  | error f => cases Slice.sliceFrom_error _ _ _ hs; exact Or.inr (Or.inl fun o => rfl)
  | ok s =>
  simp only [ok_bind]
  obtain ⟨⟨current, target⟩, hct, _⟩ := pgParseIdentifier_conserves letter s
  simp only [hct, ok_bind]
  by_cases hP : (!HasPrefix current.elems (ascii ": ")) = true
  · exact Or.inl fun o => by simp only [hP, if_true]
  simp only [hP, Bool.false_eq_true, if_false]
  cases hr : current.sliceFrom (2 + 6) with
  | error f => cases Slice.sliceFrom_error _ _ _ hr; exact Or.inr (Or.inl fun o => rfl)
  | ok rest =>
  simp only [ok_bind]
  cases ho : current.sliceBetween 2 (2 + 6) with
  | error f => cases Slice.sliceBetween_error _ _ _ _ ho; exact Or.inr (Or.inl fun o => rfl)
  | ok operation =>
  simp only [ok_bind]
  by_cases hO : operation.elems ≠ ascii "DELETE" ∧ operation.elems ≠ ascii "INSERT" ∧
      operation.elems ≠ ascii "UPDATE"
  · exact Or.inl fun o => by rw [if_pos hO]
  simp only [if_neg hO]
  by_cases hQ : (!HasPrefix rest.elems (ascii ": ")) = true
  · exact Or.inl fun o => by simp only [hQ, if_true]
  simp only [hQ, Bool.false_eq_true, if_false]
  cases hb : rest.sliceFrom 2 with
  | error f => cases Slice.sliceFrom_error _ _ _ hb; exact Or.inr (Or.inl fun o => rfl)
  | ok body =>
  simp only [ok_bind]
  cases h1 : indexAt operation.elems 0 with
  | error f => cases indexAt_error _ _ _ h1; exact Or.inr (Or.inl fun o => rfl)
  | ok op0 =>
  simp only [ok_bind]
  by_cases hD : op0 = 0x44
  · simp only [hD, if_true]
    exact Or.inr (Or.inr (Or.inr (Or.inl ⟨operation.elems, target.elems, body, fun o => rfl⟩)))
  simp only [hD, if_false]
  by_cases hI : op0 = 0x49
  · simp only [hI, if_true]
    exact Or.inr (Or.inr (Or.inr (Or.inr (Or.inl
      ⟨operation.elems, target.elems, body, fun o => rfl⟩))))
  simp only [hI, if_false]
  by_cases hU : op0 = 0x55
  · simp only [hU, if_true]
    exact Or.inr (Or.inr (Or.inr (Or.inr (Or.inr
      ⟨operation.elems, target.elems, body, fun o => rfl⟩))))
  simp only [hU, if_false]
  exact Or.inr (Or.inr (Or.inl ⟨operation.elems, target.elems, fun o => rfl⟩))

theorem Parse_total (letter : Nat → Bool) (input : Slice Nat) (o : ReplicationOperation) :
    (∃ out, Parse letter input o = .ok (none, out)) ∨
      Parse letter input o = .error .panic ∨ Parse letter input o = .error .outOfRange := by
  rcases Parse_paths letter input with h | h | ⟨op, tgt, h⟩ | ⟨op, tgt, body, h⟩ |
    ⟨op, tgt, body, h⟩ | ⟨op, tgt, body, h⟩
  · exact Or.inr (Or.inl (h o))
  · exact Or.inr (Or.inr (h o))
  · exact Or.inl ⟨_, h o⟩
  · rw [h o]
    rcases parseDelete_loop_total letter _ body _ (Nat.lt_succ_self _) with q | q
    · exact Or.inl q
    · exact Or.inr (Or.inl q)
  · rw [h o]
    rcases parseInsert_loop_total letter _ body _ (Nat.lt_succ_self _) with q | q
    · exact Or.inl q
    · exact Or.inr (Or.inl q)
  · rw [h o]
    rcases parseUpdate_total letter body { o.reset with Target := tgt, Operation := op }
      with q | q
    · exact Or.inl q
    · exact Or.inr (Or.inl q)

theorem Parse_position (letter : Nat → Bool) (input : Slice Nat)
    (o out : ReplicationOperation) (err : GoError)
    (h : Parse letter input o = .ok (err, out)) : out.Position = o.Position := by
  rcases Parse_factor letter input with ⟨f, hf⟩ | ⟨op, tgt, hf⟩ | ⟨op, tgt, body, hf⟩ |
    ⟨op, tgt, body, hf⟩ | ⟨op, tgt, body, hf⟩
  · rw [hf o] at h; cases h
  · rw [hf o] at h
    simp only [Except.ok.injEq, Prod.mk.injEq] at h
    rw [← h.2]; rfl
  · rw [hf o] at h
    exact (parseDelete_loop_frame letter _ _ _ _ _ h).2.2
  · rw [hf o] at h
    exact (parseInsert_loop_frame letter _ _ _ _ _ h).2.2
  · rw [hf o] at h
    exact (parseUpdate_frame letter _ _ _ _ h).2.2

/-! ### The violations `Parse` detects -/

theorem Parse_empty (letter : Nat → Bool) (input : Slice Nat) (o : ReplicationOperation)
    (h : input.len < 1) : Parse letter input o = .error .panic := by
  unfold Parse
  simp only [h, if_true]

theorem Parse_no_table (letter : Nat → Bool) (input : Slice Nat) (o : ReplicationOperation)
    (b : Nat) (hb : input.elems.head? = some b) (hB : b ≠ 0x42) (hC : b ≠ 0x43)
    (hT : HasPrefix input.elems (ascii "table ") = false) :
    Parse letter input o = .error .panic := by
  have h0 : ¬ input.len < 1 := by
    unfold Slice.len
    cases hq : input.elems with
    | nil => simp [hq] at hb
    | cons a t => simp
  have h1 : indexAt input.elems 0 = .ok b := by
    unfold indexAt
    cases hq : input.elems with
    | nil => simp [hq] at hb
    | cons a t =>
      rw [hq] at hb
      simp only [List.head?_cons, Option.some.injEq] at hb
      simp [hb]
  unfold Parse
  simp only [h0, if_false, h1, ok_bind, hB, hC, hT, Bool.not_false, if_true]

/-- What `Parse` does with a message that begins with `table `, from the scan
of the name on. -/
theorem Parse_table (letter : Nat → Bool) (x : List Nat) (o : ReplicationOperation)
    (current target : Slice Nat)
    (hx : pgParseIdentifier letter (some x) = .ok (current, target)) :
    (HasPrefix current.elems (ascii ": ") = false →
      Parse letter (some (ascii "table " ++ x)) o = .error .panic) ∧
    (HasPrefix current.elems (ascii ": ") = true → current.len < 2 + 6 →
      Parse letter (some (ascii "table " ++ x)) o = .error .outOfRange) ∧
    (HasPrefix current.elems (ascii ": ") = true → 2 + 6 ≤ current.len →
      (current.elems.take (2 + 6)).drop 2 ≠ ascii "DELETE" →
      (current.elems.take (2 + 6)).drop 2 ≠ ascii "INSERT" →
      (current.elems.take (2 + 6)).drop 2 ≠ ascii "UPDATE" →
      Parse letter (some (ascii "table " ++ x)) o = .error .panic) ∧
    (HasPrefix current.elems (ascii ": ") = true → 2 + 6 ≤ current.len →
      HasPrefix (current.elems.drop (2 + 6)) (ascii ": ") = false →
      Parse letter (some (ascii "table " ++ x)) o = .error .panic) := by
  generalize hL : ascii "table " ++ x = L
  have h0 : ¬ Slice.len (some L) < 1 := by subst hL; simp [ascii]
  have h1 : indexAt L 0 = .ok 0x74 := by subst hL; rfl
  have h2 : HasPrefix L (ascii "table ") = true := by subst hL; exact HasPrefix_append _ _
  have h3 : Slice.sliceFrom (some L) 6 = .ok (some x) := sliceFrom_at hL.symm rfl
  have hP : Parse letter (some L) o =
      (if (!HasPrefix current.elems (ascii ": ")) = true then .error .panic
        else do
          let rest ← current.sliceFrom (2 + 6)
          let operation ← current.sliceBetween 2 (2 + 6)
          if operation.elems ≠ ascii "DELETE" ∧ operation.elems ≠ ascii "INSERT" ∧
              operation.elems ≠ ascii "UPDATE" then .error .panic
          else if (!HasPrefix rest.elems (ascii ": ")) = true then .error .panic
          else do
            let body ← rest.sliceFrom 2
            let output := { o.reset with Target := target.elems, Operation := operation.elems }
            let op0 ← indexAt output.Operation 0
            if op0 = 0x44 then parseDelete letter body output
            else if op0 = 0x49 then parseInsert letter body output
            else if op0 = 0x55 then parseUpdate letter body output
            else return (none, output)) := by
    unfold Parse
    simp only [h0, if_false, Slice.elems_some, h1, ok_bind, h2, Bool.not_true,
      Bool.false_eq_true, h3, hx]
    rw [if_neg (by decide), if_neg (by decide)]
    rfl
  rw [hP]
  refine ⟨?_, ?_, ?_, ?_⟩
  · intro h
    simp only [h, Bool.not_false, if_true]
  · intro h hl
    have e : current.sliceFrom (2 + 6) = .error .outOfRange := by
      unfold Slice.sliceFrom
      rw [if_neg (by omega)]
    simp only [h, Bool.not_true, Bool.false_eq_true, if_false, e, error_bind]
  · intro h hl hd hi hu
    have e1 := Slice.sliceFrom_ok current (2 + 6) hl
    have e2 : current.sliceBetween 2 (2 + 6)
        = .ok (current.map (fun xs => (xs.take (2 + 6)).drop 2)) := by
      unfold Slice.sliceBetween
      rw [if_pos ⟨by omega, hl⟩]
    have e3 : Slice.elems (current.map (fun xs => (xs.take (2 + 6)).drop 2))
        = (current.elems.take (2 + 6)).drop 2 := by
      cases current <;> simp [Slice.elems]
    simp only [h, Bool.not_true, Bool.false_eq_true, if_false, e1, e2, ok_bind, e3]
    rw [if_pos ⟨hd, hi, hu⟩]
  · intro h hl hq
    have e1 := Slice.sliceFrom_ok current (2 + 6) hl
    have e2 : current.sliceBetween 2 (2 + 6)
        = .ok (current.map (fun xs => (xs.take (2 + 6)).drop 2)) := by
      unfold Slice.sliceBetween
      rw [if_pos ⟨by omega, hl⟩]
    simp only [h, Bool.not_true, Bool.false_eq_true, if_false, e1, e2, ok_bind,
      Slice.elems_map_drop, hq, Bool.not_false, if_true, ite_self]

theorem parseColumn_no_type (letter : Nat → Bool) (src remaining name : Slice Nat)
    (h : pgParseIdentifier letter src = .ok (remaining, name))
    (hm : pgTestDecodingTypeRegexpFind remaining.elems = none) :
    parseColumn letter src = .error .panic := by
  unfold parseColumn
  simp only [h, ok_bind, hm]

/-! ### One pass of each scanner loop -/

theorem cutAt_ne_fuel (src : Slice Nat) (i : Nat) : cutAt src i ≠ .error .fuel := by
  unfold cutAt
  cases h1 : src.sliceFrom i with
  | error e => cases Slice.sliceFrom_error _ _ _ h1; simp
  | ok a =>
    cases h2 : src.sliceTo i with
    | error e => cases Slice.sliceTo_error _ _ _ h2; simp
    | ok b => simp

/-- One pass of the loop of `pgParseConstant` from offset `i`: it leaves the
loop, whatever fuel is left, or it goes on at a greater offset that is in
range. -/
theorem pgParseConstant_loop_step (src : Slice Nat) (i w : Nat) :
    ((∀ f, pgParseConstant.loop src (f + 1) i w = pgParseConstant.loop src 1 i w) ∧
        pgParseConstant.loop src 1 i w ≠ .error .fuel) ∨
      (∃ j v, i < j ∧ j ≤ src.len ∧
        ∀ f, pgParseConstant.loop src (f + 1) i w = pgParseConstant.loop src f j v) := by
  by_cases hi : i < src.len
  · cases hs : src.sliceFrom (i + w) with
    | error e =>
      cases Slice.sliceFrom_error _ _ _ hs
      refine Or.inl ⟨fun f => ?_, ?_⟩ <;>
        simp only [pgParseConstant.loop, hi, if_true, hs, error_bind]
      simp
    | ok s =>
      cases hq : IndexByte s.elems 0x27 with
      | none =>
        refine Or.inl ⟨fun f => ?_, ?_⟩ <;>
          simp only [pgParseConstant.loop, hi, if_true, hs, ok_bind, hq]
        simp
      | some n =>
        by_cases he : i + w + (n + 1) = src.len
        · have hc := cutAt_ne_fuel src (i + w + (n + 1))
          refine Or.inl ⟨fun f => ?_, ?_⟩ <;>
            simp only [pgParseConstant.loop, hi, if_true, hs, ok_bind, hq, he]
          simpa [he] using hc
        · cases hs2 : src.sliceFrom (i + w + (n + 1)) with
          | error e =>
            cases Slice.sliceFrom_error _ _ _ hs2
            refine Or.inl ⟨fun f => ?_, ?_⟩ <;>
              simp only [pgParseConstant.loop, hi, if_true, hs, ok_bind, hq, he, if_false, hs2,
                error_bind]
            simp
          | ok s2 =>
            by_cases hc : (DecodeRune s2.elems).1 ≠ 0x27
            · have hcut := cutAt_ne_fuel src (i + w + (n + 1))
              refine Or.inl ⟨fun f => ?_, ?_⟩ <;>
                simp only [pgParseConstant.loop, hi, if_true, hs, ok_bind, hq, he, if_false, hs2,
                  if_pos hc]
              exact hcut
            · have hle : i + w + (n + 1) ≤ src.len := by
                unfold Slice.sliceFrom at hs2
                split_ifs at hs2 with hle
                exact hle
              refine Or.inr ⟨i + w + (n + 1), (DecodeRune s2.elems).2, by omega, hle, fun f => ?_⟩
              rw [pgParseConstant.loop]
              simp only [hi, if_true, hs, ok_bind, hq, he, if_false, hs2, if_neg hc]
  · obtain ⟨r, hr, _⟩ := pgParseConstant_tail_conserves src
    refine Or.inl ⟨fun f => ?_, ?_⟩ <;>
      simp only [pgParseConstant.loop, hi, if_false, hr]
    simp

/-- One pass of the block at `Quoted` from offset `i`: it leaves the block,
whatever fuel is left, or it jumps back to `Quoted` at a greater offset that is
in range. -/
theorem pgParseIdentifier_quoted_step (src : Slice Nat) (i w : Nat) :
    ((∀ f, pgParseIdentifier.quoted src (f + 1) i w = pgParseIdentifier.quoted src 1 i w) ∧
        pgParseIdentifier.quoted src 1 i w ≠ .error .fuel) ∨
      (∃ j v, i < j ∧ j ≤ src.len ∧
        ∀ f, pgParseIdentifier.quoted src (f + 1) i w = pgParseIdentifier.quoted src f j v) := by
  cases hs : src.sliceFrom (i + w) with
  | error e =>
    cases Slice.sliceFrom_error _ _ _ hs
    refine Or.inl ⟨fun f => ?_, ?_⟩ <;>
      simp only [pgParseIdentifier.quoted, hs, error_bind]
    simp
  | ok s =>
    cases hq : IndexByte s.elems 0x22 with
    | none =>
      refine Or.inl ⟨fun f => ?_, ?_⟩ <;>
        simp only [pgParseIdentifier.quoted, hs, ok_bind, hq]
      simp
    | some n =>
      have hcut : ∀ k, (do let r ← cutAt src k; pure (SegmentExit.ret r) : Except Fault SegmentExit)
          ≠ .error .fuel := by
        intro k
        have := cutAt_ne_fuel src k
        cases hk : cutAt src k with
        | error e => rw [hk] at this; simpa using this
        | ok r => simp
      by_cases he : i + w + (n + 1) = src.len
      · refine Or.inl ⟨fun f => ?_, ?_⟩ <;>
          simp only [pgParseIdentifier.quoted, hs, ok_bind, hq, he, if_true]
        simpa [he] using hcut src.len
      · cases hs2 : src.sliceFrom (i + w + (n + 1)) with
        | error e =>
          cases Slice.sliceFrom_error _ _ _ hs2
          refine Or.inl ⟨fun f => ?_, ?_⟩ <;>
            simp only [pgParseIdentifier.quoted, hs, ok_bind, hq, he, if_false, hs2,
              error_bind]
          simp
        | ok s2 =>
          by_cases hc : (DecodeRune s2.elems).1 = 0x22
          · have hle : i + w + (n + 1) ≤ src.len := by
              unfold Slice.sliceFrom at hs2
              split_ifs at hs2 with hle
              exact hle
            refine Or.inr ⟨i + w + (n + 1), (DecodeRune s2.elems).2, by omega, hle, fun f => ?_⟩
            rw [pgParseIdentifier.quoted]
            simp only [hs, ok_bind, hq, he, if_false, hs2, if_pos hc]
          · by_cases hd : (DecodeRune s2.elems).1 ≠ 0x2E
            · refine Or.inl ⟨fun f => ?_, ?_⟩ <;>
                simp only [pgParseIdentifier.quoted, hs, ok_bind, hq, he, if_false, hs2,
                  if_neg hc, if_pos hd]
              exact hcut _
            · refine Or.inl ⟨fun f => ?_, ?_⟩ <;>
                simp only [pgParseIdentifier.quoted, hs, ok_bind, hq, he, if_false, hs2,
                  if_neg hc, if_neg hd]
              simp

/-- One pass of the `for` loop of `pgParseIdentifier` at an offset in range: the
body returns, or the post statement leaves a greater offset that is in range. -/
theorem pgParseIdentifier_body_step (letter : Nat → Bool) (src : Slice Nat) (i : Nat)
    (hi : i < src.len) :
    (∃ r, pgParseIdentifier.body letter src i = .ok (.ret r)) ∨
      (∃ j c v, pgParseIdentifier.body letter src i = .ok (.next j c v) ∧
        i < j + v ∧ j + v ≤ src.len) := by
  obtain ⟨e, he, hg⟩ := pgParseIdentifier_body_good letter src i hi
  cases e with
  | ret r => exact Or.inl ⟨r, he⟩
  | next j c v =>
    simp only [SegmentExit.Good] at hg
    exact Or.inr ⟨j, c, v, he, by omega, hg.2⟩

/-! ### A first column without a type -/

theorem parseInsert_first_abort (letter : Nat → Bool) (input : Slice Nat)
    (o : ReplicationOperation) (f : Fault) (hlen : input.len > 0)
    (h : parseColumn letter input = .error f) : parseInsert letter input o = .error f := by
  unfold parseInsert parseInsert.loop
  rw [if_pos hlen, h]
  rfl

theorem parseDelete_first_abort (letter : Nat → Bool) (input : Slice Nat)
    (o : ReplicationOperation) (f : Fault) (hlen : input.len > 0)
    (h : parseColumn letter input = .error f) : parseDelete letter input o = .error f := by
  unfold parseDelete parseDelete.loop
  rw [if_pos hlen, h]
  rfl

theorem parseUpdate_first_abort (letter : Nat → Bool) (input : Slice Nat)
    (o : ReplicationOperation) (f : Fault) (hlen : input.len > 0)
    (hk : HasPrefix input.elems (ascii "old-key: ") = false)
    (h : parseColumn letter input = .error f) : parseUpdate letter input o = .error f := by
  unfold parseUpdate
  simp only [hk, Bool.false_eq_true, if_false, pure_eq_ok, ok_bind]
  unfold parseInsert.loop
  rw [if_pos hlen, h]
  rfl

theorem Parse_no_type (letter : Nat → Bool) (T : Identifier) (op body : List Nat)
    (o : ReplicationOperation) (remaining name : Slice Nat)
    (hT : T.wellFormed letter = true)
    (hop : op = ascii "DELETE" ∨ op = ascii "INSERT" ∨ op = ascii "UPDATE")
    (hb : body ≠ []) (hk : HasPrefix body (ascii "old-key: ") = false)
    (h : pgParseIdentifier letter (some body) = .ok (remaining, name))
    (hm : pgTestDecodingTypeRegexpFind remaining.elems = none) :
    Parse letter
        (some (ascii "table " ++ (T.text ++ (ascii ": " ++ (op ++ (ascii ": " ++ body)))))) o
      = .error .panic := by
  have hc := parseColumn_no_type letter (some body) remaining name h hm
  have hlen : Slice.len (some body) > 0 := by
    simp only [Slice.len_some]
    exact List.length_pos.2 hb
  rw [Parse_row letter T op body o hT hop]
  split_ifs
  · exact parseDelete_first_abort letter _ _ _ hlen hc
  · exact parseInsert_first_abort letter _ _ _ hlen hc
  · exact parseUpdate_first_abort letter _ _ _ hlen hk hc

/-! ### Cells of an array -/

theorem window_set {α : Type} (l : List α) (i o n : Nat) (x : α) (h : i < o ∨ o + n ≤ i) :
    ((l.set i x).drop o).take n = (l.drop o).take n := by
  apply List.ext_getElem?
  intro j
  simp only [List.getElem?_take, List.getElem?_drop, List.getElem?_set]
  by_cases hj : j < n
  · simp only [hj, if_true]
    rw [if_neg (by omega)]
  · simp only [hj, if_false]

theorem window_set_last {α : Type} (l : List α) (o n : Nat) (x : α) (h : o + n < l.length) :
    ((l.set (o + n) x).drop o).take (n + 1) = (l.drop o).take n ++ [x] := by
  have hlen : ((l.drop o).take n).length = n := by
    simp only [List.length_take, List.length_drop]; omega
  apply List.ext_getElem?
  intro j
  simp only [List.getElem?_take, List.getElem?_drop, List.getElem?_set, List.getElem?_append,
    hlen]
  by_cases hj : j < n
  · have h1 : j < n + 1 := by omega
    simp only [hj, h1, if_true]
    rw [if_neg (by omega)]
  · by_cases he : j = n
    · subst he
      simp [h]
    · have h1 : ¬ j < n + 1 := by omega
      have h2 : j - n ≠ 0 := by omega
      simp only [hj, h1, if_false]
      cases hq : j - n with
      | zero => exact absurd hq h2
      | succ m => simp

theorem take_grown {α : Type} (xs rest : List α) (x : α) :
    ((xs ++ x :: rest).drop 0).take (xs.length + 1) = xs ++ [x] := by
  simp [List.take_append_eq_append_take]

/-! ### `append` and the lists it does not touch -/

theorem StringSlice.value_elems (a : Arrays) (s : StringSlice) :
    (s.value a).elems = s.elems a := by
  cases s <;> rfl

theorem StringSlice.apart_comm (s k : StringSlice) : s.apart k = k.apart s := by
  cases s with
  | none => cases k <;> rfl
  | some h =>
    cases k with
    | none => rfl
    | some g =>
      rw [Bool.eq_iff_iff]
      simp only [StringSlice.apart, Bool.or_eq_true, bne_iff_ne, ne_eq, decide_eq_true_eq]
      omega

theorem Slice.append_value (a : Arrays) (s : StringSlice) (x : GoString) :
    (s.value a).append x = some (s.elems a ++ [x]) := by
  cases s <;> rfl

theorem growslice_spec (grow : Nat → Nat → Nat) (a : Arrays) (xs : List GoString) (cap : Nat)
    (x : GoString) :
    (growslice grow a xs cap x).2.value (growslice grow a xs cap x).1 = some (xs ++ [x]) ∧
      (growslice grow a xs cap x).2.valid (growslice grow a xs cap x).1 = true ∧
      ∀ k : StringSlice, k.valid a = true →
        k.value (growslice grow a xs cap x).1 = k.value a ∧
        k.valid (growslice grow a xs cap x).1 = true ∧
        (growslice grow a xs cap x).2.apart k = true := by
  have hnew : ∀ rest : List GoString,
      (a ++ [xs ++ x :: rest]).getD a.length [] = xs ++ x :: rest := by
    intro rest
    simp [List.getElem?_append_right]
  refine ⟨?_, ?_, ?_⟩
  · simp only [growslice, StringSlice.value, Option.map_some', StringSlice.elems, hnew,
      take_grown]
  · simp only [growslice, StringSlice.valid, hnew, List.length_append, List.length_cons,
      List.length_nil, List.length_replicate, Bool.and_eq_true, decide_eq_true_eq]
    omega
  · intro k hk
    cases k with
    | none => exact ⟨rfl, rfl, rfl⟩
    | some g =>
      simp only [StringSlice.valid, Bool.and_eq_true, decide_eq_true_eq] at hk
      have hget : ∀ new : List GoString, (a ++ [new]).getD g.array [] = a.getD g.array [] := by
        intro new
        simp [List.getElem?_append_left hk.1.1]
      refine ⟨?_, ?_, ?_⟩
      · simp only [growslice, StringSlice.value, Option.map_some', StringSlice.elems, hget]
      · simp only [growslice, StringSlice.valid, hget, List.length_append, List.length_cons,
          List.length_nil, Bool.and_eq_true, decide_eq_true_eq]
        omega
      · simp only [growslice, StringSlice.apart, Bool.or_eq_true, bne_iff_ne, ne_eq,
          decide_eq_true_eq]
        left; left; omega

theorem StringSlice.append_spec (grow : Nat → Nat → Nat) (a : Arrays) (s : StringSlice)
    (x : GoString) (hv : s.valid a = true) :
    (StringSlice.append grow a s x).2.value (StringSlice.append grow a s x).1
        = (s.value a).append x ∧
      (StringSlice.append grow a s x).2.valid (StringSlice.append grow a s x).1 = true ∧
      ∀ k : StringSlice, k.valid a = true → s.apart k = true →
        k.value (StringSlice.append grow a s x).1 = k.value a ∧
        k.valid (StringSlice.append grow a s x).1 = true ∧
        (StringSlice.append grow a s x).2.apart k = true := by
  cases s with
  | none =>
    obtain ⟨h1, h2, h3⟩ := growslice_spec grow a [] 0 x
    exact ⟨h1, h2, fun k hk _ => h3 k hk⟩
  | some h =>
    by_cases hroom : h.len < h.cap
    · simp only [StringSlice.valid, Bool.and_eq_true, decide_eq_true_eq] at hv
      obtain ⟨⟨hv1, hv2⟩, hv3⟩ := hv
      have hset : (a.set h.array ((a.getD h.array []).set (h.offset + h.len) x)).getD h.array []
          = (a.getD h.array []).set (h.offset + h.len) x := by
        simp [List.getElem?_set_self hv1]
      simp only [StringSlice.append, hroom, if_true]
      refine ⟨?_, ?_, ?_⟩
      · simp only [StringSlice.value, Option.map_some', StringSlice.elems, hset, Slice.append,
          Slice.elems_some]
        rw [window_set_last _ _ _ _ (by omega)]
      · simp only [StringSlice.valid, hset, List.length_set, Bool.and_eq_true,
          decide_eq_true_eq]
        omega
      · intro k hk hap
        cases k with
        | none => exact ⟨rfl, rfl, rfl⟩
        | some g =>
          simp only [StringSlice.valid, Bool.and_eq_true, decide_eq_true_eq] at hk
          simp only [StringSlice.apart, Bool.or_eq_true, bne_iff_ne, ne_eq,
            decide_eq_true_eq] at hap
          have hwin : ((a.set h.array ((a.getD h.array []).set (h.offset + h.len) x)).getD
              g.array []).length = (a.getD g.array []).length ∧
              (((a.set h.array ((a.getD h.array []).set (h.offset + h.len) x)).getD
                g.array []).drop g.offset).take g.len
                = ((a.getD g.array []).drop g.offset).take g.len := by
            by_cases e : h.array = g.array
            · rw [← e, hset]
              refine ⟨List.length_set _ _ _, window_set _ _ _ _ _ ?_⟩
              rcases hap with (q | q) | q
              · exact absurd e q
              · left; omega
              · right; omega
            · have : (a.set h.array ((a.getD h.array []).set (h.offset + h.len) x)).getD
                  g.array [] = a.getD g.array [] := by
                simp [List.getElem?_set_ne e]
              rw [this]
              exact ⟨rfl, rfl⟩
          refine ⟨?_, ?_, ?_⟩
          · simp only [StringSlice.value, Option.map_some', StringSlice.elems, hwin.2]
          · simp only [StringSlice.valid, hwin.1, List.length_set, Bool.and_eq_true,
              decide_eq_true_eq]
            exact hk
          · simp only [StringSlice.apart, Bool.or_eq_true, bne_iff_ne, ne_eq,
              decide_eq_true_eq]
            exact hap
    · obtain ⟨h1, h2, h3⟩ := growslice_spec grow a (StringSlice.elems a (some h)) h.cap x
      simp only [StringSlice.append, hroom, if_false]
      exact ⟨h1.trans (Slice.append_value a (some h) x).symm, h2, fun k hk _ => h3 k hk⟩

theorem StringSlice.reset_spec (a : Arrays) (s : StringSlice) (hv : s.valid a = true) :
    s.reset.value a = (s.value a).reset ∧ s.reset.valid a = true ∧
      ∀ k : StringSlice, s.reset.apart k = s.apart k ∧ k.apart s.reset = k.apart s := by
  cases s with
  | none => exact ⟨rfl, rfl, fun k => ⟨rfl, rfl⟩⟩
  | some h =>
    simp only [StringSlice.valid, Bool.and_eq_true, decide_eq_true_eq] at hv
    refine ⟨?_, ?_, fun k => ?_⟩
    · simp [StringSlice.reset, StringSlice.value, StringSlice.elems, Slice.reset]
    · simp only [StringSlice.reset, Option.map_some', StringSlice.valid, Bool.and_eq_true,
        decide_eq_true_eq]
      omega
    · cases k <;> exact ⟨rfl, rfl⟩

/-! ### The two appends of a column, on lists that share no storage -/

theorem mem_addNew (grow : Nat → Nat → Nat) (a : Arrays) (r : Mem.ReplicationOperation)
    (n v : GoString) (hs : Mem.separate a r = true) :
    Mem.separate
        (StringSlice.append grow (StringSlice.append grow a r.NewColumns n).1 r.NewValues v).1
        { r with
          NewColumns := (StringSlice.append grow a r.NewColumns n).2
          NewValues := (StringSlice.append grow (StringSlice.append grow a r.NewColumns n).1
            r.NewValues v).2 } = true ∧
      Mem.ReplicationOperation.value
        (StringSlice.append grow (StringSlice.append grow a r.NewColumns n).1 r.NewValues v).1
        { r with
          NewColumns := (StringSlice.append grow a r.NewColumns n).2
          NewValues := (StringSlice.append grow (StringSlice.append grow a r.NewColumns n).1
            r.NewValues v).2 }
        = { r.value a with
            NewColumns := (r.value a).NewColumns.append n
            NewValues := (r.value a).NewValues.append v } := by
  simp only [Mem.separate, Bool.and_eq_true] at hs
  obtain ⟨⟨⟨⟨⟨⟨⟨⟨⟨v1, v2⟩, v3⟩, v4⟩, p12⟩, p13⟩, p14⟩, p23⟩, p24⟩, p34⟩ := hs
  have S1 := StringSlice.append_spec grow a r.NewColumns n v3
  generalize StringSlice.append grow a r.NewColumns n = c at S1 ⊢
  obtain ⟨c1, c2, c3⟩ := S1
  obtain ⟨a1, a2, a3⟩ := c3 r.OldColumns v1 (by rw [StringSlice.apart_comm]; exact p13)
  obtain ⟨b1, b2, b3⟩ := c3 r.OldValues v2 (by rw [StringSlice.apart_comm]; exact p23)
  obtain ⟨d1, d2, d3⟩ := c3 r.NewValues v4 p34
  have S2 := StringSlice.append_spec grow c.1 r.NewValues v d2
  generalize StringSlice.append grow c.1 r.NewValues v = w at S2 ⊢
  obtain ⟨w1, w2, w3⟩ := S2
  obtain ⟨e1, e2, e3⟩ := w3 r.OldColumns a2 (by rw [StringSlice.apart_comm]; exact p14)
  obtain ⟨f1, f2, f3⟩ := w3 r.OldValues b2 (by rw [StringSlice.apart_comm]; exact p24)
  obtain ⟨g1, g2, g3⟩ := w3 c.2 c2 (by rw [StringSlice.apart_comm]; exact d3)
  constructor
  · simp only [Mem.separate, Bool.and_eq_true]
    refine ⟨⟨⟨⟨⟨⟨⟨⟨⟨e2, f2⟩, g2⟩, w2⟩, p12⟩, ?_⟩, ?_⟩, ?_⟩, ?_⟩, ?_⟩
    · rw [StringSlice.apart_comm]; exact a3
    · rw [StringSlice.apart_comm]; exact e3
    · rw [StringSlice.apart_comm]; exact b3
    · rw [StringSlice.apart_comm]; exact f3
    · rw [StringSlice.apart_comm]; exact g3
  · simp only [Mem.ReplicationOperation.value, e1, a1, f1, b1, g1, c1, w1, d1]

theorem mem_addOld (grow : Nat → Nat → Nat) (a : Arrays) (r : Mem.ReplicationOperation)
    (n v : GoString) (hs : Mem.separate a r = true) :
    Mem.separate
        (StringSlice.append grow (StringSlice.append grow a r.OldColumns n).1 r.OldValues v).1
        { r with
          OldColumns := (StringSlice.append grow a r.OldColumns n).2
          OldValues := (StringSlice.append grow (StringSlice.append grow a r.OldColumns n).1
            r.OldValues v).2 } = true ∧
      Mem.ReplicationOperation.value
        (StringSlice.append grow (StringSlice.append grow a r.OldColumns n).1 r.OldValues v).1
        { r with
          OldColumns := (StringSlice.append grow a r.OldColumns n).2
          OldValues := (StringSlice.append grow (StringSlice.append grow a r.OldColumns n).1
            r.OldValues v).2 }
        = { r.value a with
            OldColumns := (r.value a).OldColumns.append n
            OldValues := (r.value a).OldValues.append v } := by
  simp only [Mem.separate, Bool.and_eq_true] at hs
  obtain ⟨⟨⟨⟨⟨⟨⟨⟨⟨v1, v2⟩, v3⟩, v4⟩, p12⟩, p13⟩, p14⟩, p23⟩, p24⟩, p34⟩ := hs
  have S1 := StringSlice.append_spec grow a r.OldColumns n v1
  generalize StringSlice.append grow a r.OldColumns n = c at S1 ⊢
  obtain ⟨c1, c2, c3⟩ := S1
  obtain ⟨a1, a2, a3⟩ := c3 r.OldValues v2 p12
  obtain ⟨b1, b2, b3⟩ := c3 r.NewColumns v3 p13
  obtain ⟨d1, d2, d3⟩ := c3 r.NewValues v4 p14
  have S2 := StringSlice.append_spec grow c.1 r.OldValues v a2
  generalize StringSlice.append grow c.1 r.OldValues v = w at S2 ⊢
  obtain ⟨w1, w2, w3⟩ := S2
  obtain ⟨e1, e2, e3⟩ := w3 r.NewColumns b2 p23
  obtain ⟨f1, f2, f3⟩ := w3 r.NewValues d2 p24
  obtain ⟨g1, g2, g3⟩ := w3 c.2 c2 (by rw [StringSlice.apart_comm]; exact a3)
  constructor
  · simp only [Mem.separate, Bool.and_eq_true]
    refine ⟨⟨⟨⟨⟨⟨⟨⟨⟨g2, w2⟩, e2⟩, f2⟩, ?_⟩, b3⟩, d3⟩, e3⟩, f3⟩, p34⟩
    rw [StringSlice.apart_comm]; exact g3
  · simp only [Mem.ReplicationOperation.value, e1, a1, f1, b1, g1, c1, w1, d1]

theorem mem_reset (a : Arrays) (r : Mem.ReplicationOperation) (tgt op : GoString)
    (hs : Mem.separate a r = true) :
    Mem.separate a { r.reset with Target := tgt, Operation := op } = true ∧
      Mem.ReplicationOperation.value a { r.reset with Target := tgt, Operation := op }
        = { (r.value a).reset with Target := tgt, Operation := op } := by
  simp only [Mem.separate, Bool.and_eq_true] at hs
  obtain ⟨⟨⟨⟨⟨⟨⟨⟨⟨v1, v2⟩, v3⟩, v4⟩, p12⟩, p13⟩, p14⟩, p23⟩, p24⟩, p34⟩ := hs
  obtain ⟨a1, a2, a3⟩ := StringSlice.reset_spec a r.OldColumns v1
  obtain ⟨b1, b2, b3⟩ := StringSlice.reset_spec a r.OldValues v2
  obtain ⟨c1, c2, c3⟩ := StringSlice.reset_spec a r.NewColumns v3
  obtain ⟨d1, d2, d3⟩ := StringSlice.reset_spec a r.NewValues v4
  constructor
  · simp only [Mem.separate, Mem.ReplicationOperation.reset, Bool.and_eq_true]
    refine ⟨⟨⟨⟨⟨⟨⟨⟨⟨a2, b2⟩, c2⟩, d2⟩, ?_⟩, ?_⟩, ?_⟩, ?_⟩, ?_⟩, ?_⟩
    · rw [(a3 _).1, (b3 _).2]; exact p12
    · rw [(a3 _).1, (c3 _).2]; exact p13
    · rw [(a3 _).1, (d3 _).2]; exact p14
    · rw [(b3 _).1, (c3 _).2]; exact p23
    · rw [(b3 _).1, (d3 _).2]; exact p24
    · rw [(c3 _).1, (d3 _).2]; exact p34
  · simp only [Mem.ReplicationOperation.value, Mem.ReplicationOperation.reset,
      ReplicationOperation.reset, a1, b1, c1, d1]

/-! ### The decoder over arrays against the decoder by value -/

theorem mem_parseInsert_loop (grow : Nat → Nat → Nat) (letter : Nat → Bool) (fuel : Nat) :
    ∀ (input : Slice Nat) (a : Arrays) (r : Mem.ReplicationOperation),
      Mem.separate a r = true →
      Mem.Holds (Mem.parseInsert.loop grow letter fuel input a r)
        (PgBarrel.parseInsert.loop letter fuel input (r.value a)) := by
  induction fuel with
  | zero => intro input a r _; simp [Mem.parseInsert.loop, PgBarrel.parseInsert.loop, Mem.Holds]
  | succ fuel ih =>
    intro input a r hs
    rw [Mem.parseInsert.loop, PgBarrel.parseInsert.loop]
    by_cases hlen : input.len > 0
    · simp only [hlen, if_true]
      cases hc : parseColumn letter input with
      | error e => simp [Mem.Holds]
      | ok col =>
        simp only [ok_bind]
        by_cases herr : col.err ≠ none
        · simp only [herr, ne_eq, not_false_eq_true, if_true, pure_eq_ok, Mem.Holds]
          exact ⟨trivial, trivial, hs⟩
        · obtain ⟨q1, q2⟩ := mem_addNew grow a r col.name.elems col.value.elems hs
          simp only [herr, if_false]
          have := ih col.remaining _ _ q1
          rw [q2] at this
          exact this
    · simp only [hlen, if_false, pure_eq_ok, Mem.Holds]
      exact ⟨trivial, trivial, hs⟩

theorem mem_parseDelete_loop (grow : Nat → Nat → Nat) (letter : Nat → Bool) (fuel : Nat) :
    ∀ (input : Slice Nat) (a : Arrays) (r : Mem.ReplicationOperation),
      Mem.separate a r = true →
      Mem.Holds (Mem.parseDelete.loop grow letter fuel input a r)
        (PgBarrel.parseDelete.loop letter fuel input (r.value a)) := by
  induction fuel with
  | zero => intro input a r _; simp [Mem.parseDelete.loop, PgBarrel.parseDelete.loop, Mem.Holds]
  | succ fuel ih =>
    intro input a r hs
    rw [Mem.parseDelete.loop, PgBarrel.parseDelete.loop]
    by_cases hlen : input.len > 0
    · simp only [hlen, if_true]
      cases hc : parseColumn letter input with
      | error e => simp [Mem.Holds]
      | ok col =>
        simp only [ok_bind]
        by_cases herr : col.err ≠ none
        · simp only [herr, ne_eq, not_false_eq_true, if_true, pure_eq_ok, Mem.Holds]
          exact ⟨trivial, trivial, hs⟩
        · obtain ⟨q1, q2⟩ := mem_addOld grow a r col.name.elems col.value.elems hs
          simp only [herr, if_false]
          have := ih col.remaining _ _ q1
          rw [q2] at this
          exact this
    · simp only [hlen, if_false, pure_eq_ok, Mem.Holds]
      exact ⟨trivial, trivial, hs⟩

theorem mem_parseUpdate_oldKey (grow : Nat → Nat → Nat) (letter : Nat → Bool) (fuel : Nat) :
    ∀ (input : Slice Nat) (a : Arrays) (r : Mem.ReplicationOperation),
      Mem.separate a r = true →
      Mem.HoldsExit (Mem.parseUpdate.oldKey grow letter fuel input a r)
        (PgBarrel.parseUpdate.oldKey letter fuel input (r.value a)) := by
  induction fuel with
  | zero =>
    intro input a r _
    simp [Mem.parseUpdate.oldKey, PgBarrel.parseUpdate.oldKey, Mem.HoldsExit]
  | succ fuel ih =>
    intro input a r hs
    rw [Mem.parseUpdate.oldKey, PgBarrel.parseUpdate.oldKey]
    by_cases hlen : input.len > 0
    · simp only [hlen, if_true]
      cases hc : parseColumn letter input with
      | error e => simp [Mem.HoldsExit]
      | ok col =>
        simp only [ok_bind]
        by_cases herr : col.err ≠ none
        · simp only [herr, ne_eq, not_false_eq_true, if_true, pure_eq_ok, Mem.HoldsExit]
          exact ⟨trivial, trivial, hs⟩
        · obtain ⟨q1, q2⟩ := mem_addOld grow a r col.name.elems col.value.elems hs
          simp only [herr, if_false]
          by_cases hp : HasPrefix col.remaining.elems (ascii "new-tuple: ") = true
          · simp only [hp, if_true]
            cases hq : col.remaining.sliceFrom 11 with
            | error e => simp [Mem.HoldsExit]
            | ok rest =>
              simp only [ok_bind, pure_eq_ok, Mem.HoldsExit]
              exact ⟨trivial, q2, q1⟩
          · simp only [hp, Bool.false_eq_true, if_false]
            have := ih col.remaining _ _ q1
            rw [q2] at this
            exact this
    · simp only [hlen, if_false, pure_eq_ok, Mem.HoldsExit]
      exact ⟨trivial, trivial, hs⟩

theorem mem_parseUpdate (grow : Nat → Nat → Nat) (letter : Nat → Bool) (input : Slice Nat)
    (a : Arrays) (r : Mem.ReplicationOperation) (hs : Mem.separate a r = true) :
    Mem.Holds (Mem.parseUpdate grow letter input a r)
      (PgBarrel.parseUpdate letter input (r.value a)) := by
  unfold Mem.parseUpdate PgBarrel.parseUpdate
  by_cases hp : HasPrefix input.elems (ascii "old-key: ") = true
  · simp only [hp, if_true]
    cases hq : input.sliceFrom 9 with
    | error e => simp [Mem.Holds]
    | ok rest =>
      simp only [ok_bind]
      have key := mem_parseUpdate_oldKey grow letter (rest.len + 1) rest a r hs
      cases hx : Mem.parseUpdate.oldKey grow letter (rest.len + 1) rest a r with
      | error e =>
        cases hy : PgBarrel.parseUpdate.oldKey letter (rest.len + 1) rest (r.value a) with
        | error g =>
          rw [hx, hy] at key
          simp only [Mem.HoldsExit] at key
          simp [Mem.Holds, key]
        | ok y => rw [hx, hy] at key; exact absurd key (by simp [Mem.HoldsExit])
      | ok x =>
        cases hy : PgBarrel.parseUpdate.oldKey letter (rest.len + 1) rest (r.value a) with
        | error g => rw [hx, hy] at key; exact absurd key (by cases x <;> simp [Mem.HoldsExit])
        | ok y =>
          rw [hx, hy] at key
          cases x with
          | ret e a' r' =>
            cases y with
            | ret e' o =>
              simp only [Mem.HoldsExit] at key
              simp only [ok_bind, pure_eq_ok, Mem.Holds]
              exact key
            | done i o => exact absurd key (by simp [Mem.HoldsExit])
          | done i a' r' =>
            cases y with
            | ret e' o => exact absurd key (by simp [Mem.HoldsExit])
            | done i' o =>
              simp only [Mem.HoldsExit] at key
              obtain ⟨k1, k2, k3⟩ := key
              simp only [ok_bind]
              rw [← k1, ← k2]
              exact mem_parseInsert_loop grow letter _ _ _ _ k3
  · simp only [hp, Bool.false_eq_true, if_false, pure_eq_ok, ok_bind]
    exact mem_parseInsert_loop grow letter _ _ _ _ hs

/-- `Parse` by value and `Parse` over arrays take the same path through a
message: both abort, both finish with the reset record, or both go on to the
same loop with the same body. -/
theorem mem_Parse_factor (grow : Nat → Nat → Nat) (letter : Nat → Bool) (input : Slice Nat) :
    (∃ f, (∀ o, PgBarrel.Parse letter input o = .error f) ∧
      ∀ a r, Mem.Parse grow letter input a r = .error f) ∨
    (∃ op tgt, (∀ o, PgBarrel.Parse letter input o
        = .ok (none, { o.reset with Target := tgt, Operation := op })) ∧
      ∀ a r, Mem.Parse grow letter input a r
        = .ok (none, a, { r.reset with Target := tgt, Operation := op })) ∨
    (∃ op tgt body, (∀ o, PgBarrel.Parse letter input o
        = PgBarrel.parseDelete letter body { o.reset with Target := tgt, Operation := op }) ∧
      ∀ a r, Mem.Parse grow letter input a r
        = Mem.parseDelete grow letter body a { r.reset with Target := tgt, Operation := op }) ∨
    (∃ op tgt body, (∀ o, PgBarrel.Parse letter input o
        = PgBarrel.parseInsert letter body { o.reset with Target := tgt, Operation := op }) ∧
      ∀ a r, Mem.Parse grow letter input a r
        = Mem.parseInsert grow letter body a { r.reset with Target := tgt, Operation := op }) ∨
    (∃ op tgt body, (∀ o, PgBarrel.Parse letter input o
        = PgBarrel.parseUpdate letter body { o.reset with Target := tgt, Operation := op }) ∧
      ∀ a r, Mem.Parse grow letter input a r
        = Mem.parseUpdate grow letter body a { r.reset with Target := tgt, Operation := op }) := by
  unfold PgBarrel.Parse Mem.Parse
  by_cases h0 : input.len < 1
  · exact Or.inl ⟨.panic, fun o => by simp only [h0, if_true],
      fun a r => by simp only [h0, if_true]⟩
  simp only [h0, if_false]
  cases indexAt input.elems 0 with
  | error f => exact Or.inl ⟨f, fun o => rfl, fun a r => rfl⟩
  | ok first =>
  simp only [ok_bind]
  by_cases hB : first = 0x42
  · simp only [hB, if_true]
    cases input.sliceTo 5 with
    | error f => exact Or.inl ⟨f, fun o => rfl, fun a r => rfl⟩
    | ok op =>
      cases input.sliceFrom 6 with
      | error f => exact Or.inl ⟨f, fun o => rfl, fun a r => rfl⟩
      | ok tgt => exact Or.inr (Or.inl ⟨op.elems, tgt.elems, fun o => rfl, fun a r => rfl⟩)
  simp only [hB, if_false]
  by_cases hC : first = 0x43
  · simp only [hC, if_true]
    cases input.sliceTo 6 with
    | error f => exact Or.inl ⟨f, fun o => rfl, fun a r => rfl⟩
    | ok op =>
      cases input.sliceFrom 7 with
      | error f => exact Or.inl ⟨f, fun o => rfl, fun a r => rfl⟩
      | ok tgt => exact Or.inr (Or.inl ⟨op.elems, tgt.elems, fun o => rfl, fun a r => rfl⟩)
  simp only [hC, if_false]
  by_cases hT : (!HasPrefix input.elems (ascii "table ")) = true
  · exact Or.inl ⟨.panic, fun o => by simp only [hT, if_true],
      fun a r => by simp only [hT, if_true]⟩
  simp only [hT, Bool.false_eq_true, if_false]
  cases input.sliceFrom 6 with
  | error f => exact Or.inl ⟨f, fun o => rfl, fun a r => rfl⟩
  | ok s =>
  simp only [ok_bind]
  cases pgParseIdentifier letter s with
  | error f => exact Or.inl ⟨f, fun o => rfl, fun a r => rfl⟩
  | ok ct =>
  obtain ⟨current, target⟩ := ct
  simp only [ok_bind]
  by_cases hP : (!HasPrefix current.elems (ascii ": ")) = true
  · exact Or.inl ⟨.panic, fun o => by simp only [hP, if_true],
      fun a r => by simp only [hP, if_true]⟩
  simp only [hP, Bool.false_eq_true, if_false]
  cases current.sliceFrom (2 + 6) with
  | error f => exact Or.inl ⟨f, fun o => rfl, fun a r => rfl⟩
  | ok rest =>
  simp only [ok_bind]
  cases current.sliceBetween 2 (2 + 6) with
  | error f => exact Or.inl ⟨f, fun o => rfl, fun a r => rfl⟩
  | ok operation =>
  simp only [ok_bind]
  by_cases hO : operation.elems ≠ ascii "DELETE" ∧ operation.elems ≠ ascii "INSERT" ∧
      operation.elems ≠ ascii "UPDATE"
  · exact Or.inl ⟨.panic, fun o => by rw [if_pos hO], fun a r => by rw [if_pos hO]⟩
  simp only [if_neg hO]
  by_cases hQ : (!HasPrefix rest.elems (ascii ": ")) = true
  · exact Or.inl ⟨.panic, fun o => by simp only [hQ, if_true],
      fun a r => by simp only [hQ, if_true]⟩
  simp only [hQ, Bool.false_eq_true, if_false]
  cases rest.sliceFrom 2 with
  | error f => exact Or.inl ⟨f, fun o => rfl, fun a r => rfl⟩
  | ok body =>
  simp only [ok_bind]
  cases indexAt operation.elems 0 with
  | error f => exact Or.inl ⟨f, fun o => rfl, fun a r => rfl⟩
  | ok op0 =>
  simp only [ok_bind]
  by_cases hD : op0 = 0x44
  · simp only [hD, if_true]
    exact Or.inr (Or.inr (Or.inl
      ⟨operation.elems, target.elems, body, fun o => rfl, fun a r => rfl⟩))
  simp only [hD, if_false]
  by_cases hI : op0 = 0x49
  · simp only [hI, if_true]
    exact Or.inr (Or.inr (Or.inr (Or.inl
      ⟨operation.elems, target.elems, body, fun o => rfl, fun a r => rfl⟩)))
  simp only [hI, if_false]
  by_cases hU : op0 = 0x55
  · simp only [hU, if_true]
    exact Or.inr (Or.inr (Or.inr (Or.inr
      ⟨operation.elems, target.elems, body, fun o => rfl, fun a r => rfl⟩)))
  simp only [hU, if_false]
  exact Or.inr (Or.inl ⟨operation.elems, target.elems, fun o => rfl, fun a r => rfl⟩)

/-- On a record whose lists share no storage, `Parse` over arrays does what
`Parse` by value does on the lists read from the arrays. -/
theorem mem_Parse (grow : Nat → Nat → Nat) (letter : Nat → Bool) (input : Slice Nat)
    (a : Arrays) (r : Mem.ReplicationOperation) (hs : Mem.separate a r = true) :
    Mem.Holds (Mem.Parse grow letter input a r) (PgBarrel.Parse letter input (r.value a)) := by
  rcases mem_Parse_factor grow letter input with ⟨f, h1, h2⟩ | ⟨op, tgt, h1, h2⟩ |
    ⟨op, tgt, body, h1, h2⟩ | ⟨op, tgt, body, h1, h2⟩ | ⟨op, tgt, body, h1, h2⟩
  · rw [h1, h2]; simp [Mem.Holds]
  · obtain ⟨q1, q2⟩ := mem_reset a r tgt op hs
    rw [h1, h2]
    simp only [Mem.Holds]
    exact ⟨trivial, q2, q1⟩
  · obtain ⟨q1, q2⟩ := mem_reset a r tgt op hs
    rw [h1, h2, ← q2]
    exact mem_parseDelete_loop grow letter _ _ _ _ q1
  · obtain ⟨q1, q2⟩ := mem_reset a r tgt op hs
    rw [h1, h2, ← q2]
    exact mem_parseInsert_loop grow letter _ _ _ _ q1
  · obtain ⟨q1, q2⟩ := mem_reset a r tgt op hs
    rw [h1, h2, ← q2]
    exact mem_parseUpdate grow letter _ _ _ q1

/-- A nil error with the zero record gives a nil error, and the same output,
with every record whose lists share no storage. -/
theorem mem_Parse_same (grow : Nat → Nat → Nat) (letter : Nat → Bool) (input : Slice Nat)
    (a0 a1 a : Arrays) (fresh o : Mem.ReplicationOperation)
    (h : Mem.Parse grow letter input a0 Mem.zeroRecord = .ok (none, a1, fresh))
    (hs : Mem.separate a o = true) :
    ∃ a' out, Mem.Parse grow letter input a o = .ok (none, a', out) ∧
      out.Operation = fresh.Operation ∧ out.Target = fresh.Target ∧
      out.OldColumns.elems a' = fresh.OldColumns.elems a1 ∧
      out.OldValues.elems a' = fresh.OldValues.elems a1 ∧
      out.NewColumns.elems a' = fresh.NewColumns.elems a1 ∧
      out.NewValues.elems a' = fresh.NewValues.elems a1 := by
  have k0 := mem_Parse grow letter input a0 Mem.zeroRecord rfl
  rw [h] at k0
  cases hy : PgBarrel.Parse letter input (Mem.zeroRecord.value a0) with
  | error g => rw [hy] at k0; exact absurd k0 (by simp [Mem.Holds])
  | ok y =>
    obtain ⟨e, f⟩ := y
    rw [hy] at k0
    simp only [Mem.Holds] at k0
    obtain ⟨k1, k2, _⟩ := k0
    subst k1
    obtain ⟨out', hp, hsame⟩ := Parse_same letter input _ (o.value a) f none hy
    have k := mem_Parse grow letter input a o hs
    rw [hp] at k
    cases hx : Mem.Parse grow letter input a o with
    | error g => rw [hx] at k; exact absurd k (by simp [Mem.Holds])
    | ok x =>
      obtain ⟨e', a', out⟩ := x
      rw [hx] at k
      simp only [Mem.Holds] at k
      obtain ⟨m1, m2, _⟩ := k
      subst m1
      refine ⟨a', out, rfl, ?_⟩
      obtain ⟨s1, s2, s3, s4, s5, s6⟩ := hsame
      rw [← k2] at s1 s2 s3 s4 s5 s6
      rw [← m2] at s1 s2 s3 s4 s5 s6
      simp only [Mem.ReplicationOperation.value, StringSlice.value_elems] at s1 s2 s3 s4 s5 s6
      exact ⟨s1.symm, s2.symm, s3.symm, s4.symm, s5.symm, s6.symm⟩

/-! ## The properties -/

/-- C1. INSERT decode: for a well-formed table name `T` and well-formed column entries joined
by single spaces, `Parse` on `table T: INSERT: <entries>` returns a nil error and leaves
Operation `INSERT`, Target `T` verbatim, NewColumns the names in order, NewValues the values
in order as raw tokens, and OldColumns and OldValues empty, whatever the record held. -/
theorem insert_decode (letter : Nat → Bool) (T : Identifier) (es : List ColumnEntry)
    (o : ReplicationOperation) (hT : T.wellFormed letter = true)
    (hes : ∀ e ∈ es, e.wellFormed letter = true) :
    ∃ out, Parse letter
        (some (ascii "table " ++ T.text ++ ascii ": INSERT: " ++ columnsText es)) o
        = .ok (none, out) ∧
      out.Operation = ascii "INSERT" ∧ out.Target = T.text ∧
      out.NewColumns.elems = es.map (fun e => e.name.text) ∧
      out.NewValues.elems = es.map (fun e => e.value.text) ∧
      out.OldColumns.elems = [] ∧ out.OldValues.elems = [] := by
  refine ⟨_, Parse_insert_entries letter T es o hT hes, ?_⟩
  obtain ⟨h1, h2, _, h4, h5, h6, h7⟩ := addNewEntries_fields es
    { o.reset with Target := T.text, Operation := ascii "INSERT" }
  refine ⟨h1, h2, ?_, ?_, ?_, ?_⟩
  · rw [h6]; simp [ReplicationOperation.reset, Slice.elems_reset]
  · rw [h7]; simp [ReplicationOperation.reset, Slice.elems_reset]
  · rw [h4]; simp [ReplicationOperation.reset, Slice.elems_reset]
  · rw [h5]; simp [ReplicationOperation.reset, Slice.elems_reset]

theorem insert_decode_witness :
    ascii "table " ++ escapedTable.text ++ ascii ": INSERT: " ++ columnsText escapedColumns
        = ascii "table \"from\".\" : DELETE: \": INSERT: \" key[] \"[integer]:5 arr[integer[]]:'\x7b1,2,3\x7d'" ∧
      escapedTable.wellFormed noLetter = true ∧
      (∀ e ∈ escapedColumns, e.wellFormed noLetter = true) ∧
      ∃ out, Parse noLetter
          (some (ascii "table " ++ escapedTable.text ++ ascii ": INSERT: " ++
            columnsText escapedColumns)) zeroRecord
          = .ok (none, out) ∧
        out.Operation = ascii "INSERT" ∧ out.Target = escapedTable.text ∧
        out.NewColumns.elems = escapedColumns.map (fun e => e.name.text) ∧
        out.NewValues.elems = escapedColumns.map (fun e => e.value.text) ∧
        out.OldColumns.elems = [] ∧ out.OldValues.elems = [] :=
  ⟨by decide, by decide, by decide,
    insert_decode noLetter escapedTable escapedColumns zeroRecord (by decide) (by decide)⟩

/-- C2. UPDATE decode with old key: for a well-formed table name `T`, a non-empty list of
well-formed column entries `k :: K` and a list of well-formed column entries `N`, `Parse` on
`table T: UPDATE: old-key: <k :: K> new-tuple: <N>` returns a nil error and leaves Operation
`UPDATE`, Target `T`, the names and values of the old key in OldColumns and OldValues and those
of `N` in NewColumns and NewValues, in order.  The content of a string value is arbitrary, so
a value holding the text `new-tuple: ` stays one old value. -/
theorem update_decode_old_key (letter : Nat → Bool) (T : Identifier) (k : ColumnEntry)
    (K N : List ColumnEntry) (o : ReplicationOperation) (hT : T.wellFormed letter = true)
    (hK : ∀ e ∈ k :: K, e.wellFormed letter = true) (hN : ∀ e ∈ N, e.wellFormed letter = true) :
    ∃ out, Parse letter
        (some (ascii "table " ++ T.text ++ ascii ": UPDATE: old-key: " ++
          columnsText (k :: K) ++ ascii " new-tuple: " ++ columnsText N)) o
        = .ok (none, out) ∧
      out.Operation = ascii "UPDATE" ∧ out.Target = T.text ∧
      out.OldColumns.elems = (k :: K).map (fun e => e.name.text) ∧
      out.OldValues.elems = (k :: K).map (fun e => e.value.text) ∧
      out.NewColumns.elems = N.map (fun e => e.name.text) ∧
      out.NewValues.elems = N.map (fun e => e.value.text) := by
  refine ⟨_, Parse_update_entries letter T k K N o hT hK hN, ?_⟩
  obtain ⟨a1, a2, _, a4, a5, a6, a7⟩ := addOldEntries_fields (k :: K)
    { o.reset with Target := T.text, Operation := ascii "UPDATE" }
  obtain ⟨h1, h2, _, h4, h5, h6, h7⟩ := addNewEntries_fields N
    (ReplicationOperation.addOldEntries
      { o.reset with Target := T.text, Operation := ascii "UPDATE" } (k :: K))
  refine ⟨h1.trans a1, h2.trans a2, ?_, ?_, ?_, ?_⟩
  · rw [h4, a6]; simp [ReplicationOperation.reset, Slice.elems_reset]
  · rw [h5, a7]; simp [ReplicationOperation.reset, Slice.elems_reset]
  · rw [h6, a4]; simp [ReplicationOperation.reset, Slice.elems_reset]
  · rw [h7, a5]; simp [ReplicationOperation.reset, Slice.elems_reset]

theorem update_decode_old_key_witness :
    ascii "table " ++ spaceTable.text ++ ascii ": UPDATE: old-key: " ++
        columnsText [column "k" "text" (.string (ascii "new-tuple: "))] ++
        ascii " new-tuple: " ++ columnsText [column "k" "text" (.string (ascii "x"))]
      = ascii "table public.\"sp ace\": UPDATE: old-key: k[text]:'new-tuple: ' new-tuple: k[text]:'x'" ∧
    ∃ out, Parse noLetter
        (some (ascii "table " ++ spaceTable.text ++ ascii ": UPDATE: old-key: " ++
          columnsText [column "k" "text" (.string (ascii "new-tuple: "))] ++
          ascii " new-tuple: " ++ columnsText [column "k" "text" (.string (ascii "x"))]))
        usedRecord
        = .ok (none, out) ∧
      out.Operation = ascii "UPDATE" ∧ out.Target = spaceTable.text ∧
      out.OldColumns.elems = [ascii "k"] ∧
      out.OldValues.elems = [ascii "'new-tuple: '"] ∧
      out.NewColumns.elems = [ascii "k"] ∧
      out.NewValues.elems = [ascii "'x'"] :=
  ⟨by decide,
    update_decode_old_key noLetter spaceTable (column "k" "text" (.string (ascii "new-tuple: ")))
      [] [column "k" "text" (.string (ascii "x"))] usedRecord (by decide) (by decide)
      (by decide)⟩

/-- C3. DELETE decode: for a well-formed table name `T` and well-formed column entries joined
by single spaces, `Parse` on `table T: DELETE: <entries>` returns a nil error and leaves
Operation `DELETE`, Target `T`, OldColumns the names in order, OldValues the values in order,
and NewColumns and NewValues empty. -/
theorem delete_decode (letter : Nat → Bool) (T : Identifier) (es : List ColumnEntry)
    (o : ReplicationOperation) (hT : T.wellFormed letter = true)
    (hes : ∀ e ∈ es, e.wellFormed letter = true) :
    ∃ out, Parse letter
        (some (ascii "table " ++ T.text ++ ascii ": DELETE: " ++ columnsText es)) o
        = .ok (none, out) ∧
      out.Operation = ascii "DELETE" ∧ out.Target = T.text ∧
      out.OldColumns.elems = es.map (fun e => e.name.text) ∧
      out.OldValues.elems = es.map (fun e => e.value.text) ∧
      out.NewColumns.elems = [] ∧ out.NewValues.elems = [] := by
  refine ⟨_, Parse_delete_entries letter T es o hT hes, ?_⟩
  obtain ⟨h1, h2, _, h4, h5, h6, h7⟩ := addOldEntries_fields es
    { o.reset with Target := T.text, Operation := ascii "DELETE" }
  refine ⟨h1, h2, ?_, ?_, ?_, ?_⟩
  · rw [h6]; simp [ReplicationOperation.reset, Slice.elems_reset]
  · rw [h7]; simp [ReplicationOperation.reset, Slice.elems_reset]
  · rw [h4]; simp [ReplicationOperation.reset, Slice.elems_reset]
  · rw [h5]; simp [ReplicationOperation.reset, Slice.elems_reset]

theorem delete_decode_witness :
    ascii "table " ++ spaceTable.text ++ ascii ": DELETE: " ++
        columnsText [column "id1" "integer" (.numeric (ascii "3")),
          column "id2" "integer" (.numeric (ascii "92"))]
      = ascii "table public.\"sp ace\": DELETE: id1[integer]:3 id2[integer]:92" ∧
    ∃ out, Parse noLetter
        (some (ascii "table " ++ spaceTable.text ++ ascii ": DELETE: " ++
          columnsText [column "id1" "integer" (.numeric (ascii "3")),
            column "id2" "integer" (.numeric (ascii "92"))])) usedRecord
        = .ok (none, out) ∧
      out.Operation = ascii "DELETE" ∧ out.Target = spaceTable.text ∧
      out.OldColumns.elems = [ascii "id1", ascii "id2"] ∧
      out.OldValues.elems = [ascii "3", ascii "92"] ∧
      out.NewColumns.elems = [] ∧ out.NewValues.elems = [] :=
  ⟨by decide,
    delete_decode noLetter spaceTable
      [column "id1" "integer" (.numeric (ascii "3")),
        column "id2" "integer" (.numeric (ascii "92"))] usedRecord (by decide) (by decide)⟩

/-- C4. BEGIN decode: for every byte string `x` and every record, `Parse` on `BEGIN ` followed
by `x` returns a nil error and leaves Operation `BEGIN`, Target `x`, and the four lists
empty. -/
theorem begin_decode (letter : Nat → Bool) (x : List Nat) (o : ReplicationOperation) :
    ∃ out, Parse letter (some (ascii "BEGIN " ++ x)) o = .ok (none, out) ∧
      out.Operation = ascii "BEGIN" ∧ out.Target = x ∧
      out.OldColumns.elems = [] ∧ out.OldValues.elems = [] ∧
      out.NewColumns.elems = [] ∧ out.NewValues.elems = [] :=
  ⟨_, Parse_control letter (ascii "BEGIN") x o 0x42 rfl (Or.inl rfl) rfl, rfl, rfl,
    Slice.elems_reset _, Slice.elems_reset _, Slice.elems_reset _, Slice.elems_reset _⟩

/-- C5. COMMIT decode: for every byte string `x` and every record, `Parse` on `COMMIT `
followed by `x` returns a nil error and leaves Operation `COMMIT`, Target `x`, and the four
lists empty. -/
theorem commit_decode (letter : Nat → Bool) (x : List Nat) (o : ReplicationOperation) :
    ∃ out, Parse letter (some (ascii "COMMIT " ++ x)) o = .ok (none, out) ∧
      out.Operation = ascii "COMMIT" ∧ out.Target = x ∧
      out.OldColumns.elems = [] ∧ out.OldValues.elems = [] ∧
      out.NewColumns.elems = [] ∧ out.NewValues.elems = [] :=
  ⟨_, Parse_control letter (ascii "COMMIT") x o 0x43 rfl (Or.inr rfl) rfl, rfl, rfl,
    Slice.elems_reset _, Slice.elems_reset _, Slice.elems_reset _, Slice.elems_reset _⟩

/-- C6. Identifier scan of a well-formed name: for a non-empty sequence of segments, each a
non-empty run of identifier characters or a quoted segment with every `"` of its content
doubled, joined by single dots into `t`, and a remainder `r` that is empty or begins with a
character that is not `"`, not `.` and, when the last segment of `t` is bare, not an identifier
character, `pgParseIdentifier` on `t ++ r` returns the identifier `t` and the remaining `r`.
A remainder that begins with a character that is not an identifier character, not `"` and not
`.` is such an `r` after every `t`; after a quoted last segment an identifier character may
follow as well, as in `"a""bc"x`. -/
theorem identifier_scan (letter : Nat → Bool) (t : Identifier) (r : List Nat)
    (ht : t.wellFormed letter = true) (hr : t.endedBy letter r = true) :
    pgParseIdentifier letter (some (t.text ++ r)) = .ok (some r, some t.text) :=
  pgParseIdentifier_endedBy letter t r ht hr

theorem identifier_scan_witness :
    (pgParseIdentifier noLetter (some (ascii "\"a\"\"bc\"x"))
        = .ok (some (ascii "x"), some (ascii "\"a\"\"bc\""))) ∧
    (pgParseIdentifier noLetter (some (ascii "\"a\".\"bc\"x"))
        = .ok (some (ascii "x"), some (ascii "\"a\".\"bc\""))) ∧
    (pgParseIdentifier noLetter (some (ascii "a.b.c["))
        = .ok (some (ascii "["), some (ascii "a.b.c"))) :=
  ⟨identifier_scan noLetter ⟨.quoted (ascii "a\"bc"), []⟩ (ascii "x") (by decide) (by decide),
    identifier_scan noLetter ⟨.quoted (ascii "a"), [.quoted (ascii "bc")]⟩ (ascii "x")
      (by decide) (by decide),
    identifier_scan noLetter ⟨.bare (ascii "a"), [.bare (ascii "b"), .bare (ascii "c")]⟩
      (ascii "[") (by decide) (by decide)⟩

/-- C7. String-literal scan: for every byte string `s`, with `q` the string `s` between single
quotes and every `'` in it doubled, and every remainder `r` that is empty or does not begin
with `'`, `pgParseConstant` on `q ++ r` returns the constant `q`, quotes and escapes verbatim,
and the remaining `r`. -/
theorem string_literal_scan (s r : List Nat) (hr : r.head? ≠ some 0x27) :
    pgParseConstant (some (stringLiteral s ++ r)) = .ok (some r, some (stringLiteral s)) :=
  pgParseConstant_literal s r hr

theorem string_literal_scan_witness :
    (ascii "  ").head? ≠ some 0x27 ∧
    pgParseConstant (some (ascii "'a''bc'  ")) = .ok (some (ascii "  "), some (ascii "'a''bc'")) :=
  ⟨by decide, string_literal_scan (ascii "a'bc") (ascii "  ") (by decide)⟩

/-- C8. Slice conservation: on every input, nil included, `pgParseIdentifier` and
`pgParseConstant` return, and the token followed by the remainder is the input: the two
lengths add up to the length of the input and the remainder is a suffix of it (a nil token is
empty). -/
theorem scanners_conserve (letter : Nat → Bool) (src : Slice Nat) :
    (∃ remaining identifier, pgParseIdentifier letter src = .ok (remaining, identifier) ∧
      identifier.elems ++ remaining.elems = src.elems ∧
      identifier.len + remaining.len = src.len ∧ remaining.elems <:+ src.elems) ∧
    (∃ remaining constant, pgParseConstant src = .ok (remaining, constant) ∧
      constant.elems ++ remaining.elems = src.elems ∧
      constant.len + remaining.len = src.len ∧ remaining.elems <:+ src.elems) := by
  have key : ∀ r : Scan, Conserves src r →
      r.2.elems ++ r.1.elems = src.elems ∧ r.2.len + r.1.len = src.len ∧
        r.1.elems <:+ src.elems := by
    intro r h
    refine ⟨h, ?_, ⟨r.2.elems, h⟩⟩
    have := congrArg List.length h
    simpa [Slice.len] using this
  constructor
  · obtain ⟨r, hr, hc⟩ := pgParseIdentifier_conserves letter src
    exact ⟨r.1, r.2, hr, key r hc⟩
  · obtain ⟨r, hr, hc⟩ := pgParseConstant_conserves src
    exact ⟨r.1, r.2, hr, key r hc⟩

/-- C9. Record balance: for every message and every initial record, if `Parse` returns a nil
error then the record it leaves has as many old values as old columns and as many new values
as new columns. -/
theorem record_balance (letter : Nat → Bool) (input : Slice Nat) (o out : ReplicationOperation)
    (h : Parse letter input o = .ok (none, out)) :
    out.OldColumns.len = out.OldValues.len ∧ out.NewColumns.len = out.NewValues.len :=
  Parse_balanced letter input o out none h

theorem record_balance_witness :
    usedRecord.OldColumns.len ≠ usedRecord.OldValues.len ∧
    Parse noLetter
        (some (ascii "table public.contents: INSERT: id[integer]:1 value[text]:'a'")) usedRecord
      = .ok (none, insertedRecord) ∧
    insertedRecord.OldColumns.len = insertedRecord.OldValues.len ∧
    insertedRecord.NewColumns.len = insertedRecord.NewValues.len :=
  ⟨by decide, rfl,
    record_balance noLetter
      (some (ascii "table public.contents: INSERT: id[integer]:1 value[text]:'a'")) usedRecord
      insertedRecord rfl⟩

/-! ## The properties of failing scans and of the operation -/

/-- C11. A column entry stops the decoding only when no `[type]:` follows what the identifier
scanner left: on every input `parseColumn` scans a name, aborts if and only if the type
pattern does not match the bytes that remain after it, and otherwise returns with a nil error,
the name as scanned (nil when the scanner recognised none) and the constant scanned after the
type (nil when the scanner recognised none).  No result of a scanner is examined. -/
theorem column_scanner_failure (letter : Nat → Bool) (src : Slice Nat) :
    ∃ remaining name, pgParseIdentifier letter src = .ok (remaining, name) ∧
      ((pgTestDecodingTypeRegexpFind remaining.elems = none ∧
          parseColumn letter src = .error .panic) ∨
        (∃ m rest value, pgTestDecodingTypeRegexpFind remaining.elems = some m ∧
          pgParseConstant (remaining.map (List.drop m.length)) = .ok (rest, value) ∧
          ∃ col, parseColumn letter src = .ok col ∧ col.err = none ∧ col.name = name ∧
            col.value = value)) :=
  parseColumn_outcome letter src

/-- The identifier scanner recognises no name in `[-]:` and the constant scanner no value in
`'a[b]:`, yet `Parse` returns a nil error on the INSERT messages that hold them, with empty
strings in the record. -/
theorem column_scanner_failure_counterexample :
    pgParseIdentifier noLetter (some (ascii "[-]:")) = .ok (some (ascii "[-]:"), none) ∧
    Parse noLetter (some (ascii "table a: INSERT: [-]:")) zeroRecord
      = .ok (none,
          { Position := [], Operation := ascii "INSERT", Target := ascii "a",
            OldColumns := none, OldValues := none,
            NewColumns := some [[]], NewValues := some [[]] }) ∧
    pgParseConstant (some (ascii "'a[b]:")) = .ok (some (ascii "'a[b]:"), none) ∧
    Parse noLetter (some (ascii "table a: INSERT: id[text]:'a[b]:")) zeroRecord
      = .ok (none,
          { Position := [], Operation := ascii "INSERT", Target := ascii "a",
            OldColumns := none, OldValues := none,
            NewColumns := some [ascii "id", ascii "'a"], NewValues := some [[], []] }) :=
  ⟨rfl, rfl, rfl, rfl⟩

/-- C12. Constant scan on an input of none of the three forms: for every non-nil input that
does not begin with `'`, does not begin with a four-byte `null` in any case, and is empty or
has a first byte outside the numeric class, `pgParseConstant` returns the whole input as
remaining and, as the constant, the empty slice `src[:0]` of the input, which is not nil. -/
theorem constant_scan_failure (src : List Nat) (hq : src.head? ≠ some 0x27)
    (hk : isNullKeyword (src.take 4) = false)
    (hn : ∀ b, src.head? = some b → pgIsNumeric b = false) :
    pgParseConstant (some src) = .ok (some src, some []) := by
  cases src with
  | nil => rfl
  | cons b t =>
    exact pgParseConstant_no_form b t (by simpa using hq) hk (hn b rfl)

theorem constant_scan_failure_witness :
    (ascii "[").head? ≠ some 0x27 ∧ isNullKeyword ((ascii "[").take 4) = false ∧
    (∀ b, (ascii "[").head? = some b → pgIsNumeric b = false) ∧
    pgParseConstant (some (ascii "[")) = .ok (some (ascii "["), some []) ∧
    (some [] : Slice Nat) ≠ none :=
  ⟨by decide, by decide, by decide,
    constant_scan_failure (ascii "[") (by decide) (by decide) (by decide), by decide⟩

/-- C13. Identifier scan after a bad first byte: for every ASCII byte `b` that is neither an
identifier character nor `"`, every well-formed name `t` and every remainder `r` that ends
`t`, `pgParseIdentifier` on `b` followed by `t` and `r` skips `b` and returns the identifier
`b` followed by `t`, not nil, and the remaining `r`, not the whole input. -/
theorem identifier_bad_first_byte (letter : Nat → Bool) (b : Nat) (t : Identifier)
    (r : List Nat) (hb : b < 0x80) (hi : pgIsIdentifier letter b = false) (hq : b ≠ 0x22)
    (ht : t.wellFormed letter = true) (hr : t.endedBy letter r = true) :
    pgParseIdentifier letter (some (b :: (t.text ++ r))) = .ok (some r, some (b :: t.text)) :=
  pgParseIdentifier_skips letter b t r hb hi hq ht hr

theorem identifier_bad_first_byte_witness :
    pgIsIdentifier noLetter 0x5B = false ∧
    pgParseIdentifier noLetter (some (ascii "[abc")) = .ok (some [], some (ascii "[abc")) :=
  ⟨by decide,
    identifier_bad_first_byte noLetter 0x5B ⟨.bare (ascii "abc"), []⟩ [] (by decide)
      (by decide) (by decide) (by decide) (by decide)⟩

/-- C14. Numeric scan: for every input whose first byte is in the numeric class,
`pgParseConstant` returns as the constant the longest prefix of the input made of bytes of the
class and as remaining the rest of the input; nothing else about the prefix is checked. -/
theorem numeric_scan (b : Nat) (t : List Nat) (hb : pgIsNumeric b = true) :
    pgParseConstant (some (b :: t))
      = .ok (some ((b :: t).dropWhile pgIsNumeric), some ((b :: t).takeWhile pgIsNumeric)) :=
  pgParseConstant_numeric_prefix b t hb

theorem numeric_scan_witness :
    pgIsNumeric 0x31 = true ∧
    pgParseConstant (some (ascii "1.925e-3 ")) = .ok (some (ascii " "), some (ascii "1.925e-3")) ∧
    pgParseConstant (some (ascii "+-e.9")) = .ok (some [], some (ascii "+-e.9")) :=
  ⟨by decide, numeric_scan 0x31 (ascii ".925e-3 ") (by decide),
    numeric_scan 0x2B (ascii "-e.9") (by decide)⟩

/-- C15. Null keyword scan: for every four bytes `k` that read `null` in any mix of upper and
lower case and every byte string `rest`, `pgParseConstant` on `k` followed by `rest` returns
the constant `k` verbatim and the remaining `rest`. -/
theorem null_scan (k rest : List Nat) (hk : isNullKeyword k = true) :
    pgParseConstant (some (k ++ rest)) = .ok (some rest, some k) :=
  pgParseConstant_null k rest hk

theorem null_scan_witness :
    isNullKeyword (ascii "null") = true ∧
    pgParseConstant (some (ascii "nullable")) = .ok (some (ascii "able"), some (ascii "null")) ∧
    pgParseConstant (some (ascii "NuLl")) = .ok (some [], some (ascii "NuLl")) :=
  ⟨by decide, null_scan (ascii "null") (ascii "able") (by decide),
    null_scan (ascii "NuLl") [] (by decide)⟩

/-- C16. UPDATE decode without old key: for a well-formed table name `T` and well-formed
column entries joined by single spaces, `Parse` on `table T: UPDATE: <entries>` returns a nil
error and leaves Operation `UPDATE`, Target `T`, NewColumns the names in order, NewValues the
values in order, and OldColumns and OldValues empty. -/
theorem update_decode_plain (letter : Nat → Bool) (T : Identifier) (es : List ColumnEntry)
    (o : ReplicationOperation) (hT : T.wellFormed letter = true)
    (hes : ∀ e ∈ es, e.wellFormed letter = true) :
    ∃ out, Parse letter
        (some (ascii "table " ++ T.text ++ ascii ": UPDATE: " ++ columnsText es)) o
        = .ok (none, out) ∧
      out.Operation = ascii "UPDATE" ∧ out.Target = T.text ∧
      out.NewColumns.elems = es.map (fun e => e.name.text) ∧
      out.NewValues.elems = es.map (fun e => e.value.text) ∧
      out.OldColumns.elems = [] ∧ out.OldValues.elems = [] := by
  refine ⟨_, Parse_update_plain letter T es o hT hes, ?_⟩
  obtain ⟨h1, h2, _, h4, h5, h6, h7⟩ := addNewEntries_fields es
    { o.reset with Target := T.text, Operation := ascii "UPDATE" }
  refine ⟨h1, h2, ?_, ?_, ?_, ?_⟩
  · rw [h6]; simp [ReplicationOperation.reset, Slice.elems_reset]
  · rw [h7]; simp [ReplicationOperation.reset, Slice.elems_reset]
  · rw [h4]; simp [ReplicationOperation.reset, Slice.elems_reset]
  · rw [h5]; simp [ReplicationOperation.reset, Slice.elems_reset]

theorem update_decode_plain_witness :
    ascii "table " ++ Identifier.text ⟨.bare (ascii "public"), [.bare (ascii "normal")]⟩ ++
        ascii ": UPDATE: " ++
        columnsText [column "id" "integer" (.numeric (ascii "1")),
          column "value" "text" (.string (ascii "m"))]
      = ascii "table public.normal: UPDATE: id[integer]:1 value[text]:'m'" ∧
    ∃ out, Parse noLetter
        (some (ascii "table " ++
          Identifier.text ⟨.bare (ascii "public"), [.bare (ascii "normal")]⟩ ++
          ascii ": UPDATE: " ++
          columnsText [column "id" "integer" (.numeric (ascii "1")),
            column "value" "text" (.string (ascii "m"))])) usedRecord
        = .ok (none, out) ∧
      out.Operation = ascii "UPDATE" ∧ out.Target = ascii "public.normal" ∧
      out.NewColumns.elems = [ascii "id", ascii "value"] ∧
      out.NewValues.elems = [ascii "1", ascii "'m'"] ∧
      out.OldColumns.elems = [] ∧ out.OldValues.elems = [] :=
  ⟨by decide,
    update_decode_plain noLetter ⟨.bare (ascii "public"), [.bare (ascii "normal")]⟩
      [column "id" "integer" (.numeric (ascii "1")), column "value" "text" (.string (ascii "m"))]
      usedRecord (by decide) (by decide)⟩

/-- C17. Operation domain: for every message on which `Parse` returns a nil error, Operation
is the first five bytes of the message when the message begins with `B`, the first six bytes
when it begins with `C`, and one of `DELETE`, `INSERT`, `UPDATE` when it begins with neither.
Of a message that begins with `B` or `C` only the first byte is examined. -/
theorem operation_domain (letter : Nat → Bool) (input : Slice Nat)
    (o out : ReplicationOperation) (h : Parse letter input o = .ok (none, out)) :
    (input.elems.head? = some 0x42 → out.Operation = input.elems.take 5) ∧
    (input.elems.head? = some 0x43 → out.Operation = input.elems.take 6) ∧
    (input.elems.head? ≠ some 0x42 → input.elems.head? ≠ some 0x43 →
      out.Operation = ascii "DELETE" ∨ out.Operation = ascii "INSERT" ∨
        out.Operation = ascii "UPDATE") :=
  Parse_operation_cases letter input o out none h

theorem operation_domain_witness :
    (Parse noLetter (some (ascii "BEGIN 553")) zeroRecord
        = .ok (none,
            { Position := [], Operation := ascii "BEGIN", Target := ascii "553",
              OldColumns := none, OldValues := none, NewColumns := none, NewValues := none }) ∧
      ascii "BEGIN" = (ascii "BEGIN 553").take 5) ∧
    (Parse noLetter (some (ascii "COMMIT 553")) zeroRecord
        = .ok (none,
            { Position := [], Operation := ascii "COMMIT", Target := ascii "553",
              OldColumns := none, OldValues := none, NewColumns := none, NewValues := none }) ∧
      ascii "COMMIT" = (ascii "COMMIT 553").take 6) ∧
    (Parse noLetter (some (ascii "BOGUS 12")) zeroRecord
        = .ok (none,
            { Position := [], Operation := ascii "BOGUS", Target := ascii "12",
              OldColumns := none, OldValues := none, NewColumns := none, NewValues := none }) ∧
      ascii "BOGUS" = (ascii "BOGUS 12").take 5) ∧
    (Parse noLetter (some (ascii "table public.contents: DELETE: id[integer]:1")) zeroRecord
        = .ok (none, deletedRecord) ∧
      (deletedRecord.Operation = ascii "DELETE" ∨ deletedRecord.Operation = ascii "INSERT" ∨
        deletedRecord.Operation = ascii "UPDATE")) :=
  ⟨⟨rfl, (operation_domain noLetter (some (ascii "BEGIN 553")) zeroRecord
      { Position := [], Operation := ascii "BEGIN", Target := ascii "553",
        OldColumns := none, OldValues := none, NewColumns := none, NewValues := none }
      rfl).1 (by decide)⟩,
    ⟨rfl, (operation_domain noLetter (some (ascii "COMMIT 553")) zeroRecord
      { Position := [], Operation := ascii "COMMIT", Target := ascii "553",
        OldColumns := none, OldValues := none, NewColumns := none, NewValues := none }
      rfl).2.1 (by decide)⟩,
    ⟨rfl, (operation_domain noLetter (some (ascii "BOGUS 12")) zeroRecord
      { Position := [], Operation := ascii "BOGUS", Target := ascii "12",
        OldColumns := none, OldValues := none, NewColumns := none, NewValues := none }
      rfl).1 (by decide)⟩,
    ⟨rfl, (operation_domain noLetter
      (some (ascii "table public.contents: DELETE: id[integer]:1")) zeroRecord deletedRecord
      rfl).2.2 (by decide) (by decide)⟩⟩

/-- On the message `BOGUS 12`, `Parse` returns a nil error and leaves Operation `BOGUS`,
which is none of the five operations. -/
theorem operation_domain_counterexample :
    Parse noLetter (some (ascii "BOGUS 12")) zeroRecord
      = .ok (none,
          { Position := [], Operation := ascii "BOGUS", Target := ascii "12",
            OldColumns := none, OldValues := none, NewColumns := none, NewValues := none }) ∧
    ascii "BOGUS" ∉ [ascii "BEGIN", ascii "COMMIT", ascii "INSERT", ascii "UPDATE",
      ascii "DELETE"] :=
  ⟨rfl, by decide⟩

/-- C18. Unterminated string literal: for every byte string `s`, the input made of `'` and
then `s` with every `'` in it doubled, so that no quote closes the literal, makes
`pgParseConstant` return a nil constant and the whole input as remaining. -/
theorem unterminated_string (s : List Nat) :
    pgParseConstant (some (0x27 :: doubled 0x27 s))
      = .ok (some (0x27 :: doubled 0x27 s), none) :=
  pgParseConstant_unterminated s

theorem unterminated_string_witness :
    pgParseConstant (some (ascii "'abc")) = .ok (some (ascii "'abc"), none) ∧
    pgParseConstant (some (ascii "'a''")) = .ok (some (ascii "'a''"), none) ∧
    pgParseConstant (some (ascii "'''")) = .ok (some (ascii "'''"), none) :=
  ⟨unterminated_string (ascii "abc"), unterminated_string (ascii "a'"),
    unterminated_string (ascii "'")⟩

/-- C19. Unterminated quoted segment: for every list of well-formed segments each followed by
`.`, and every byte string `s`, the input made of those segments, a `"` and then `s` with
every `"` in it doubled, so that no quote closes the segment, makes `pgParseIdentifier` return
a nil identifier and the whole input as remaining. -/
theorem unterminated_quoted_identifier (letter : Nat → Bool) (segs : List Segment)
    (s : List Nat) (hwf : ∀ g ∈ segs, g.wellFormed letter = true) :
    pgParseIdentifier letter (some (leading segs ++ 0x22 :: doubled 0x22 s))
      = .ok (some (leading segs ++ 0x22 :: doubled 0x22 s), none) :=
  pgParseIdentifier_unterminated letter segs s hwf

theorem unterminated_quoted_identifier_witness :
    pgParseIdentifier noLetter (some (ascii "\"abc")) = .ok (some (ascii "\"abc"), none) ∧
    pgParseIdentifier noLetter (some (ascii "a.\"bc")) = .ok (some (ascii "a.\"bc"), none) ∧
    pgParseIdentifier noLetter (some (ascii "\"a\"\"")) = .ok (some (ascii "\"a\"\""), none) ∧
    pgParseIdentifier noLetter (some (ascii "\"x\".b.\"c"))
      = .ok (some (ascii "\"x\".b.\"c"), none) :=
  ⟨unterminated_quoted_identifier noLetter [] (ascii "abc") (by decide),
    unterminated_quoted_identifier noLetter [.bare (ascii "a")] (ascii "bc") (by decide),
    unterminated_quoted_identifier noLetter [] (ascii "a\"") (by decide),
    unterminated_quoted_identifier noLetter [.quoted (ascii "x"), .bare (ascii "b")]
      (ascii "c") (by decide)⟩

/-- C20. Trailing dot: for every well-formed identifier `t` and every `r` that holds no
identifier character and no `"`, the empty `r` included, `pgParseIdentifier` on `t`, a `.`
and `r` returns a nil identifier and the whole input as remaining: after the `.` the scan
goes on to the end of the input and finds no segment. -/
theorem trailing_dot (letter : Nat → Bool) (t : Identifier) (r : List Nat)
    (ht : t.wellFormed letter = true) (hr : startsNoSegment letter r = true) :
    pgParseIdentifier letter (some (t.text ++ 0x2E :: r))
      = .ok (some (t.text ++ 0x2E :: r), none) :=
  pgParseIdentifier_trailing_dot letter t r ht hr

theorem trailing_dot_witness :
    pgParseIdentifier noLetter (some (ascii "a.")) = .ok (some (ascii "a."), none) ∧
    pgParseIdentifier noLetter (some (ascii "public.\"t\".[-]: "))
      = .ok (some (ascii "public.\"t\".[-]: "), none) :=
  ⟨trailing_dot noLetter ⟨.bare (ascii "a"), []⟩ [] (by decide) (by decide),
    trailing_dot noLetter ⟨.bare (ascii "public"), [.quoted (ascii "t")]⟩ (ascii "[-]: ")
      (by decide) (by decide)⟩

/-- On `a.` the scanner returns a nil identifier and the remaining `a.`, not the identifier
`a` and the remaining `.`; on `a. b`, where a space follows the dot, it returns the identifier
`a. b`. -/
theorem trailing_dot_counterexample :
    pgParseIdentifier noLetter (some (ascii "a.")) = .ok (some (ascii "a."), none) ∧
    pgParseIdentifier noLetter (some (ascii "a. b")) = .ok (some [], some (ascii "a. b")) :=
  ⟨rfl, rfl⟩

/-! ## The properties of aborts, totality and the frame -/

/-- C21. `Parse` never returns an error value: for every input and record it returns a nil
error, panics, or takes a slice out of range; a column returns a nil error or panics.  Each
violation it detects is a panic: an empty input; a first byte other than `B` and `C` without
the prefix `table `; after `table ` and the scanned name, a missing `: `, an operation that is
none of `DELETE`, `INSERT`, `UPDATE`, or a missing `: ` after the operation (fewer than eight
bytes after the name are the slice out of range); and a column with no type bracket after its
name, which also aborts `Parse` when it is the first column of a row message. -/
theorem parse_no_error_value (letter : Nat → Bool) (input : Slice Nat)
    (o : ReplicationOperation) :
    ((∃ out, Parse letter input o = .ok (none, out)) ∨
      Parse letter input o = .error .panic ∨ Parse letter input o = .error .outOfRange) ∧
    (∀ src, (∃ col, parseColumn letter src = .ok col ∧ col.err = none) ∨
      parseColumn letter src = .error .panic) ∧
    (input.len < 1 → Parse letter input o = .error .panic) ∧
    (∀ b, input.elems.head? = some b → b ≠ 0x42 → b ≠ 0x43 →
      HasPrefix input.elems (ascii "table ") = false →
      Parse letter input o = .error .panic) ∧
    (∀ x current target, input = some (ascii "table " ++ x) →
      pgParseIdentifier letter (some x) = .ok (current, target) →
      (HasPrefix current.elems (ascii ": ") = false →
        Parse letter input o = .error .panic) ∧
      (HasPrefix current.elems (ascii ": ") = true → current.len < 2 + 6 →
        Parse letter input o = .error .outOfRange) ∧
      (HasPrefix current.elems (ascii ": ") = true → 2 + 6 ≤ current.len →
        (current.elems.take (2 + 6)).drop 2 ≠ ascii "DELETE" →
        (current.elems.take (2 + 6)).drop 2 ≠ ascii "INSERT" →
        (current.elems.take (2 + 6)).drop 2 ≠ ascii "UPDATE" →
        Parse letter input o = .error .panic) ∧
      (HasPrefix current.elems (ascii ": ") = true → 2 + 6 ≤ current.len →
        HasPrefix (current.elems.drop (2 + 6)) (ascii ": ") = false →
        Parse letter input o = .error .panic)) ∧
    (∀ src remaining name, pgParseIdentifier letter src = .ok (remaining, name) →
      pgTestDecodingTypeRegexpFind remaining.elems = none →
      parseColumn letter src = .error .panic) ∧
    (∀ (T : Identifier) (op body : List Nat) (remaining name : Slice Nat),
      input = some (ascii "table " ++ (T.text ++ (ascii ": " ++ (op ++ (ascii ": " ++ body))))) →
      T.wellFormed letter = true →
      op = ascii "DELETE" ∨ op = ascii "INSERT" ∨ op = ascii "UPDATE" →
      body ≠ [] → HasPrefix body (ascii "old-key: ") = false →
      pgParseIdentifier letter (some body) = .ok (remaining, name) →
      pgTestDecodingTypeRegexpFind remaining.elems = none →
      Parse letter input o = .error .panic) := by
  refine ⟨Parse_total letter input o, ?_, Parse_empty letter input o,
    fun b hb hB hC hT => Parse_no_table letter input o b hb hB hC hT, ?_,
    fun src remaining name h hm => parseColumn_no_type letter src remaining name h hm, ?_⟩
  · intro src
    rcases parseColumn_total letter src with ⟨col, hc, he, _⟩ | hc
    · exact Or.inl ⟨col, hc, he⟩
    · exact Or.inr hc
  · intro x current target hi hx
    subst hi
    exact Parse_table letter x o current target hx
  · intro T op body remaining name hi hT hop hb hk h hm
    subst hi
    exact Parse_no_type letter T op body o remaining name hT hop hb hk h hm

theorem parse_no_error_value_witness :
    Parse noLetter (some []) usedRecord = .error .panic ∧
    Parse noLetter (some (ascii "tuple 1")) usedRecord = .error .panic ∧
    Parse noLetter (some (ascii "table a; INSERT: id[integer]:1")) usedRecord
      = .error .panic ∧
    Parse noLetter (some (ascii "table a: IN")) usedRecord = .error .outOfRange ∧
    Parse noLetter (some (ascii "table a: UPSERT: id[integer]:1")) usedRecord
      = .error .panic ∧
    Parse noLetter (some (ascii "table a: INSERT; id[integer]:1")) usedRecord
      = .error .panic ∧
    Parse noLetter (some (ascii "table a: INSERT: id:1")) usedRecord = .error .panic :=
  ⟨(parse_no_error_value noLetter (some []) usedRecord).2.2.1 (by decide),
    (parse_no_error_value noLetter (some (ascii "tuple 1")) usedRecord).2.2.2.1 0x74
      (by decide) (by decide) (by decide) (by decide),
    ((parse_no_error_value noLetter (some (ascii "table a; INSERT: id[integer]:1"))
      usedRecord).2.2.2.2.1 (ascii "a; INSERT: id[integer]:1")
      (some (ascii "; INSERT: id[integer]:1")) (some (ascii "a")) (by decide) rfl).1
      (by decide),
    ((parse_no_error_value noLetter (some (ascii "table a: IN")) usedRecord).2.2.2.2.1
      (ascii "a: IN") (some (ascii ": IN")) (some (ascii "a")) (by decide) rfl).2.1
      (by decide) (by decide),
    ((parse_no_error_value noLetter (some (ascii "table a: UPSERT: id[integer]:1"))
      usedRecord).2.2.2.2.1 (ascii "a: UPSERT: id[integer]:1")
      (some (ascii ": UPSERT: id[integer]:1")) (some (ascii "a")) (by decide) rfl).2.2.1
      (by decide) (by decide) (by decide) (by decide) (by decide),
    ((parse_no_error_value noLetter (some (ascii "table a: INSERT; id[integer]:1"))
      usedRecord).2.2.2.2.1 (ascii "a: INSERT; id[integer]:1")
      (some (ascii ": INSERT; id[integer]:1")) (some (ascii "a")) (by decide) rfl).2.2.2
      (by decide) (by decide) (by decide),
    (parse_no_error_value noLetter (some (ascii "table a: INSERT: id:1")) usedRecord).2.2.2.2.2.2
      ⟨.bare (ascii "a"), []⟩ (ascii "INSERT") (ascii "id:1") (some (ascii ":1"))
      (some (ascii "id")) (by decide) (by decide) (by decide) (by decide) (by decide) rfl
      (by decide)⟩

/-- C22. Scanner totality: on every input, nil, empty and invalid UTF-8 included,
`pgParseIdentifier` and `pgParseConstant` return, so every slice they take is in range and
their loops end.  One pass of the loop of `pgParseConstant` from any offset, and one pass of
the block at `Quoted` from any offset, leaves the loop or goes on at a greater offset within
the input; one pass of the `for` loop of `pgParseIdentifier` at an offset within the input
returns or leaves a greater offset, at most the length of the input, for the next pass. -/
theorem scanner_totality (letter : Nat → Bool) (src : Slice Nat) :
    (∃ remaining identifier, pgParseIdentifier letter src = .ok (remaining, identifier)) ∧
    (∃ remaining constant, pgParseConstant src = .ok (remaining, constant)) ∧
    (∀ i w,
      ((∀ f, pgParseConstant.loop src (f + 1) i w = pgParseConstant.loop src 1 i w) ∧
          pgParseConstant.loop src 1 i w ≠ .error .fuel) ∨
        (∃ j v, i < j ∧ j ≤ src.len ∧
          ∀ f, pgParseConstant.loop src (f + 1) i w = pgParseConstant.loop src f j v)) ∧
    (∀ i w,
      ((∀ f, pgParseIdentifier.quoted src (f + 1) i w = pgParseIdentifier.quoted src 1 i w) ∧
          pgParseIdentifier.quoted src 1 i w ≠ .error .fuel) ∨
        (∃ j v, i < j ∧ j ≤ src.len ∧
          ∀ f, pgParseIdentifier.quoted src (f + 1) i w
            = pgParseIdentifier.quoted src f j v)) ∧
    (∀ i, i < src.len →
      (∃ r, pgParseIdentifier.body letter src i = .ok (.ret r)) ∨
        (∃ j c v, pgParseIdentifier.body letter src i = .ok (.next j c v) ∧
          i < j + v ∧ j + v ≤ src.len)) := by
  refine ⟨?_, ?_, pgParseConstant_loop_step src, pgParseIdentifier_quoted_step src,
    pgParseIdentifier_body_step letter src⟩
  · obtain ⟨r, hr, _⟩ := pgParseIdentifier_conserves letter src
    exact ⟨r.1, r.2, hr⟩
  · obtain ⟨r, hr, _⟩ := pgParseConstant_conserves src
    exact ⟨r.1, r.2, hr⟩

theorem scanner_totality_witness :
    (∃ remaining identifier,
      pgParseIdentifier noLetter (some [0x22, 0xFF, 0xC3, 0x22, 0x2E, 0xE2, 0x82])
        = .ok (remaining, identifier)) ∧
    (∃ remaining constant,
      pgParseConstant (some [0x27, 0xFF, 0x27, 0x27, 0xC3]) = .ok (remaining, constant)) ∧
    ((∃ r, pgParseIdentifier.body noLetter (some [0xFF, 0x61]) 0 = .ok (.ret r)) ∨
      (∃ j c v, pgParseIdentifier.body noLetter (some [0xFF, 0x61]) 0 = .ok (.next j c v) ∧
        0 < j + v ∧ j + v ≤ Slice.len (some [0xFF, 0x61]))) :=
  ⟨(scanner_totality noLetter (some [0x22, 0xFF, 0xC3, 0x22, 0x2E, 0xE2, 0x82])).1,
    (scanner_totality noLetter (some [0x27, 0xFF, 0x27, 0x27, 0xC3])).2.1,
    (scanner_totality noLetter (some [0xFF, 0x61])).2.2.2.2 0 (by decide)⟩

/-- C23. Position is framed: for every message and every record on which `Parse` returns,
with a nil error or not, the Position of the record after the call is its Position before the
call. -/
theorem position_framed (letter : Nat → Bool) (input : Slice Nat)
    (o out : ReplicationOperation) (err : GoError)
    (h : Parse letter input o = .ok (err, out)) : out.Position = o.Position :=
  Parse_position letter input o out err h

theorem position_framed_witness :
    Parse noLetter
        (some (ascii "table public.contents: INSERT: id[integer]:1 value[text]:'a'")) usedRecord
      = .ok (none, insertedRecord) ∧
    usedRecord.Position = ascii "16/B374D848" ∧
    insertedRecord.Position = usedRecord.Position :=
  ⟨rfl, rfl,
    position_framed noLetter
      (some (ascii "table public.contents: INSERT: id[integer]:1 value[text]:'a'")) usedRecord
      insertedRecord none rfl⟩

/-! ## The property of the reset -/

/-- C10. Reset semantics: for every message on which `Parse` returns a nil error with the zero
record, `Parse` on the same message with a record whose four lists, whatever strings they
hold, share no storage (each lies in an array and no two of them share a cell, up to their
capacities) returns a nil error too and leaves the same Operation, Target, OldColumns,
OldValues, NewColumns and NewValues as in the zero record, a nil list and an empty list
counting as equal; no string the lists held survives. -/
theorem reset_semantics (grow : Nat → Nat → Nat) (letter : Nat → Bool) (input : Slice Nat)
    (a0 a1 a : Arrays) (fresh o : Mem.ReplicationOperation)
    (h : Mem.Parse grow letter input a0 Mem.zeroRecord = .ok (none, a1, fresh))
    (hs : Mem.separate a o = true) :
    ∃ a' out, Mem.Parse grow letter input a o = .ok (none, a', out) ∧
      out.Operation = fresh.Operation ∧ out.Target = fresh.Target ∧
      out.OldColumns.elems a' = fresh.OldColumns.elems a1 ∧
      out.OldValues.elems a' = fresh.OldValues.elems a1 ∧
      out.NewColumns.elems a' = fresh.NewColumns.elems a1 ∧
      out.NewValues.elems a' = fresh.NewValues.elems a1 :=
  mem_Parse_same grow letter input a0 a1 a fresh o h hs

theorem reset_semantics_witness :
    Mem.Parse growDouble noLetter
        (some (ascii "table public.contents: INSERT: id[integer]:1 value[text]:'a'")) []
        Mem.zeroRecord
      = .ok (none, Mem.freshArrays, Mem.freshRecord) ∧
    Mem.freshRecord.NewColumns.elems Mem.freshArrays = [ascii "id", ascii "value"] ∧
    Mem.freshRecord.NewValues.elems Mem.freshArrays = [ascii "1", ascii "'a'"] ∧
    (Mem.separate [fiveStrings, fiveStrings, fiveStrings, fiveStrings] Mem.ownRecord = true ∧
      ∃ a' out, Mem.Parse growDouble noLetter
          (some (ascii "table public.contents: INSERT: id[integer]:1 value[text]:'a'"))
          [fiveStrings, fiveStrings, fiveStrings, fiveStrings] Mem.ownRecord
          = .ok (none, a', out) ∧
        out.Operation = Mem.freshRecord.Operation ∧ out.Target = Mem.freshRecord.Target ∧
        out.OldColumns.elems a' = Mem.freshRecord.OldColumns.elems Mem.freshArrays ∧
        out.OldValues.elems a' = Mem.freshRecord.OldValues.elems Mem.freshArrays ∧
        out.NewColumns.elems a' = Mem.freshRecord.NewColumns.elems Mem.freshArrays ∧
        out.NewValues.elems a' = Mem.freshRecord.NewValues.elems Mem.freshArrays) ∧
    (Mem.separate [fiveStrings ++ fiveStrings ++ fiveStrings ++ fiveStrings] Mem.slicedRecord
        = true ∧
      ∃ a' out, Mem.Parse growDouble noLetter
          (some (ascii "table public.contents: INSERT: id[integer]:1 value[text]:'a'"))
          [fiveStrings ++ fiveStrings ++ fiveStrings ++ fiveStrings] Mem.slicedRecord
          = .ok (none, a', out) ∧
        out.Operation = Mem.freshRecord.Operation ∧ out.Target = Mem.freshRecord.Target ∧
        out.OldColumns.elems a' = Mem.freshRecord.OldColumns.elems Mem.freshArrays ∧
        out.OldValues.elems a' = Mem.freshRecord.OldValues.elems Mem.freshArrays ∧
        out.NewColumns.elems a' = Mem.freshRecord.NewColumns.elems Mem.freshArrays ∧
        out.NewValues.elems a' = Mem.freshRecord.NewValues.elems Mem.freshArrays) :=
  ⟨rfl, rfl, rfl,
    ⟨by decide,
      reset_semantics growDouble noLetter
        (some (ascii "table public.contents: INSERT: id[integer]:1 value[text]:'a'")) []
        Mem.freshArrays [fiveStrings, fiveStrings, fiveStrings, fiveStrings] Mem.freshRecord
        Mem.ownRecord rfl (by decide)⟩,
    ⟨by decide,
      reset_semantics growDouble noLetter
        (some (ascii "table public.contents: INSERT: id[integer]:1 value[text]:'a'")) []
        Mem.freshArrays [fiveStrings ++ fiveStrings ++ fiveStrings ++ fiveStrings]
        Mem.freshRecord Mem.slicedRecord rfl (by decide)⟩⟩

/-- A record whose four lists are one slice of five strings: on the INSERT message of the test
`Parse` returns a nil error, as with the zero record, but every value overwrites the name
stored before it, and NewColumns is left holding `1` and `'a'` where the zero record gives
`id` and `value`. -/
theorem reset_semantics_counterexample :
    Mem.Parse growDouble noLetter
        (some (ascii "table public.contents: INSERT: id[integer]:1 value[text]:'a'")) []
        Mem.zeroRecord
      = .ok (none, Mem.freshArrays, Mem.freshRecord) ∧
    Mem.freshRecord.NewColumns.elems Mem.freshArrays = [ascii "id", ascii "value"] ∧
    Mem.Parse growDouble noLetter
        (some (ascii "table public.contents: INSERT: id[integer]:1 value[text]:'a'"))
        [fiveStrings] Mem.sharedRecord
      = .ok (none, [[ascii "1", ascii "'a'", ascii "r", ascii "s", ascii "t"]],
          Mem.overwrittenRecord) ∧
    Mem.overwrittenRecord.NewColumns.elems
        [[ascii "1", ascii "'a'", ascii "r", ascii "s", ascii "t"]]
      = [ascii "1", ascii "'a'"] ∧
    Mem.overwrittenRecord.NewColumns.elems
        [[ascii "1", ascii "'a'", ascii "r", ascii "s", ascii "t"]]
      ≠ Mem.freshRecord.NewColumns.elems Mem.freshArrays :=
  ⟨rfl, rfl, rfl, rfl, by decide⟩

end PgBarrel
